import Mathlib

/-!
# Easy3D STL reader and writer (`easy3d/IO_stl.cpp`)

A shallow embedding of `CmpVec`, `read_stl` and `write_stl`.

* Files and C objects are byte sequences; a `float` is its four bytes
  (little-endian IEEE-754 binary32) and its arithmetic is done on the value
  those bytes encode, with round-to-nearest-even on every subtraction.
* `std::map<vec3, Vertex, CmpVec>` is the sequence of its entries in
  iteration order, with the lower bound that `find` and `operator[]` work
  from. This is what the tree of the library yields where the comparator is
  a strict weak ordering on the keys, the requirement under which `std::map`
  specifies its members; the properties that depend on which entry a search
  finds are stated for such keys, or on maps of at most two entries.
* The mesh, an external collaborator of this file, is modelled from the
  specification's interface.
* The text conversions of the C and C++ libraries (`operator<<` on a float,
  the `%f` conversion of `sscanf`) are parameters.
* A stream opened in text mode holds the bytes of the file unchanged, as on
  a POSIX system.
* Assertions are compiled in (`NDEBUG` is not defined): a failed `assert`
  ends the process, and `read_stl` returns `none` for it.
-/

namespace easy3d

/-! ## Bytes and floats -/

/-- One byte of a file or of an object in memory. -/
abbrev Byte := Fin 256

/-- The value of a binary32 number: not-a-number, an infinity with its sign,
or a finite value `n * 2^(-149)` held as the integer `n` (every finite
binary32 number is such a multiple). -/
inductive FVal where
  | nan : FVal
  | inf (neg : Bool) : FVal
  | fin (n : Int) : FVal
deriving DecidableEq, Repr

/-- A `float` object: its four bytes in memory order (little-endian). -/
structure F32 where
  b0 : Byte
  b1 : Byte
  b2 : Byte
  b3 : Byte
deriving DecidableEq, Repr

/-- The sign bit of a float. -/
def F32.sign (f : F32) : Bool := decide (128 ≤ f.b3.val)

/-- The biased exponent field (8 bits). -/
def F32.expo (f : F32) : Nat := (f.b3.val % 128) * 2 + f.b2.val / 128

/-- The fraction field (23 bits). -/
def F32.frac (f : F32) : Nat := (f.b2.val % 128) * 65536 + f.b1.val * 256 + f.b0.val

/-- The magnitude of a finite float in units of `2^(-149)`. -/
def F32.mag (f : F32) : Nat :=
  if f.expo = 0 then f.frac else (8388608 + f.frac) * 2 ^ (f.expo - 1)

/-- The value a float's bytes encode. -/
def F32.val (f : F32) : FVal :=
  if f.expo = 255 then
    if f.frac = 0 then FVal.inf f.sign else FVal.nan
  else if f.sign then FVal.fin (-(f.mag : Int)) else FVal.fin (f.mag : Int)

/-- How many times a magnitude must be halved to fit 24 bits; `fuel` bounds
the search and any `fuel ≥ a` is enough. -/
def shiftOf : Nat → Nat → Nat
  | 0, _ => 0
  | fuel + 1, a => if a < 16777216 then 0 else shiftOf fuel (a / 2) + 1

/-- Round a magnitude to 24 significant bits, nearest, ties to even. -/
def roundMag (a : Nat) : Nat :=
  let e := shiftOf a a
  let q := a / 2 ^ e
  let r := a % 2 ^ e
  if 2 * r < 2 ^ e ∨ (2 * r = 2 ^ e ∧ q % 2 = 0) then q * 2 ^ e else (q + 1) * 2 ^ e

/-- The first magnitude too large for a finite binary32 number, `2^128` in
units of `2^(-149)`. -/
def overflowMag : Nat := 2 ^ 139 * 2 ^ 138

/-- The binary32 result of an exact value: rounded to nearest, ties to even,
an infinity when the rounded magnitude overflows. -/
def FVal.round (x : Int) : FVal :=
  let m := roundMag x.natAbs
  if overflowMag ≤ m then FVal.inf (decide (x < 0))
  else if x < 0 then FVal.fin (-(m : Int)) else FVal.fin (m : Int)

/-- Float subtraction `a - b`. -/
def FVal.sub : FVal → FVal → FVal
  | FVal.fin a, FVal.fin b => FVal.round (a - b)
  | FVal.nan, _ => FVal.nan
  | _, FVal.nan => FVal.nan
  | FVal.inf s, FVal.inf t => if s = t then FVal.nan else FVal.inf s
  | FVal.inf s, FVal.fin _ => FVal.inf s
  | FVal.fin _, FVal.inf t => FVal.inf (!t)

/-- The absolute value `fabs`. -/
def FVal.abs : FVal → FVal
  | FVal.nan => FVal.nan
  | FVal.inf _ => FVal.inf false
  | FVal.fin n => FVal.fin (n.natAbs : Int)

/-- Float comparison `a < b` (false as soon as one side is not a number). -/
def FVal.lt : FVal → FVal → Bool
  | FVal.fin a, FVal.fin b => decide (a < b)
  | FVal.nan, _ => false
  | _, FVal.nan => false
  | FVal.inf s, FVal.inf t => s && !t
  | FVal.inf s, FVal.fin _ => s
  | FVal.fin _, FVal.inf t => !t

/-- Float comparison `a <= b` (false as soon as one side is not a number). -/
def FVal.le : FVal → FVal → Bool
  | FVal.fin a, FVal.fin b => decide (a ≤ b)
  | FVal.nan, _ => false
  | _, FVal.nan => false
  | FVal.inf s, FVal.inf t => s || !t
  | FVal.inf s, FVal.fin _ => s
  | FVal.fin _, FVal.inf t => !t

/-- The constant `FLT_MIN` of `<cfloat>`: the least positive normal float,
`2^(-126)`, bit pattern `0x00800000`. -/
def FLT_MIN : F32 := ⟨0, 0, 128, 0⟩

/-- A point `vec3`: three floats. -/
structure vec3 where
  x : F32
  y : F32
  z : F32
deriving DecidableEq, Repr

/-! ## `CmpVec` -/

/-- The comparator class `CmpVec`, with its tolerance `eps_`. -/
structure CmpVec where
  eps_ : F32

/-- The call operator `CmpVec::operator()(v0, v1)`. -/
def CmpVec.call (c : CmpVec) (v0 v1 : vec3) : Bool :=
  if FVal.le (FVal.abs (FVal.sub v0.x.val v1.x.val)) c.eps_.val then
    if FVal.le (FVal.abs (FVal.sub v0.y.val v1.y.val)) c.eps_.val then
      FVal.lt v0.z.val (FVal.sub v1.z.val c.eps_.val)
    else FVal.lt v0.y.val (FVal.sub v1.y.val c.eps_.val)
  else FVal.lt v0.x.val (FVal.sub v1.x.val c.eps_.val)

/-! ## Objects in memory -/

/-- The bytes of a C string literal (without its terminator). -/
def cstr (s : String) : List Byte := s.toList.map (fun c => Fin.ofNat c.toNat)

/-- What an object holds after its first bytes were overwritten by `new`:
the bytes not reached keep their old content. -/
def overwrite (old new : List Byte) : List Byte := new ++ old.drop new.length

/-- The unsigned integer a little-endian byte sequence encodes. -/
def leNat : List Byte → Nat
  | [] => 0
  | b :: bs => b.val + 256 * leNat bs

/-- The first `k` bytes of an unsigned integer in memory order. -/
def leBytes : Nat → Nat → List Byte
  | 0, _ => []
  | k + 1, n => Fin.ofNat n :: leBytes k (n / 256)

/-- The twelve bytes of a `vec3` in memory order. -/
def vec3.toBytes (p : vec3) : List Byte :=
  [p.x.b0, p.x.b1, p.x.b2, p.x.b3, p.y.b0, p.y.b1, p.y.b2, p.y.b3,
   p.z.b0, p.z.b1, p.z.b2, p.z.b3]

/-- The `vec3` held by twelve bytes of memory. -/
def vec3.ofBytes (bs : List Byte) : vec3 :=
  ⟨⟨bs.getD 0 0, bs.getD 1 0, bs.getD 2 0, bs.getD 3 0⟩,
   ⟨bs.getD 4 0, bs.getD 5 0, bs.getD 6 0, bs.getD 7 0⟩,
   ⟨bs.getD 8 0, bs.getD 9 0, bs.getD 10 0, bs.getD 11 0⟩⟩

/-! ## The mesh -/

/-- A vertex handle `SurfaceMesh::Vertex`: an index into the vertex storage,
`-1` for the handle a default constructor makes. -/
abbrev Vertex := Int

/-- Modelled from the spec: the class `SurfaceMesh`, which this file only
uses. The mesh keeps its vertex positions (the `v:point` property, by vertex
index), its faces (each the handles of its vertices in winding order, in
enumeration order) and, when present, the `f:normal` face property (by face
index). -/
structure SurfaceMesh where
  points : List vec3
  faces : List (List Vertex)
  fnormal : Option (List vec3)
deriving DecidableEq, Repr

/-- Modelled from the spec: `SurfaceMesh::clear`, after which the mesh has no
vertex, no face and no `f:normal` property. -/
def SurfaceMesh.clear (_ : SurfaceMesh) : SurfaceMesh := ⟨[], [], none⟩

/-- Modelled from the spec: `SurfaceMesh::add_vertex`, which stores the
position and returns the handle created for it. -/
def SurfaceMesh.add_vertex (m : SurfaceMesh) (p : vec3) : SurfaceMesh × Vertex :=
  ({ m with points := m.points ++ [p] }, (m.points.length : Int))

/-- Modelled from the spec: `SurfaceMesh::add_face`, which appends a face
with the given vertices (a face property gets one more default entry). -/
def SurfaceMesh.add_face (m : SurfaceMesh) (vs : List Vertex) : SurfaceMesh :=
  { m with faces := m.faces ++ [vs],
           fnormal := m.fnormal.map (fun ns => ns ++ [⟨⟨0, 0, 0, 0⟩, ⟨0, 0, 0, 0⟩, ⟨0, 0, 0, 0⟩⟩]) }

/-- Modelled from the spec: `SurfaceMesh::n_faces`. -/
def SurfaceMesh.n_faces (m : SurfaceMesh) : Nat := m.faces.length

/-- Modelled from the spec: `SurfaceMesh::n_vertices`. -/
def SurfaceMesh.n_vertices (m : SurfaceMesh) : Nat := m.points.length

/-- Modelled from the spec: `SurfaceMesh::is_triangle_mesh`, true when every
face has exactly three vertices. -/
def SurfaceMesh.is_triangle_mesh (m : SurfaceMesh) : Bool :=
  m.faces.all (fun f => f.length == 3)

/-! ## The vertex map `std::map<vec3, Vertex, CmpVec>` -/

/-- The entries of the map in iteration order: in increasing order of the
keys where the comparator is a strict weak ordering on them. -/
abbrev VMap := List (vec3 × Vertex)

/-- The member `find(k)`: the lower bound of `k` (the first entry in
iteration order whose key is not less than `k`) is the result unless `k` is
less than its key. The search of the library's tree ends at this entry where
the comparator is a strict weak ordering on the keys and `k`. -/
def VMap.find (comp : CmpVec) (m : VMap) (k : vec3) : Option Vertex :=
  match m.dropWhile (fun e => comp.call e.1 k) with
  | [] => none
  | e :: _ => if comp.call k e.1 then none else some e.2

/-- The assignment `m[k] = v`: `operator[]` takes the lower bound of `k`,
inserts a new entry before it when there is none or `k` is less than its
key, and the value of the entry is then set. The new entry takes this place
in the iteration order of the library's tree where the comparator is a
strict weak ordering on the keys and `k`. -/
def VMap.assign (comp : CmpVec) (m : VMap) (k : vec3) (v : Vertex) : VMap :=
  let before := m.takeWhile (fun e => comp.call e.1 k)
  match m.dropWhile (fun e => comp.call e.1 k) with
  | [] => before ++ [(k, v)]
  | e :: rest =>
    if comp.call k e.1 then before ++ (k, v) :: e :: rest
    else before ++ (e.1, v) :: rest

/-! ## Reading -/

/-- The three-element vector `vertices` of `read_stl`. -/
structure Tri where
  v0 : Vertex
  v1 : Vertex
  v2 : Vertex
deriving DecidableEq, Repr

/-- The assignment `vertices[i] = v` for `i` in `0..2`. -/
def Tri.set (t : Tri) (i : Nat) (v : Vertex) : Tri :=
  match i with
  | 0 => { t with v0 := v }
  | 1 => { t with v1 := v }
  | _ => { t with v2 := v }

/-- The vector as the sequence handed to `add_face`. -/
def Tri.toList (t : Tri) : List Vertex := [t.v0, t.v1, t.v2]

/-- The local state of one `read_stl` call: the unread part of the file, the
buffer `line`, the point `p`, the vector `vertices`, the map `vMap` and the
mesh. -/
structure RState where
  input : List Byte
  line : List Byte
  p : vec3
  vertices : Tri
  vMap : VMap
  mesh : SurfaceMesh
deriving DecidableEq, Repr

/-- The call `fread(buf, 1, n, in)`: the bytes obtained (at most `n`, fewer
when the file ends) and the unread rest. -/
def fread (n : Nat) (s : List Byte) : List Byte × List Byte := (s.take n, s.drop n)

/-- The characters `fgets` stores when it may store `k` of them: it stops
after a newline and at the end of the file. -/
def fgetsChars : Nat → List Byte → List Byte × List Byte
  | 0, s => ([], s)
  | _ + 1, [] => ([], [])
  | k + 1, b :: s =>
    if b = 10 then ([b], s)
    else ((fgetsChars k s).1.cons b, (fgetsChars k s).2)

/-- The helper `read(in, t)` on an object whose bytes are `t`: as many bytes
as the object has are asked for, the assertion `n_items > 0` fails (`none`)
when not one was obtained, and the bytes obtained replace the first bytes of
the object. -/
def read (t : List Byte) (s : List Byte) : Option (List Byte × List Byte) :=
  if (fread t.length s).1.length = 0 then none
  else some (overwrite t (fread t.length s).1, (fread t.length s).2)

/-- The call `fgets(line, n, in)`: `none` for the null result at the end of
the file, else the new content of `line` (the characters, a terminator, and
the old bytes beyond it) and the unread rest. -/
def fgets (n : Nat) (line s : List Byte) : Option (List Byte × List Byte) :=
  match s with
  | [] => none
  | _ :: _ => some (overwrite line ((fgetsChars (n - 1) s).1 ++ [0]), (fgetsChars (n - 1) s).2)

/-- The test `strncmp(a, b, n) == 0` on the bytes found from two pointers
on; both strings end at their first zero byte. -/
def strncmp0 : Nat → List Byte → List Byte → Bool
  | 0, _, _ => true
  | n + 1, a, b =>
    if a.headD 0 ≠ b.headD 0 then false
    else if a.headD 0 = 0 then true
    else strncmp0 n a.tail b.tail

/-- The function `isspace` in the C locale. -/
def isspace (b : Byte) : Bool := decide (b.val = 32 ∨ (9 ≤ b.val ∧ b.val ≤ 13))

/-- The loop `for (c=line; isspace(*c) && *c!=0; ++c)`: the bytes from the
first one that is not white space on. -/
def skipSpace (line : List Byte) : List Byte :=
  line.dropWhile (fun b => isspace b && decide (b ≠ 0))

/-- The format test of `read_stl`: binary unless the five characters read
are `SOLID` or `solid`. -/
def isBinary (line : List Byte) : Bool :=
  !(strncmp0 5 line (cstr "SOLID")) && !(strncmp0 5 line (cstr "solid"))

/-- The look-up of the binary branch (`has vector been referenced
before?`): a point not found is added to the mesh and remembered in the map,
a point found takes the handle the map holds; `vertices[i]` gets the handle. -/
def binResolve (comp : CmpVec) (i : Nat) (st : RState) : RState :=
  match st.vMap.find comp st.p with
  | none =>
    { st with
      mesh := (st.mesh.add_vertex st.p).1,
      vertices := st.vertices.set i (st.mesh.add_vertex st.p).2,
      vMap := st.vMap.assign comp st.p (st.mesh.add_vertex st.p).2 }
  | some v => { st with vertices := st.vertices.set i v }

/-- One pass of the vertex loop of the binary branch: `read(in, p)` with its
assertion (`none` when it fails), then the look-up of `p`. -/
def binVertex (comp : CmpVec) (i : Nat) (st : RState) : Option RState :=
  match read st.p.toBytes st.input with
  | none => none
  | some (bytes, rest) =>
    some (binResolve comp i { st with input := rest, p := vec3.ofBytes bytes })

/-- The test before `add_face` in the binary branch, and the call when it
holds. -/
def binAddFace (st : RState) : RState :=
  if st.vertices.v0 ≠ st.vertices.v1 ∧ st.vertices.v0 ≠ st.vertices.v2 ∧
      st.vertices.v1 ≠ st.vertices.v2 then
    { st with mesh := st.mesh.add_face st.vertices.toList }
  else st

/-- One pass of the `while (nT)` loop: the normal is skipped, three vertices
are read, the face is added when proper, the two attribute bytes are
skipped. Each of the five reads carries its assertion. -/
def binTriangle (comp : CmpVec) (st : RState) : Option RState :=
  if (fread 12 st.input).1.length = 0 then none
  else
    (binVertex comp 0 { st with line := overwrite st.line (fread 12 st.input).1,
                                input := (fread 12 st.input).2 }).bind fun s0 =>
    (binVertex comp 1 s0).bind fun s1 =>
    (binVertex comp 2 s1).bind fun s2 =>
    if (fread 2 (binAddFace s2).input).1.length = 0 then none
    else
      some { binAddFace s2 with
        line := overwrite (binAddFace s2).line (fread 2 (binAddFace s2).input).1,
        input := (fread 2 (binAddFace s2).input).2 }

/-- The loop `while (nT) { ...; --nT; }`. -/
def binLoop (comp : CmpVec) : Nat → RState → Option RState
  | 0, st => some st
  | nT + 1, st => (binTriangle comp st).bind (binLoop comp nT)

/-- The binary branch of `read_stl` on the re-opened file: the header is
skipped, the count is read into the 32-bit `nT` (which holds `nT0` before
the read), the triangles are read. -/
def readBinary (comp : CmpVec) (nT0 : Nat) (st : RState) : Option RState :=
  if (fread 80 st.input).1.length = 0 then none
  else
    match read (leBytes 4 nT0) (fread 80 st.input).2 with
    | none => none
    | some (bytes, rest) =>
      binLoop comp (leNat bytes)
        { st with line := overwrite st.line (fread 80 st.input).1, input := rest }

/-- The text conversions of the C and C++ libraries, which are no part of
this file: `strtof` is the `%f` conversion of `sscanf` (white space is
skipped, the longest prefix that is a number is converted; the result is the
float and the unread rest, `none` when nothing converts), `fmt` is the text
`operator<<` writes for a float. -/
structure Libc where
  strtof : List Byte → Option (F32 × List Byte)
  fmt : F32 → List Byte

/-- The C string found from a pointer on: the bytes before the first zero. -/
def cstring (mem : List Byte) : List Byte := mem.takeWhile (fun b => decide (b ≠ 0))

/-- The call `sscanf(s, "%f %f %f", &p[0], &p[1], &p[2])`: the components
are assigned in order and the ones after a failed conversion keep their old
value. -/
def sscanf3 (L : Libc) (s : List Byte) (p : vec3) : vec3 :=
  match L.strtof s with
  | none => p
  | some (x, s1) =>
    match L.strtof s1 with
    | none => { p with x := x }
    | some (y, s2) =>
      match L.strtof s2 with
      | none => { p with x := x, y := y }
      | some (z, _) => ⟨x, y, z⟩

/-- The look-up of the ASCII branch (`has vector been referenced before?`). -/
def asciiResolve (comp : CmpVec) (i : Nat) (st : RState) : RState :=
  match st.vMap.find comp st.p with
  | none =>
    { st with
      mesh := (st.mesh.add_vertex st.p).1,
      vertices := st.vertices.set i (st.mesh.add_vertex st.p).2,
      vMap := st.vMap.assign comp st.p (st.mesh.add_vertex st.p).2 }
  | some v => { st with vertices := st.vertices.set i v }

/-- One pass of the vertex loop of the ASCII branch: a line is read (`none`
when the assertion on `fgets` fails), white space is skipped, the three
numbers are scanned six characters further on, the point is looked up. The
string scanned is what the buffer holds from `c+6` to the next zero byte
(nothing when `c+6` lies beyond the buffer). -/
def asciiVertex (L : Libc) (comp : CmpVec) (i : Nat) (st : RState) : Option RState :=
  match fgets 100 st.line st.input with
  | none => none
  | some (line, rest) =>
    some (asciiResolve comp i { st with
      input := rest, line := line,
      p := sscanf3 L (cstring ((skipSpace line).drop 6)) st.p })

/-- The test before `add_face` in the ASCII branch, and the call when it
holds. -/
def asciiAddFace (st : RState) : RState :=
  if st.vertices.v0 ≠ st.vertices.v1 ∧ st.vertices.v0 ≠ st.vertices.v2 ∧
      st.vertices.v1 ≠ st.vertices.v2 then
    { st with mesh := st.mesh.add_face st.vertices.toList }
  else st

/-- The body of `face begins`: three vertices are read and the face is
added when proper. -/
def asciiTriangle (L : Libc) (comp : CmpVec) (st : RState) : Option RState :=
  (asciiVertex L comp 0 st).bind fun s0 =>
  (asciiVertex L comp 1 s0).bind fun s1 =>
  (asciiVertex L comp 2 s1).bind fun s2 =>
  some (asciiAddFace s2)

/-- The test `face begins` on the line just read. -/
def isOuter (line : List Byte) : Bool :=
  strncmp0 5 (skipSpace line) (cstr "outer") || strncmp0 5 (skipSpace line) (cstr "OUTER")

/-- The loop `while (in && !feof(in) && fgets(line, 100, in))` of the ASCII
branch. Every pass reads at least one byte, so `fuel` above the number of
unread bytes lets the loop run to its end. -/
def asciiLoop (L : Libc) (comp : CmpVec) : Nat → RState → Option RState
  | 0, st => some st
  | fuel + 1, st =>
    match fgets 100 st.line st.input with
    | none => some st
    | some (line, rest) =>
      if isOuter line then
        (asciiTriangle L comp { st with input := rest, line := line }).bind
          (asciiLoop L comp fuel)
      else asciiLoop L comp fuel { st with input := rest, line := line }

/-- What the local variables of `read_stl` hold before they are first
written: the buffer `line`, the count `nT`, the point `p` and the vector
`vertices`. -/
structure Locals where
  line : List Byte
  nT : Nat
  p : vec3
  vertices : Tri

/-- The function `read_stl(mesh, filename)`. The file is `none` when it cannot
be opened, else its content. The result is `none` when an assertion fails
(the process is aborted), else the value returned and the mesh. -/
def read_stl (L : Libc) (loc : Locals) (mesh : SurfaceMesh) (file : Option (List Byte)) :
    Option (Bool × SurfaceMesh) :=
  match file with
  | none => some (false, mesh.clear)
  | some content =>
    match fgets 6 loc.line content with
    | none => none
    | some (line, rest) =>
      if isBinary line then
        (readBinary ⟨FLT_MIN⟩ loc.nT
            ⟨content, line, loc.p, loc.vertices, [], mesh.clear⟩).map
          fun st => (decide (st.mesh.n_faces > 0), st.mesh)
      else
        (asciiLoop L ⟨FLT_MIN⟩ (rest.length + 1)
            ⟨rest, line, loc.p, loc.vertices, [], mesh.clear⟩).map
          fun st => (decide (st.mesh.n_faces > 0), st.mesh)

/-! ## Writing -/

/-- The three numbers of a point as `write_stl` prints them, separated by
single blanks. -/
def fmt3 (L : Libc) (p : vec3) : List Byte :=
  L.fmt p.x ++ cstr " " ++ L.fmt p.y ++ cstr " " ++ L.fmt p.z

/-- The line written for one vertex of a face: `points[v]` after the word
`vertex`. -/
def vertexLine (L : Libc) (mesh : SurfaceMesh) (v : Vertex) : List Byte :=
  cstr "      vertex " ++
    fmt3 L (mesh.points.getD v.toNat ⟨⟨0, 0, 0, 0⟩, ⟨0, 0, 0, 0⟩, ⟨0, 0, 0, 0⟩⟩)

/-- The lines written for the face of index `i` with vertices `f`: every
element is one line, ended by `std::endl` in the file. -/
def facetLines (L : Libc) (mesh : SurfaceMesh) (fnormals : List vec3) (i : Nat)
    (f : List Vertex) : List (List Byte) :=
  [cstr "  facet normal " ++
      fmt3 L (fnormals.getD i ⟨⟨0, 0, 0, 0⟩, ⟨0, 0, 0, 0⟩, ⟨0, 0, 0, 0⟩⟩),
   cstr "    outer loop"] ++
  f.map (vertexLine L mesh) ++
  [cstr "    endloop", cstr "  endfacet"]

/-- The loop `for (auto f : mesh.faces())` from the face of index `i` on. -/
def facesLines (L : Libc) (mesh : SurfaceMesh) (fnormals : List vec3) :
    Nat → List (List Vertex) → List (List Byte)
  | _, [] => []
  | i, f :: fs => facetLines L mesh fnormals i f ++ facesLines L mesh fnormals (i + 1) fs

/-- All the lines `write_stl` sends to the stream. -/
def stlLines (L : Libc) (mesh : SurfaceMesh) (fnormals : List vec3) : List (List Byte) :=
  [cstr "solid stl"] ++ facesLines L mesh fnormals 0 mesh.faces ++ [cstr "endsolid"]

/-- The bytes of the stream: every line followed by the newline of
`std::endl`. -/
def stlText (lines : List (List Byte)) : List Byte :=
  (lines.map (fun l => l ++ [10])).flatten

/-- What a call of `write_stl` leaves: the value returned, the mesh, the
content of the file written (`none` when no file was written) and the text
sent to `std::cerr`. -/
structure WResult where
  ret : Bool
  mesh : SurfaceMesh
  file : Option (List Byte)
  cerr : List Byte
deriving DecidableEq, Repr

/-- The function `write_stl(mesh, filename)`; `canOpen` tells whether the
output stream can open the file. A stream that failed to open ignores what
is sent to it. -/
def write_stl (L : Libc) (mesh : SurfaceMesh) (canOpen : Bool) : WResult :=
  if !mesh.is_triangle_mesh then
    ⟨false, mesh, none, cstr "write_stl: not a triangle mesh!" ++ [10]⟩
  else
    match mesh.fnormal with
    | none => ⟨false, mesh, none, cstr "write_stl: no a face normals present!" ++ [10]⟩
    | some fnormals =>
      ⟨true, mesh, if canOpen then some (stlText (stlLines L mesh fnormals)) else none, []⟩

/-- A magnitude a float can hold exactly: at most 24 significant bits. -/
def Rep24 (r : Nat) : Prop := ∃ m f : Nat, m < 16777216 ∧ r = m * 2 ^ f

/-! ## Vocabulary of the properties -/

/-- Two points are equivalent under a comparator when neither is less than
the other: the map takes them for the same key. -/
def CmpVec.equiv (c : CmpVec) (a b : vec3) : Bool := !c.call a b && !c.call b a

/-- Two floats are finite and their exact difference is at most `eps` in
magnitude. -/
def F32.within (eps a b : F32) : Bool :=
  match a.val, b.val, eps.val with
  | FVal.fin m, FVal.fin n, FVal.fin e => decide (((m - n).natAbs : Int) ≤ e)
  | _, _, _ => false

/-- The differences of two points in x, in y and in z are all at most `eps`. -/
def vec3.within (eps : F32) (p q : vec3) : Bool :=
  F32.within eps p.x q.x && F32.within eps p.y q.y && F32.within eps p.z q.z

/-- The look-up of a point `p` for the slot `i` of `vertices`. -/
def resolve (comp : CmpVec) (i : Nat) (p : vec3) (st : RState) : RState :=
  binResolve comp i { st with p := p }

/-- What one triangle does to the point, the vector, the map and the mesh:
its three corners are looked up in order and the face is added when proper. -/
def feed (comp : CmpVec) (t : vec3 × vec3 × vec3) (st : RState) : RState :=
  binAddFace (resolve comp 2 t.2.2 (resolve comp 1 t.2.1 (resolve comp 0 t.1 st)))

/-- A sequence of triangles fed one after the other. -/
def feedAll (comp : CmpVec) (ts : List (vec3 × vec3 × vec3)) (st : RState) : RState :=
  ts.foldl (fun s t => feed comp t s) st

/-- One record of a binary STL file: the normal, the three corners and the
two attribute bytes. -/
structure Record where
  normal : vec3
  a : vec3
  b : vec3
  c : vec3
  attr0 : Byte
  attr1 : Byte
deriving DecidableEq, Repr

/-- The fifty bytes of a record. -/
def Record.toBytes (r : Record) : List Byte :=
  r.normal.toBytes ++ (r.a.toBytes ++ (r.b.toBytes ++ (r.c.toBytes ++ [r.attr0, r.attr1])))

/-- The three corners of a record in file order. -/
def Record.corners (r : Record) : vec3 × vec3 × vec3 := (r.a, r.b, r.c)

/-- The bytes of a sequence of records. -/
def recordsBytes : List Record → List Byte
  | [] => []
  | r :: rs => r.toBytes ++ recordsBytes rs

/-- A complete binary STL file: a header, the count of the records in four
bytes, the records. -/
def stlBinary (header : List Byte) (rs : List Record) : List Byte :=
  header ++ (leBytes 4 rs.length ++ recordsBytes rs)

/-- A state with another stream and another buffer. -/
def RState.reframe (st : RState) (inp ln : List Byte) : RState :=
  { st with input := inp, line := ln }

/-- The position a handle stands for in a mesh, when it stands for one. -/
def SurfaceMesh.position (m : SurfaceMesh) (v : Vertex) : Option vec3 :=
  if 0 ≤ v then m.points.get? v.toNat else none

/-- Every entry of the map holds the handle of a vertex placed at its key. -/
def MapSound (st : RState) : Prop :=
  ∀ e ∈ st.vMap, st.mesh.position e.2 = some e.1

/-- The element `vertices[i]` for `i` in `0..2`. -/
def Tri.get (t : Tri) (i : Nat) : Vertex :=
  match i with
  | 0 => t.v0
  | 1 => t.v1
  | _ => t.v2

/-- The three corners of a triangle as a sequence. -/
def cornersOf (t : vec3 × vec3 × vec3) : List vec3 := [t.1, t.2.1, t.2.2]

/-- The point `k` is equivalent under the comparator to both `a` and `b`. -/
def CmpVec.shares (comp : CmpVec) (k a b : vec3) : Bool :=
  comp.equiv k a && comp.equiv k b

/-- No corner of any triangle of the sequence is equivalent under the
comparator to two corners of one triangle of the sequence. -/
def Separated (comp : CmpVec) (ts : List (vec3 × vec3 × vec3)) : Prop :=
  ∀ t ∈ ts, ∀ u ∈ ts, ∀ k ∈ cornersOf u,
    comp.shares k t.1 t.2.1 = false ∧ comp.shares k t.1 t.2.2 = false ∧
      comp.shares k t.2.1 t.2.2 = false

/-- No two corners of one triangle of the sequence are equivalent under the
comparator. -/
def NonDegenerate (comp : CmpVec) (ts : List (vec3 × vec3 × vec3)) : Prop :=
  ∀ t ∈ ts, comp.equiv t.1 t.2.1 = false ∧ comp.equiv t.1 t.2.2 = false ∧
    comp.equiv t.2.1 t.2.2 = false

/-- Library conversions that convert nothing, for calls that take the
binary branch, where no text is converted. -/
def noLibc : Libc := ⟨fun _ => none, fun _ => []⟩

/-- The float `0`. -/
def F32.zero : F32 := ⟨0, 0, 0, 0⟩

/-- The float `1`, bit pattern `0x3F800000`. -/
def F32.one : F32 := ⟨0, 0, 128, 63⟩

/-- The least positive float, `2^(-149)`, bit pattern `0x00000001`. -/
def F32.tiny : F32 := ⟨1, 0, 0, 0⟩

/-- The float `2 * FLT_MIN`, bit pattern `0x01000000`. -/
def F32.twoMin : F32 := ⟨0, 0, 0, 1⟩

/-- The point at the origin. -/
def vec3.zero : vec3 := ⟨F32.zero, F32.zero, F32.zero⟩

/-- Local variables that hold zeros, and invalid handles in `vertices`. -/
def zeroLocals : Locals := ⟨List.replicate 100 0, 0, vec3.zero, ⟨-1, -1, -1⟩⟩

/-- A mesh with no vertex and no face. -/
def emptyMesh : SurfaceMesh := ⟨[], [], none⟩

/-- A header of eighty zero bytes. -/
def zeroHeader : List Byte := List.replicate 80 0

/-- A record with a zero normal and zero attribute bytes. -/
def recordOf (a b c : vec3) : Record := ⟨vec3.zero, a, b, c, 0, 0⟩

/-- The triangle with corners `(0,0,0)`, `(1,0,0)`, `(0,1,0)`. -/
def unitRecord : Record :=
  recordOf vec3.zero ⟨F32.one, F32.zero, F32.zero⟩ ⟨F32.zero, F32.one, F32.zero⟩

/-- A triangle with three different corners, two of them `2^(-149)` apart:
`(0,0,0)`, `(2^(-149),0,0)`, `(1,0,0)`. -/
def closeRecord : Record :=
  recordOf vec3.zero ⟨F32.tiny, F32.zero, F32.zero⟩ ⟨F32.one, F32.zero, F32.zero⟩

/-- The comparator is a strict weak ordering on the points of a sequence:
it is transitive on them and so is the equivalence it induces. -/
def StrictWeakOn (comp : CmpVec) (ps : List vec3) : Prop :=
  (∀ a ∈ ps, ∀ b ∈ ps, ∀ c ∈ ps,
    comp.call a b = true → comp.call b c = true → comp.call a c = true) ∧
  (∀ a ∈ ps, ∀ b ∈ ps, ∀ c ∈ ps,
    comp.equiv a b = true → comp.equiv b c = true → comp.equiv a c = true)

/-- The state `read_stl` starts its parse from: an empty map and the
cleared mesh. -/
def startState (loc : Locals) (input line : List Byte) : RState :=
  ⟨input, line, loc.p, loc.vertices, [], emptyMesh⟩

/-- The keys of a map are in increasing order of the comparator. -/
def VMap.Sorted (comp : CmpVec) (m : VMap) : Prop :=
  m.Pairwise (fun e1 e2 => comp.call e1.1 e2.1 = true)

/-- The three handles of `vertices` are pairwise distinct. -/
def Tri.Proper (t : Tri) : Prop := t.v0 ≠ t.v1 ∧ t.v0 ≠ t.v2 ∧ t.v1 ≠ t.v2

instance (t : Tri) : Decidable t.Proper := by
  unfold Tri.Proper
  infer_instance

/-- A binary file of one triangle whose three corners are the origin. -/
def sameCornersFile : List Byte :=
  stlBinary zeroHeader [recordOf vec3.zero vec3.zero vec3.zero]

/-- The complete binary file of the triangle `(0,0,0)`, `(1,0,0)`, `(0,1,0)`
without its last byte, the second attribute byte of the record. -/
def cutFile : List Byte := (stlBinary zeroHeader [unitRecord]).take 133

/-- The position `points[v]` of a vertex (zeros beyond the storage). -/
def SurfaceMesh.point (mesh : SurfaceMesh) (v : Vertex) : vec3 :=
  mesh.points.getD v.toNat ⟨⟨0, 0, 0, 0⟩, ⟨0, 0, 0, 0⟩, ⟨0, 0, 0, 0⟩⟩

/-- The text of one facet as the specification words it: a `facet normal`
line with the normal, an `outer loop` line, three `vertex` lines with the
positions of the corners, an `endloop` line and an `endfacet` line. -/
def specFacet (L : Libc) (n a b c : vec3) : List (List Byte) :=
  [cstr "  facet normal " ++ fmt3 L n,
   cstr "    outer loop",
   cstr "      vertex " ++ fmt3 L a,
   cstr "      vertex " ++ fmt3 L b,
   cstr "      vertex " ++ fmt3 L c,
   cstr "    endloop",
   cstr "  endfacet"]

/-- A mesh of one triangle with corners `(0,0,0)`, `(1,0,0)`, `(0,1,0)` and
the face normal `(0,0,1)`. -/
def oneTriangleMesh : SurfaceMesh :=
  ⟨[vec3.zero, ⟨F32.one, F32.zero, F32.zero⟩, ⟨F32.zero, F32.one, F32.zero⟩],
   [[0, 1, 2]],
   some [⟨F32.zero, F32.zero, F32.one⟩]⟩

/-- A mesh of one face with four corners, with a face normal. -/
def quadMesh : SurfaceMesh :=
  ⟨[vec3.zero, ⟨F32.one, F32.zero, F32.zero⟩, ⟨F32.one, F32.one, F32.zero⟩,
    ⟨F32.zero, F32.one, F32.zero⟩],
   [[0, 1, 2, 3]],
   some [⟨F32.zero, F32.zero, F32.one⟩]⟩

/-- The hexadecimal digit of a number below sixteen. -/
def hexDigit (n : Nat) : Byte := if n < 10 then Fin.ofNat (48 + n) else Fin.ofNat (87 + n)

/-- The value of a hexadecimal digit. -/
def hexValue (b : Byte) : Option Nat :=
  if 48 ≤ b.val ∧ b.val ≤ 57 then some (b.val - 48)
  else if 97 ≤ b.val ∧ b.val ≤ 102 then some (b.val - 87)
  else none

/-- The two hexadecimal digits of a byte. -/
def hexByte (b : Byte) : List Byte := [hexDigit (b.val / 16), hexDigit (b.val % 16)]

/-- The byte two hexadecimal digits stand for. -/
def unhexByte (hi lo : Byte) : Option Byte :=
  match hexValue hi, hexValue lo with
  | some h, some l => some (Fin.ofNat (16 * h + l))
  | _, _ => none

/-- A stand-in for the library conversions, with which theorems are
instantiated: a float is written as the eight hexadecimal digits of its bit
pattern and read back from eight such digits after optional white space, so
that writing and reading lose nothing. -/
def hexLibc : Libc where
  strtof := fun s =>
    match s.dropWhile isspace with
    | c7 :: c6 :: c5 :: c4 :: c3 :: c2 :: c1 :: c0 :: rest =>
      match unhexByte c7 c6, unhexByte c5 c4, unhexByte c3 c2, unhexByte c1 c0 with
      | some b3, some b2, some b1, some b0 => some (⟨b0, b1, b2, b3⟩, rest)
      | _, _, _, _ => none
    | _ => none
  fmt := fun f => hexByte f.b3 ++ hexByte f.b2 ++ hexByte f.b1 ++ hexByte f.b0

/-- A mesh of one triangle two corners of which are different vertices at
the same position, with a face normal. -/
def doubledMesh : SurfaceMesh :=
  ⟨[vec3.zero, vec3.zero, ⟨F32.one, F32.zero, F32.zero⟩],
   [[0, 1, 2]],
   some [⟨F32.zero, F32.zero, F32.one⟩]⟩

/-- The point `sscanf` leaves in `p` after the `vertex` line written for the
position `pt`, `p` being the point before. -/
def scanVertexLine (L : Libc) (pt p : vec3) : vec3 :=
  sscanf3 L (cstring (cstr " " ++ (fmt3 L pt ++ [10]))) p

/-- The three corners read back from the `vertex` lines written for a face,
`p` being the point before the first of them. -/
def readBackFace (L : Libc) (mesh : SurfaceMesh) (f : List Vertex) (p : vec3) :
    vec3 × vec3 × vec3 :=
  match f with
  | [a, b, c] =>
    (scanVertexLine L (mesh.point a) p,
     scanVertexLine L (mesh.point b) (scanVertexLine L (mesh.point a) p),
     scanVertexLine L (mesh.point c)
       (scanVertexLine L (mesh.point b) (scanVertexLine L (mesh.point a) p)))
  | _ => (p, p, p)

/-- The triangles read back from the text written for a sequence of faces. -/
def readBack (L : Libc) (mesh : SurfaceMesh) : List (List Vertex) → vec3 →
    List (vec3 × vec3 × vec3)
  | [], _ => []
  | f :: fs, p => readBackFace L mesh f p :: readBack L mesh fs (readBackFace L mesh f p).2.2

/-- The corners of a sequence of triangles in the order in which `read_stl`
looks them up. -/
def allCorners : List (vec3 × vec3 × vec3) → List vec3
  | [] => []
  | t :: ts => t.1 :: t.2.1 :: t.2.2 :: allCorners ts

/-- Every corner of a sequence of triangles with the handle its look-up
stored in `vertices`, in the order of the look-ups. -/
def feedPairs (comp : CmpVec) : List (vec3 × vec3 × vec3) → RState → List (vec3 × Vertex)
  | [], _ => []
  | t :: ts, st =>
    (t.1, (resolve comp 0 t.1 st).vertices.v0) ::
    (t.2.1, (resolve comp 1 t.2.1 (resolve comp 0 t.1 st)).vertices.v1) ::
    (t.2.2, (resolve comp 2 t.2.2
      (resolve comp 1 t.2.1 (resolve comp 0 t.1 st))).vertices.v2) ::
    feedPairs comp ts (feed comp t st)

/-- The triangle `(0,0,0)`, `(2 FLT_MIN,0,0)`, `(FLT_MIN,0,0)`: the last
corner is within `FLT_MIN` of both others, which are `2 FLT_MIN` apart. -/
def chainTriangle : vec3 × vec3 × vec3 :=
  (vec3.zero, ⟨F32.twoMin, F32.zero, F32.zero⟩, ⟨FLT_MIN, F32.zero, F32.zero⟩)

/-- The look-up of the ASCII branch for the point `p` that `sscanf` left and
the slot `i` of `vertices`. -/
def asciiResolveAt (comp : CmpVec) (i : Nat) (p : vec3) (st : RState) : RState :=
  asciiResolve comp i { st with p := p }

/-- What the ASCII branch does with the three positions of one triangle:
they are looked up in order and the face is added when proper. -/
def asciiFeed (comp : CmpVec) (t : vec3 × vec3 × vec3) (st : RState) : RState :=
  asciiAddFace (asciiResolveAt comp 2 t.2.2 (asciiResolveAt comp 1 t.2.1
    (asciiResolveAt comp 0 t.1 st)))

/-- A sequence of triangles handled by the ASCII branch one after the
other. -/
def asciiFeedAll (comp : CmpVec) (ts : List (vec3 × vec3 × vec3)) (st : RState) : RState :=
  ts.foldl (fun s t => asciiFeed comp t s) st

/-- The triangle `(FLT_MIN,0,0)`, `(0,0,0)`, `(2 FLT_MIN,0,0)`: the first
corner is within `FLT_MIN` of both others, which are `2 FLT_MIN` apart. -/
def mergeTriangle : vec3 × vec3 × vec3 :=
  (⟨FLT_MIN, F32.zero, F32.zero⟩, vec3.zero, ⟨F32.twoMin, F32.zero, F32.zero⟩)

/-- Float comparison `a == b` (false as soon as one side is not a number). -/
def FVal.eq : FVal → FVal → Bool
  | FVal.fin a, FVal.fin b => decide (a = b)
  | FVal.inf s, FVal.inf t => decide (s = t)
  | _, _ => false

/-- The point `a` precedes the point `b` in the lexicographic order on
`(x, y, z)`: the first coordinate in which they differ is smaller in `a`. -/
def vec3.lexLt (a b : vec3) : Bool :=
  FVal.lt a.x.val b.x.val ||
    (FVal.eq a.x.val b.x.val &&
      (FVal.lt a.y.val b.y.val || (FVal.eq a.y.val b.y.val && FVal.lt a.z.val b.z.val)))

/-- The float is a finite number: neither an infinity nor not-a-number. -/
def F32.finite (f : F32) : Bool := decide (f.expo ≠ 255)

/-- The three coordinates of the point are finite numbers. -/
def vec3.finite (p : vec3) : Bool := p.x.finite && p.y.finite && p.z.finite

/-- The values of the three coordinates of a point. -/
def vec3.vals (p : vec3) : FVal × FVal × FVal := (p.x.val, p.y.val, p.z.val)

/-- The float `+infinity`, bit pattern `0x7F800000`. -/
def F32.infinity : F32 := ⟨0, 0, 128, 127⟩

/-- The buffer `line` after `fgets` stored the characters `c` and their
terminator in it. -/
def stored (ln c : List Byte) : List Byte := overwrite ln (c ++ [0])

/-- The point `sscanf` leaves in `p` when the buffer holds `line`: the scan
starts six characters after the leading white space. -/
def scanRecord (L : Libc) (line : List Byte) (p : vec3) : vec3 :=
  sscanf3 L (cstring ((skipSpace line).drop 6)) p

/-- The first five characters of a line after its leading white space are
exactly `outer` or exactly `OUTER`. -/
def startsOuter (c : List Byte) : Bool :=
  decide ((c.dropWhile isspace).take 5 = cstr "outer") ||
    decide ((c.dropWhile isspace).take 5 = cstr "OUTER")

/-- The lines of a text as `fgets(line, 100, in)` takes them one after the
other: every line has fewer than 99 characters and then its newline, which
only the last line may lack. -/
def Chunks : List (List Byte) → Prop
  | [] => True
  | c :: cs =>
    ((∃ l, c = l ++ [10] ∧ 10 ∉ l ∧ l.length < 99) ∨
      (cs = [] ∧ c ≠ [] ∧ 10 ∉ c ∧ c.length < 99)) ∧ Chunks cs

/-- The lines of a text made of the lines `ls`, each followed by a newline,
and then of the characters `last` without a newline. -/
def chunksOf (ls : List (List Byte)) (last : List Byte) : List (List Byte) :=
  ls.map (fun l => l ++ [10]) ++ (if last = [] then [] else [last])

/-- What the ASCII branch takes a line for: a line it passes over, the start
of a triangle, or the vertex record of index `i` of a triangle. -/
inductive Role where
  | skipped : Role
  | start : Role
  | vertex (i : Nat) : Role
deriving DecidableEq, Repr

/-- The role of every line of a text, `k` vertex records being due: outside
a vertex block a line starts a triangle when its first five characters after
leading white space are `outer` or `OUTER` and is passed over otherwise; the
three lines after a start are the vertex records of the triangle. -/
def lineRoles : List (List Byte) → Nat → List Role
  | [], _ => []
  | c :: cs, 0 =>
    if startsOuter c then Role.start :: lineRoles cs 3 else Role.skipped :: lineRoles cs 0
  | _ :: cs, k + 1 => Role.vertex (2 - k) :: lineRoles cs k

/-- The text ends while vertex records are due, `k` of them being due at its
beginning. -/
def blockOpen : List (List Byte) → Nat → Bool
  | [], k => decide (0 < k)
  | c :: cs, 0 => if startsOuter c then blockOpen cs 3 else blockOpen cs 0
  | _ :: cs, k + 1 => blockOpen cs k

/-- What the ASCII branch does with a line `c` of a given role, the lines
`cs` being left in the stream: the line is stored in the buffer; a vertex
record is scanned and looked up, and after the third the face is added when
proper. -/
def applyRole (L : Libc) (comp : CmpVec) (r : Role) (c : List Byte) (cs : List (List Byte))
    (st : RState) : RState :=
  match r with
  | Role.skipped => st.reframe cs.flatten (stored st.line c)
  | Role.start => st.reframe cs.flatten (stored st.line c)
  | Role.vertex i =>
    if i = 2 then
      asciiAddFace ((asciiResolveAt comp i (scanRecord L (stored st.line c) st.p) st).reframe
        cs.flatten (stored st.line c))
    else
      (asciiResolveAt comp i (scanRecord L (stored st.line c) st.p) st).reframe
        cs.flatten (stored st.line c)

/-- The lines handled one after the other, each by its role. -/
def runRoles (L : Libc) (comp : CmpVec) : List Role → List (List Byte) → RState → RState
  | r :: rs, c :: cs, st => runRoles L comp rs cs (applyRole L comp r c cs st)
  | _, _, st => st

/-- The scan of the lines of a text, `k` vertex records being due: a failed
assertion when the text ends while records are due, else every line handled
by its role. -/
def scanFrom (L : Libc) (comp : CmpVec) (cs : List (List Byte)) (k : Nat) (st : RState) :
    Option RState :=
  if blockOpen cs k then none else some (runRoles L comp (lineRoles cs k) cs st)

/-- The scan of the lines of a text as the ASCII branch is to make it: lines
are passed over until one starts a triangle, the next three lines are its
vertex records, and so on to the end of the text. -/
def scanLines (L : Libc) (comp : CmpVec) (cs : List (List Byte)) (st : RState) :
    Option RState :=
  scanFrom L comp cs 0 st

/-- The lines of an ASCII file after its first five characters: the rest of
the first line, which is empty, a line `start`, and three `vertex` lines
with the positions `a`, `b` and `c` written in hexadecimal. -/
def blockLines (start : List Byte) (a b c : vec3) : List (List Byte) :=
  [[], start, cstr "vertex " ++ fmt3 hexLibc a, cstr "vertex " ++ fmt3 hexLibc b,
   cstr "vertex " ++ fmt3 hexLibc c]

/-- An ASCII file: `solid` and the lines of `blockLines`, each with its
newline. -/
def blockFile (start : List Byte) (a b c : vec3) : List Byte :=
  cstr "solid" ++ (stlText (blockLines start a b c) ++ [])

/-- The handle the look-up of the point `p` yields in a state: the handle
the map holds for `p` when it holds one, else the handle `add_vertex`
makes. -/
def handleOf (comp : CmpVec) (p : vec3) (st : RState) : Vertex :=
  match st.vMap.find comp p with
  | some v => v
  | none => (st.mesh.add_vertex p).2

/-- The handles the look-ups of the three corners of a triangle yield, the
corners being looked up in order. -/
def handlesOf (comp : CmpVec) (t : vec3 × vec3 × vec3) (st : RState) : Tri :=
  ⟨handleOf comp t.1 st, handleOf comp t.2.1 (resolve comp 0 t.1 st),
   handleOf comp t.2.2 (resolve comp 1 t.2.1 (resolve comp 0 t.1 st))⟩

/-- The three positions the ASCII branch scans from the lines `a`, `b` and
`d` taken as vertex records, the buffer holding `ln` and the point `p`
before. -/
def scannedCorners (L : Libc) (ln : List Byte) (p : vec3) (a b d : List Byte) :
    vec3 × vec3 × vec3 :=
  (scanRecord L (stored ln a) p,
   scanRecord L (stored (stored ln a) b) (scanRecord L (stored ln a) p),
   scanRecord L (stored (stored (stored ln a) b) d)
     (scanRecord L (stored (stored ln a) b) (scanRecord L (stored ln a) p)))

/-- A vertex handle that stands for no vertex of the meshes considered. -/
def staleHandle : Vertex := 7

/-- The state `read_stl` starts its parse from, with handles in `vertices`
that stand for no vertex. -/
def staleState : RState := startState ⟨List.replicate 100 0, 0, vec3.zero,
  ⟨staleHandle, staleHandle, staleHandle⟩⟩ [] []

/-- The roles of the seven lines written for one face: the `facet normal`
line is passed over, the `outer loop` line starts a triangle, the three
`vertex` lines are its vertex records, and the `endloop` and `endfacet`
lines are passed over. -/
def facetRoles : List Role :=
  [Role.skipped, Role.start, Role.vertex 0, Role.vertex 1, Role.vertex 2, Role.skipped,
   Role.skipped]

/-- The lines of the text `write_stl` writes that follow the five characters
`solid`, each with its newline. -/
def writtenChunks (L : Libc) (mesh : SurfaceMesh) (fnormals : List vec3) : List (List Byte) :=
  chunksOf (cstr " stl" :: (facesLines L mesh fnormals 0 mesh.faces ++ [cstr "endsolid"])) []

/-! # Properties -/

/-! ## Rounding -/

/-- The search of `shiftOf` ends with a quotient of at most 24 bits, of
exactly 24 bits when the magnitude was halved at all. -/
theorem shiftOf_spec : ∀ (fuel a : Nat), a ≤ fuel →
    a / 2 ^ shiftOf fuel a < 16777216 ∧
      (shiftOf fuel a = 0 ∨ 8388608 ≤ a / 2 ^ shiftOf fuel a)
  | 0, a, h => by
    have : a = 0 := by omega
    subst this
    simp [shiftOf]
  | fuel + 1, a, h => by
    unfold shiftOf
    by_cases ha : a < 16777216
    · simp [ha]
    · simp only [ha, if_false]
      have ih := shiftOf_spec fuel (a / 2) (by omega)
      have e : a / 2 ^ (shiftOf fuel (a / 2) + 1) = a / 2 / 2 ^ shiftOf fuel (a / 2) := by
        rw [pow_succ, mul_comm, Nat.div_div_eq_div_mul]
      rw [e]
      refine ⟨ih.1, Or.inr ?_⟩
      rcases ih.2 with h0 | h1
      · rw [h0]; simp; omega
      · exact h1

/-- A representable magnitude at or above `2^(23+e)` is a multiple of `2^e`. -/
theorem Rep24.dvd {r e : Nat} (hr : Rep24 r) (h : 8388608 * 2 ^ e ≤ r) : 2 ^ e ∣ r := by
  obtain ⟨m, f, hm, rfl⟩ := hr
  have hfe : e ≤ f := by
    by_contra hlt
    push_neg at hlt
    have h1 : 2 ^ f * 2 ≤ 2 ^ e := by
      rw [← pow_succ]
      exact Nat.pow_le_pow_right (by norm_num) hlt
    have h2 : m * 2 ^ f * 2 ≤ m * 2 ^ e := by
      rw [mul_assoc]; exact Nat.mul_le_mul_left m h1
    have h3 : 0 < 2 ^ e := by positivity
    nlinarith
  exact Dvd.dvd.mul_left (pow_dvd_pow 2 hfe) m

/-- What `roundMag` returns lies on the grid of step `2^e` around `a`. -/
theorem roundMag_cases (a : Nat) :
    ∃ e q : Nat, q * 2 ^ e ≤ a ∧ a < (q + 1) * 2 ^ e ∧ (e = 0 ∨ 8388608 ≤ q) ∧
      (roundMag a = q * 2 ^ e ∨ (roundMag a = (q + 1) * 2 ^ e ∧ q * 2 ^ e < a)) := by
  refine ⟨shiftOf a a, a / 2 ^ shiftOf a a, Nat.div_mul_le_self _ _, ?_, ?_, ?_⟩
  · have hd : 0 < 2 ^ shiftOf a a := by positivity
    have h1 := Nat.div_add_mod a (2 ^ shiftOf a a)
    have h2 := Nat.mod_lt a hd
    nlinarith
  · exact (shiftOf_spec a a le_rfl).2
  · unfold roundMag
    simp only
    split
    · exact Or.inl rfl
    · rename_i hn
      refine Or.inr ⟨rfl, ?_⟩
      have hmod := Nat.div_add_mod a (2 ^ shiftOf a a)
      have hcomm : 2 ^ shiftOf a a * (a / 2 ^ shiftOf a a) = a / 2 ^ shiftOf a a * 2 ^ shiftOf a a :=
        Nat.mul_comm _ _
      have hpos : 0 < a % 2 ^ shiftOf a a := by
        by_contra h0
        have h0 : a % 2 ^ shiftOf a a = 0 := by omega
        apply hn
        left
        rw [h0]; positivity
      omega

/-- No representable magnitude lies strictly between two neighbours of the
grid on which `roundMag` rounds. -/
theorem Rep24.not_between {r e q : Nat} (hr : Rep24 r) (he : e = 0 ∨ 8388608 ≤ q)
    (h1 : q * 2 ^ e < r) (h2 : r < (q + 1) * 2 ^ e) : False := by
  rcases he with he | he
  · subst he
    simp at h1 h2
    omega
  · have hpos : 0 < 2 ^ e := by positivity
    have hge : 8388608 * 2 ^ e ≤ r := by
      have := Nat.mul_le_mul_right (2 ^ e) he
      omega
    obtain ⟨j, rfl⟩ := hr.dvd hge
    rw [Nat.mul_comm q] at h1
    rw [Nat.mul_comm (q + 1)] at h2
    have a1 := Nat.lt_of_mul_lt_mul_left h1
    have a2 := Nat.lt_of_mul_lt_mul_left h2
    omega

/-- Rounding never passes a representable magnitude from below. -/
theorem roundMag_le {a r : Nat} (hr : Rep24 r) (h : a ≤ r) : roundMag a ≤ r := by
  obtain ⟨e, q, h1, h2, h3, h4⟩ := roundMag_cases a
  rcases h4 with h4 | ⟨h4, h5⟩
  · omega
  · by_contra hlt
    exact hr.not_between h3 (by omega) (by omega)

/-- Rounding never passes a representable magnitude from above. -/
theorem le_roundMag {a r : Nat} (hr : Rep24 r) (h : r ≤ a) : r ≤ roundMag a := by
  obtain ⟨e, q, h1, h2, h3, h4⟩ := roundMag_cases a
  rcases h4 with h4 | ⟨h4, h5⟩
  · by_contra hlt
    exact hr.not_between h3 (by omega) (by omega)
  · omega

/-- A representable magnitude is its own rounding. -/
theorem roundMag_rep {r : Nat} (hr : Rep24 r) : roundMag r = r :=
  Nat.le_antisymm (roundMag_le hr le_rfl) (le_roundMag hr le_rfl)

/-- Magnitudes below `2^24` are representable. -/
theorem Rep24.of_lt {a : Nat} (h : a < 16777216) : Rep24 a := ⟨a, 0, h, by simp⟩

/-- The magnitude of a finite float is representable and below the
overflow threshold. -/
theorem F32.mag_rep (f : F32) (h : f.expo ≠ 255) : Rep24 f.mag ∧ f.mag < overflowMag := by
  have hfrac : f.frac < 8388608 := by
    unfold F32.frac
    have h0 := f.b0.isLt
    have h1 := f.b1.isLt
    have h2 : f.b2.val % 128 < 128 := Nat.mod_lt _ (by norm_num)
    omega
  have hexp : f.expo ≤ 254 := by
    have : f.expo ≤ 255 := by
      unfold F32.expo
      have h2 := f.b2.isLt
      have h3 : f.b3.val % 128 < 128 := Nat.mod_lt _ (by norm_num)
      omega
    omega
  unfold F32.mag
  split
  · refine ⟨Rep24.of_lt (by omega), ?_⟩
    unfold overflowMag
    have : (8388608 : Nat) ≤ 2 ^ 139 * 2 ^ 138 := by norm_num
    omega
  · refine ⟨⟨8388608 + f.frac, f.expo - 1, by omega, rfl⟩, ?_⟩
    unfold overflowMag
    have h1 : 2 ^ (f.expo - 1) ≤ 2 ^ 253 := Nat.pow_le_pow_right (by norm_num) (by omega)
    have h2 : (8388608 + f.frac) * 2 ^ (f.expo - 1) ≤ 16777215 * 2 ^ 253 :=
      Nat.mul_le_mul (by omega) h1
    have h3 : (16777215 : Nat) * 2 ^ 253 < 2 ^ 139 * 2 ^ 138 := by norm_num
    omega

/-- A float is not-a-number, an infinity, or a finite value of representable
magnitude. -/
theorem F32.val_cases (f : F32) :
    f.val = FVal.nan ∨ (∃ s, f.val = FVal.inf s) ∨
      ∃ n : Int, f.val = FVal.fin n ∧ Rep24 n.natAbs ∧ n.natAbs < overflowMag := by
  unfold F32.val
  by_cases he : f.expo = 255
  · by_cases hf : f.frac = 0
    · simp [he, hf]
    · simp [he, hf]
  · have hm := f.mag_rep he
    right; right
    by_cases hs : f.sign = true
    · exact ⟨-(f.mag : Int), by simp [he, hs], by simpa using hm.1, by simpa using hm.2⟩
    · exact ⟨(f.mag : Int), by simp [he, hs], by simpa using hm.1, by simpa using hm.2⟩

/-- Rounding an exact value at most `r`, a float, gives a float at most `r`. -/
theorem FVal.round_le {x r : Int} (hr : Rep24 r.natAbs) (hb : r.natAbs < overflowMag)
    (h : x ≤ r) : FVal.le (FVal.round x) (FVal.fin r) = true := by
  unfold FVal.round
  simp only
  by_cases hx : x < 0
  · by_cases ho : overflowMag ≤ roundMag x.natAbs
    · simp [ho, hx, FVal.le]
    · simp only [ho, hx, if_true, if_false, FVal.le, decide_eq_true_eq]
      by_cases hr0 : 0 ≤ r
      · omega
      · have := le_roundMag hr (show r.natAbs ≤ x.natAbs by omega)
        omega
  · have := roundMag_le hr (show x.natAbs ≤ r.natAbs by omega)
    have ho : ¬ overflowMag ≤ roundMag x.natAbs := by omega
    simp only [ho, hx, if_false, FVal.le, decide_eq_true_eq]
    omega

/-- Rounding an exact value at least `r`, a float, gives a float at least `r`. -/
theorem FVal.le_round {x r : Int} (hr : Rep24 r.natAbs) (hb : r.natAbs < overflowMag)
    (h : r ≤ x) : FVal.le (FVal.fin r) (FVal.round x) = true := by
  unfold FVal.round
  simp only
  by_cases hx : x < 0
  · have := roundMag_le hr (show x.natAbs ≤ r.natAbs by omega)
    have ho : ¬ overflowMag ≤ roundMag x.natAbs := by omega
    simp only [ho, hx, if_true, if_false, FVal.le, decide_eq_true_eq]
    omega
  · by_cases ho : overflowMag ≤ roundMag x.natAbs
    · simp [ho, hx, FVal.le]
    · simp only [ho, hx, if_false, FVal.le, decide_eq_true_eq]
      by_cases hr0 : r ≤ 0
      · omega
      · have := le_roundMag hr (show r.natAbs ≤ x.natAbs by omega)
        omega

/-- An exact value below `2^24` in magnitude is not changed by rounding. -/
theorem FVal.round_small {x : Int} (h : x.natAbs < 16777216) : FVal.round x = FVal.fin x := by
  unfold FVal.round
  have hm : roundMag x.natAbs = x.natAbs := roundMag_rep (Rep24.of_lt h)
  have ho : ¬ overflowMag ≤ x.natAbs := by
    unfold overflowMag
    have : (16777216 : Nat) ≤ 2 ^ 139 * 2 ^ 138 := by norm_num
    omega
  simp only [hm, ho, if_false]
  by_cases hx : x < 0
  · simp only [hx, if_true]; congr 1; omega
  · simp only [hx, if_false]; congr 1; omega

/-- A float that is at most `a` is not above `a`. -/
theorem FVal.lt_false_of_le {y : FVal} {a : Int} (h : FVal.le y (FVal.fin a) = true) :
    FVal.lt (FVal.fin a) y = false := by
  cases y with
  | nan => rfl
  | inf s => cases s <;> simp_all [FVal.le, FVal.lt]
  | fin n =>
    simp only [FVal.le, decide_eq_true_eq] at h
    simp only [FVal.lt, decide_eq_false_iff_not]
    omega

/-! ## The comparator -/

/-- No float is less than itself minus a tolerance that is finite and not
negative. -/
theorem FVal.lt_sub_self (a eps : F32) {e : Int} (he : eps.val = FVal.fin e) (h0 : 0 ≤ e) :
    FVal.lt a.val (FVal.sub a.val eps.val) = false := by
  rw [he]
  rcases a.val_cases with h | ⟨s, h⟩ | ⟨n, h, hr, hb⟩
  · rw [h]; rfl
  · rw [h]; cases s <;> rfl
  · rw [h]
    exact FVal.lt_false_of_le (FVal.round_le hr hb (by omega))

/-- The comparator of a finite tolerance that is not negative is
irreflexive. -/
theorem CmpVec.call_self (c : CmpVec) {e : Int} (he : c.eps_.val = FVal.fin e) (h0 : 0 ≤ e)
    (p : vec3) : c.call p p = false := by
  unfold CmpVec.call
  split
  · split
    · exact FVal.lt_sub_self p.z c.eps_ he h0
    · exact FVal.lt_sub_self p.y c.eps_ he h0
  · exact FVal.lt_sub_self p.x c.eps_ he h0

/-- Two floats within the tolerance: the test `fabs(a - b) <= eps_` holds and
the test `a < b - eps_` fails. -/
theorem F32.within_spec {eps a b : F32} (h : F32.within eps a b = true) :
    FVal.le (FVal.abs (FVal.sub a.val b.val)) eps.val = true ∧
      FVal.lt a.val (FVal.sub b.val eps.val) = false := by
  unfold F32.within at h
  rcases a.val_cases with ha | ⟨s, ha⟩ | ⟨m, ha, hma, hmb⟩
  · simp [ha] at h
  · simp [ha] at h
  rcases b.val_cases with hb | ⟨s, hb⟩ | ⟨n, hb, hna, hnb⟩
  · simp [ha, hb] at h
  · simp [ha, hb] at h
  rcases eps.val_cases with hc | ⟨s, hc⟩ | ⟨e, hc, hea, heb⟩
  · simp [ha, hb, hc] at h
  · simp [ha, hb, hc] at h
  simp only [ha, hb, hc, decide_eq_true_eq] at h
  rw [ha, hb, hc]
  constructor
  · have h1 := FVal.round_le (x := m - n) hea heb (by omega)
    have h2 := FVal.le_round (x := m - n) (r := -e) (by simpa using hea) (by simpa using heb)
      (by omega)
    simp only [FVal.sub]
    cases hrd : FVal.round (m - n) with
    | nan => rw [hrd] at h1; simp [FVal.le] at h1
    | inf s =>
      rw [hrd] at h1 h2
      cases s <;> simp [FVal.le] at h1 h2
    | fin k =>
      rw [hrd] at h1 h2
      simp only [FVal.le, decide_eq_true_eq] at h1 h2
      simp only [FVal.abs, FVal.le, decide_eq_true_eq]
      omega
  · exact FVal.lt_false_of_le (FVal.round_le hma hmb (by omega))

/-- Being within the tolerance is symmetric. -/
theorem F32.within_symm {eps a b : F32} (h : F32.within eps a b = true) :
    F32.within eps b a = true := by
  unfold F32.within at h ⊢
  cases ha : a.val <;> cases hb : b.val <;> cases hc : eps.val <;> simp_all
  rwa [abs_sub_comm]

/-- A point is not less than a point within the tolerance of it. -/
theorem CmpVec.call_false_of_within {c : CmpVec} {p q : vec3}
    (h : vec3.within c.eps_ p q = true) : c.call p q = false := by
  simp only [vec3.within, Bool.and_eq_true] at h
  unfold CmpVec.call
  rw [(F32.within_spec h.1.1).1, (F32.within_spec h.1.2).1]
  simpa using (F32.within_spec h.2).2

/-- Points with all three differences within the tolerance are equivalent
under the comparator. -/
theorem CmpVec.equiv_of_within {c : CmpVec} {p q : vec3}
    (h : vec3.within c.eps_ p q = true) : c.equiv p q = true := by
  have h' : vec3.within c.eps_ q p = true := by
    simp only [vec3.within, Bool.and_eq_true] at h ⊢
    exact ⟨⟨F32.within_symm h.1.1, F32.within_symm h.1.2⟩, F32.within_symm h.2⟩
  simp [CmpVec.equiv, CmpVec.call_false_of_within h, CmpVec.call_false_of_within h']

/-! ## The binary branch on complete input -/

/-- A read of exactly the bytes in front of the stream. -/
theorem fread_append (a rest : List Byte) : fread a.length (a ++ rest) = (a, rest) := by
  simp [fread]

/-- Overwriting a whole object leaves the new bytes. -/
theorem overwrite_full (old new : List Byte) (h : old.length ≤ new.length) :
    overwrite old new = new := by
  simp [overwrite, List.drop_eq_nil_of_le h]

/-- The helper `read` on a stream that holds the whole object. -/
theorem read_full (t a rest : List Byte) (h : a.length = t.length) (h0 : 0 < t.length) :
    read t (a ++ rest) = some (a, rest) := by
  unfold read
  rw [← h, fread_append]
  simp only
  rw [if_neg (by omega), overwrite_full _ _ (by omega)]

/-- A point is recovered from its bytes. -/
theorem vec3.ofBytes_toBytes (p : vec3) : vec3.ofBytes p.toBytes = p := by
  rfl

/-- A point has twelve bytes. -/
theorem vec3.toBytes_length (p : vec3) : p.toBytes.length = 12 := by
  rfl

/-- Reframing twice is reframing once. -/
theorem RState.reframe_reframe (st : RState) (a b c d : List Byte) :
    (st.reframe a b).reframe c d = st.reframe c d := rfl

/-- The look-up reads neither the stream nor the buffer. -/
theorem binResolve_frame (comp : CmpVec) (i : Nat) (st : RState) (inp ln : List Byte) :
    binResolve comp i (st.reframe inp ln) = (binResolve comp i st).reframe inp ln := by
  unfold binResolve RState.reframe
  simp only
  cases st.vMap.find comp st.p <;> rfl

/-- The face test reads neither the stream nor the buffer. -/
theorem binAddFace_frame (st : RState) (inp ln : List Byte) :
    binAddFace (st.reframe inp ln) = (binAddFace st).reframe inp ln := by
  unfold binAddFace RState.reframe
  simp only
  split <;> rfl

/-- The look-up of a given point reads neither the stream nor the buffer. -/
theorem resolve_frame (comp : CmpVec) (i : Nat) (a : vec3) (st : RState) (inp ln : List Byte) :
    resolve comp i a (st.reframe inp ln) = (resolve comp i a st).reframe inp ln :=
  binResolve_frame comp i { st with p := a } inp ln

/-- Feeding a triangle reads neither the stream nor the buffer. -/
theorem feed_frame (comp : CmpVec) (t : vec3 × vec3 × vec3) (st : RState) (inp ln : List Byte) :
    feed comp t (st.reframe inp ln) = (feed comp t st).reframe inp ln := by
  unfold feed
  rw [resolve_frame, resolve_frame, resolve_frame, binAddFace_frame]

/-- Feeding triangles reads neither the stream nor the buffer. -/
theorem feedAll_frame (comp : CmpVec) (ts : List (vec3 × vec3 × vec3)) :
    ∀ (st : RState) (inp ln : List Byte),
      feedAll comp ts (st.reframe inp ln) = (feedAll comp ts st).reframe inp ln := by
  induction ts with
  | nil => intro st inp ln; rfl
  | cons t ts ih =>
    intro st inp ln
    simp only [feedAll, List.foldl_cons] at ih ⊢
    rw [feed_frame, ih]

/-- One vertex of the binary branch on a stream that holds its twelve bytes. -/
theorem binVertex_full (comp : CmpVec) (i : Nat) (st : RState) (a : vec3) (inp ln rest : List Byte)
    (h : inp = a.toBytes ++ rest) :
    binVertex comp i (st.reframe inp ln) = some ((resolve comp i a st).reframe rest ln) := by
  subst h
  unfold binVertex
  have e : (st.reframe (a.toBytes ++ rest) ln).input = a.toBytes ++ rest := rfl
  rw [e, read_full _ _ _ (by rfl) (by simp [vec3.toBytes_length])]
  simp only [vec3.ofBytes_toBytes]
  exact congrArg some (binResolve_frame comp i { st with p := a } rest ln)

/-- A read of twelve bytes in front of the stream. -/
theorem fread_vec3 (a : vec3) (rest : List Byte) : fread 12 (a.toBytes ++ rest) = (a.toBytes, rest) :=
  fread_append a.toBytes rest

/-- One pass of the loop of the binary branch, on reframed states. -/
theorem binTriangle_eq (comp : CmpVec) (st : RState) :
    binTriangle comp st =
      if (fread 12 st.input).1.length = 0 then none
      else
        (binVertex comp 0 (st.reframe (fread 12 st.input).2
            (overwrite st.line (fread 12 st.input).1))).bind fun s0 =>
        (binVertex comp 1 s0).bind fun s1 =>
        (binVertex comp 2 s1).bind fun s2 =>
        if (fread 2 (binAddFace s2).input).1.length = 0 then none
        else
          some ((binAddFace s2).reframe (fread 2 (binAddFace s2).input).2
            (overwrite (binAddFace s2).line (fread 2 (binAddFace s2).input).1)) := rfl

/-- One record of the binary branch on a stream that holds its fifty bytes:
the triangle is fed and the stream is left after the record. -/
theorem binTriangle_full (comp : CmpVec) (st : RState) (r : Record) (inp ln rest : List Byte)
    (h : inp = r.toBytes ++ rest) :
    ∃ ln2, binTriangle comp (st.reframe inp ln) =
      some ((feed comp r.corners st).reframe rest ln2) := by
  subst h
  rw [binTriangle_eq]
  have e : (st.reframe (r.toBytes ++ rest) ln).input =
      r.normal.toBytes ++ (r.a.toBytes ++ (r.b.toBytes ++ (r.c.toBytes ++
        ([r.attr0, r.attr1] ++ rest)))) := by
    simp [RState.reframe, Record.toBytes]
  rw [e, fread_vec3]
  simp only
  rw [if_neg (by simp [vec3.toBytes_length]), RState.reframe_reframe]
  rw [binVertex_full comp 0 st r.a _ _ _ rfl, Option.some_bind]
  rw [binVertex_full comp 1 _ r.b _ _ _ rfl, Option.some_bind]
  rw [binVertex_full comp 2 _ r.c _ _ _ rfl, Option.some_bind]
  rw [binAddFace_frame]
  have hi : ∀ (s : RState) (a b : List Byte), (s.reframe a b).input = a := fun _ _ _ => rfl
  have hf : fread 2 ([r.attr0, r.attr1] ++ rest) = ([r.attr0, r.attr1], rest) :=
    fread_append [r.attr0, r.attr1] rest
  simp only [hi, hf, List.length_cons, List.length_nil, RState.reframe_reframe]
  rw [if_neg (by omega)]
  exact ⟨_, rfl⟩

/-- The loop of the binary branch on a stream that holds all the records it
is to read: the triangles are fed in order and the stream is left after the
last record. -/
theorem binLoop_full (comp : CmpVec) :
    ∀ (rs : List Record) (st : RState) (inp ln rest : List Byte),
      inp = recordsBytes rs ++ rest →
      ∃ ln2, binLoop comp rs.length (st.reframe inp ln) =
        some ((feedAll comp (rs.map Record.corners) st).reframe rest ln2) := by
  intro rs
  induction rs with
  | nil =>
    intro st inp ln rest h
    refine ⟨ln, ?_⟩
    simp only [recordsBytes, List.nil_append] at h
    simp [binLoop, feedAll, h]
  | cons r rs ih =>
    intro st inp ln rest h
    simp only [recordsBytes, List.append_assoc] at h
    obtain ⟨ln1, h1⟩ := binTriangle_full comp st r inp ln _ h
    obtain ⟨ln2, h2⟩ := ih (feed comp r.corners st) _ ln1 rest rfl
    refine ⟨ln2, ?_⟩
    simp only [List.length_cons, binLoop, h1, Option.some_bind, h2, List.map_cons, feedAll,
      List.foldl_cons]

/-- Four bytes hold a count below `2^32`. -/
theorem leNat_leBytes (n : Nat) (h : n < 4294967296) : leNat (leBytes 4 n) = n := by
  simp only [leBytes, leNat, Fin.ofNat, Fin.val_mk]
  omega

/-- The binary branch on reframed states. -/
theorem readBinary_eq (comp : CmpVec) (nT0 : Nat) (st : RState) :
    readBinary comp nT0 st =
      if (fread 80 st.input).1.length = 0 then none
      else
        match read (leBytes 4 nT0) (fread 80 st.input).2 with
        | none => none
        | some (bytes, rest) =>
          binLoop comp (leNat bytes) (st.reframe rest (overwrite st.line (fread 80 st.input).1)) :=
  rfl

/-- The binary branch on a complete file: the triangles of the records are
fed in order to the state the branch starts from. -/
theorem readBinary_full (comp : CmpVec) (nT0 : Nat) (st : RState) (header : List Byte)
    (rs : List Record) (hh : header.length = 80) (hn : rs.length < 4294967296)
    (h : st.input = stlBinary header rs) :
    ∃ ln, readBinary comp nT0 st =
      some ((feedAll comp (rs.map Record.corners) st).reframe [] ln) := by
  rw [readBinary_eq, h, stlBinary, ← hh, fread_append, hh]
  simp only
  rw [if_neg (by omega), read_full _ _ _ (by rfl) (by simp [leBytes])]
  simp only [leNat_leBytes _ hn]
  exact binLoop_full comp rs st _ _ [] (by simp)

/-! ## The format test -/

/-- The bytes of the literal `solid`. -/
theorem cstr_solid : cstr "solid" = [115, 111, 108, 105, 100] := by decide

/-- The bytes of the literal `SOLID`. -/
theorem cstr_SOLID : cstr "SOLID" = [83, 79, 76, 73, 68] := by decide

/-- The characters `fgets` stored, compared with a literal of as many
characters as it could store, none of them a newline or zero: the comparison
succeeds exactly when the file starts with the literal. -/
theorem strncmp0_fgetsChars : ∀ (n : Nat) (content lit junk : List Byte),
    lit.length = n → (∀ c ∈ lit, c ≠ 0 ∧ c ≠ 10) →
    (strncmp0 n ((fgetsChars n content).1 ++ 0 :: junk) lit = true ↔ content.take n = lit)
  | 0, content, lit, junk, hl, _ => by
    have : lit = [] := List.length_eq_zero.mp hl
    subst this
    simp [strncmp0]
  | n + 1, content, lit, junk, hl, hc => by
    rcases lit with _ | ⟨c, lit⟩
    · simp at hl
    have hc0 := hc c (by simp)
    have hl' : lit.length = n := by simpa using hl
    have hc' : ∀ c ∈ lit, c ≠ 0 ∧ c ≠ 10 := fun d hd => hc d (by simp [hd])
    rcases content with _ | ⟨a, s⟩
    · simp [fgetsChars, strncmp0, hc0.1.symm]
    · by_cases e : a = 10
      · subst e
        simp [fgetsChars, strncmp0, hc0.2.symm]
      · by_cases g : a = c
        · subst g
          have ih := strncmp0_fgetsChars n s lit junk hl' hc'
          simpa [fgetsChars, strncmp0, e, hc0.1] using ih
        · simp [fgetsChars, strncmp0, e, g]

/-- The format test after the first `fgets`: a file that is not empty is
taken for ASCII exactly when its first five bytes are `solid` or `SOLID`. -/
theorem detect_spec (l0 content : List Byte) (h : content ≠ []) :
    ∃ line rest, fgets 6 l0 content = some (line, rest) ∧
      (isBinary line = false ↔
        (content.take 5 = cstr "solid" ∨ content.take 5 = cstr "SOLID")) := by
  rcases content with _ | ⟨a, s⟩
  · exact absurd rfl h
  refine ⟨_, _, rfl, ?_⟩
  have h1 := strncmp0_fgetsChars 5 (a :: s) (cstr "solid")
    (l0.drop ((fgetsChars 5 (a :: s)).1 ++ [0]).length) (by rw [cstr_solid]; rfl) (by rw [cstr_solid]; decide!)
  have h2 := strncmp0_fgetsChars 5 (a :: s) (cstr "SOLID")
    (l0.drop ((fgetsChars 5 (a :: s)).1 ++ [0]).length) (by rw [cstr_SOLID]; rfl) (by rw [cstr_SOLID]; decide!)
  have e : overwrite l0 ((fgetsChars (6 - 1) (a :: s)).1 ++ [0]) =
      (fgetsChars 5 (a :: s)).1 ++ 0 :: l0.drop ((fgetsChars 5 (a :: s)).1 ++ [0]).length := by
    simp [overwrite]
  rw [e]
  unfold isBinary
  rw [← h1, ← h2]
  cases strncmp0 5 _ (cstr "solid") <;> cases strncmp0 5 _ (cstr "SOLID") <;> simp

/-! ## The look-up -/

/-- A key found is equivalent to the key looked for. -/
theorem VMap.find_some {comp : CmpVec} {k : vec3} {v : Vertex} :
    ∀ {m : VMap}, VMap.find comp m k = some v →
      ∃ e ∈ m, e.2 = v ∧ comp.equiv e.1 k = true
  | [], h => by simp [VMap.find] at h
  | e :: m, h => by
    by_cases hc : comp.call e.1 k = true
    · have h' : VMap.find comp m k = some v := by
        simpa [VMap.find, List.dropWhile, hc] using h
      obtain ⟨e', he', hv⟩ := VMap.find_some h'
      exact ⟨e', List.mem_cons_of_mem _ he', hv⟩
    · simp only [VMap.find, List.dropWhile, hc] at h
      by_cases hk : comp.call k e.1 = true
      · simp [hk] at h
      · simp only [hk, if_false, Option.some.injEq, Bool.false_eq_true] at h
        refine ⟨e, List.mem_cons_self _ _, h, ?_⟩
        simp [CmpVec.equiv, hc, hk]

/-- The assignment of a key that was not found inserts one entry: the
entries before it are less than the key and the key is less than the entry
after it. -/
theorem VMap.assign_of_find_none {comp : CmpVec} {m : VMap} {k : vec3} (v : Vertex)
    (h : VMap.find comp m k = none) :
    ∃ pre suf, m = pre ++ suf ∧ VMap.assign comp m k v = pre ++ (k, v) :: suf ∧
      (∀ e ∈ pre, comp.call e.1 k = true) ∧
      (∀ e, suf.head? = some e → comp.call k e.1 = true) := by
  refine ⟨m.takeWhile (fun e => comp.call e.1 k), m.dropWhile (fun e => comp.call e.1 k),
    (List.takeWhile_append_dropWhile _ _).symm, ?_, ?_, ?_⟩
  · unfold VMap.assign
    unfold VMap.find at h
    cases hd : m.dropWhile (fun e => comp.call e.1 k) with
    | nil => simp
    | cons e rest =>
      rw [hd] at h
      by_cases hk : comp.call k e.1 = true
      · simp [hk]
      · simp [hk] at h
  · intro e he
    have h2 := List.mem_takeWhile_imp he
    exact h2
  · intro e he
    unfold VMap.find at h
    cases hd : m.dropWhile (fun e => comp.call e.1 k) with
    | nil => rw [hd] at he; simp at he
    | cons e' rest =>
      rw [hd] at h he
      simp only [List.head?_cons, Option.some.injEq] at he
      subst he
      by_cases hk : comp.call k e'.1 = true
      · exact hk
      · simp [hk] at h

/-- A handle that stands for a position still does after a vertex is added. -/
theorem SurfaceMesh.position_add_vertex (m : SurfaceMesh) (p : vec3) {v : Vertex} {k : vec3}
    (h : m.position v = some k) : (m.add_vertex p).1.position v = some k := by
  unfold SurfaceMesh.position at h ⊢
  by_cases hv : 0 ≤ v
  · simp only [hv, if_true] at h ⊢
    simp only [SurfaceMesh.add_vertex]
    rw [List.get?_eq_getElem?] at h ⊢
    rw [List.getElem?_append_left]
    · exact h
    · exact (List.getElem?_eq_some.mp h).1
  · simp [hv] at h

/-- The handle of a new vertex stands for its position. -/
theorem SurfaceMesh.position_new (m : SurfaceMesh) (p : vec3) :
    (m.add_vertex p).1.position (m.add_vertex p).2 = some p := by
  simp [SurfaceMesh.position, SurfaceMesh.add_vertex, List.get?_eq_getElem?]

/-- The position a handle stands for is a point of the mesh. -/
theorem SurfaceMesh.position_mem {m : SurfaceMesh} {v : Vertex} {k : vec3}
    (h : m.position v = some k) : k ∈ m.points := by
  unfold SurfaceMesh.position at h
  by_cases hv : 0 ≤ v
  · simp only [hv, if_true] at h
    exact List.get?_mem h
  · simp [hv] at h

/-- What one look-up does: the map stays sound, handles keep their
positions, the faces are untouched, only the slot `i` of `vertices` changes,
and it gets a handle whose position is equivalent to the point looked up;
a point added to the mesh is the point looked up. -/
theorem resolve_spec (comp : CmpVec) (i : Nat) (p : vec3) (st : RState) (hs : MapSound st)
    (hirr : comp.call p p = false) :
    MapSound (resolve comp i p st) ∧
    (∀ v k, st.mesh.position v = some k → (resolve comp i p st).mesh.position v = some k) ∧
    (resolve comp i p st).mesh.faces = st.mesh.faces ∧
    (∃ h k, (resolve comp i p st).vertices = st.vertices.set i h ∧
      (resolve comp i p st).mesh.position h = some k ∧ comp.equiv k p = true) ∧
    (∀ q ∈ (resolve comp i p st).mesh.points, q ∈ st.mesh.points ∨ q = p) := by
  unfold resolve binResolve
  simp only
  cases hf : st.vMap.find comp p with
  | none =>
    simp only
    obtain ⟨pre, suf, hm, ha, -, -⟩ := VMap.assign_of_find_none (st.mesh.add_vertex p).2 hf
    refine ⟨?_, ?_, rfl, ⟨_, p, rfl, SurfaceMesh.position_new _ _, ?_⟩, ?_⟩
    · intro e he
      simp only [ha, List.mem_append, List.mem_cons] at he
      rcases he with he | rfl | he
      · exact SurfaceMesh.position_add_vertex _ _ (hs e (by rw [hm]; simp [he]))
      · exact SurfaceMesh.position_new _ _
      · exact SurfaceMesh.position_add_vertex _ _ (hs e (by rw [hm]; simp [he]))
    · intro v k hv
      exact SurfaceMesh.position_add_vertex _ _ hv
    · simp [CmpVec.equiv, hirr]
    · intro q hq
      simpa [SurfaceMesh.add_vertex] using hq
  | some v =>
    simp only
    obtain ⟨e, he, hv, heq⟩ := VMap.find_some hf
    refine ⟨hs, fun _ _ h => h, trivial, ⟨v, e.1, rfl, ?_, heq⟩, fun q hq => Or.inl hq⟩
    rw [← hv]
    exact hs e he

/-- What feeding one triangle does when no point of `S` is equivalent to two
of its corners, `S` holding the corners and every point of the mesh: the map
stays sound, the points of the mesh stay in `S`, and one face is added. -/
theorem feed_separated (comp : CmpVec) (hirr : ∀ p, comp.call p p = false) (S : vec3 → Prop)
    (t : vec3 × vec3 × vec3) (st : RState) (hs : MapSound st)
    (hp : ∀ q ∈ st.mesh.points, S q) (ht : ∀ q ∈ cornersOf t, S q)
    (hsep : ∀ k, S k → comp.shares k t.1 t.2.1 = false ∧ comp.shares k t.1 t.2.2 = false ∧
      comp.shares k t.2.1 t.2.2 = false) :
    MapSound (feed comp t st) ∧ (∀ q ∈ (feed comp t st).mesh.points, S q) ∧
      (feed comp t st).mesh.faces.length = st.mesh.faces.length + 1 := by
  obtain ⟨hs1, hpos1, hf1, ⟨h0, k0, hv1, hp0, he0⟩, hpts1⟩ :=
    resolve_spec comp 0 t.1 st hs (hirr _)
  obtain ⟨hs2, hpos2, hf2, ⟨h1, k1, hv2, hp1, he1⟩, hpts2⟩ :=
    resolve_spec comp 1 t.2.1 (resolve comp 0 t.1 st) hs1 (hirr _)
  obtain ⟨hs3, hpos3, hf3, ⟨h2, k2, hv3, hp2, he2⟩, hpts3⟩ :=
    resolve_spec comp 2 t.2.2 (resolve comp 1 t.2.1 (resolve comp 0 t.1 st)) hs2 (hirr _)
  have hin1 : ∀ q ∈ (resolve comp 0 t.1 st).mesh.points, S q := by
    intro q hq
    rcases hpts1 q hq with h | h
    · exact hp q h
    · exact h ▸ ht _ (by simp [cornersOf])
  have hin2 : ∀ q ∈ (resolve comp 1 t.2.1 (resolve comp 0 t.1 st)).mesh.points, S q := by
    intro q hq
    rcases hpts2 q hq with h | h
    · exact hin1 q h
    · exact h ▸ ht _ (by simp [cornersOf])
  have hin3 : ∀ q ∈ (resolve comp 2 t.2.2 (resolve comp 1 t.2.1
      (resolve comp 0 t.1 st))).mesh.points, S q := by
    intro q hq
    rcases hpts3 q hq with h | h
    · exact hin2 q h
    · exact h ▸ ht _ (by simp [cornersOf])
  have hq0 := hpos3 _ _ (hpos2 _ _ hp0)
  have hq1 := hpos3 _ _ hp1
  have hk0 := hsep k0 (hin3 _ (SurfaceMesh.position_mem hq0))
  have hk1 := hsep k1 (hin3 _ (SurfaceMesh.position_mem hq1))
  have hver : (resolve comp 2 t.2.2 (resolve comp 1 t.2.1 (resolve comp 0 t.1 st))).vertices =
      ⟨h0, h1, h2⟩ := by
    rw [hv3, hv2, hv1]; rfl
  have d01 : h0 ≠ h1 := by
    intro h
    rw [h, hq1] at hq0
    have hk : k1 = k0 := Option.some.inj hq0
    subst hk
    have := hk0.1
    simp [CmpVec.shares, he0, he1] at this
  have d02 : h0 ≠ h2 := by
    intro h
    rw [h, hp2] at hq0
    have hk : k2 = k0 := Option.some.inj hq0
    subst hk
    have := hk0.2.1
    simp [CmpVec.shares, he0, he2] at this
  have d12 : h1 ≠ h2 := by
    intro h
    rw [h, hp2] at hq1
    have hk : k2 = k1 := Option.some.inj hq1
    subst hk
    have := hk1.2.2
    simp [CmpVec.shares, he1, he2] at this
  have hfeed : feed comp t st =
      { resolve comp 2 t.2.2 (resolve comp 1 t.2.1 (resolve comp 0 t.1 st)) with
        mesh := (resolve comp 2 t.2.2 (resolve comp 1 t.2.1 (resolve comp 0 t.1 st))).mesh.add_face
          [h0, h1, h2] } := by
    unfold feed binAddFace
    rw [hver]
    simp [d01, d02, d12, Tri.toList]
    exact hver.symm
  rw [hfeed]
  refine ⟨?_, hin3, ?_⟩
  · intro e he
    exact hs3 e he
  · simp [SurfaceMesh.add_face, hf3, hf2, hf1]

/-- Feeding a sequence of triangles none of whose corners is equivalent to
two corners of one triangle adds one face for every triangle. -/
theorem feedAll_separated (comp : CmpVec) (hirr : ∀ p, comp.call p p = false) (S : vec3 → Prop) :
    ∀ (ts : List (vec3 × vec3 × vec3)) (st : RState), MapSound st →
      (∀ q ∈ st.mesh.points, S q) →
      (∀ t ∈ ts, (∀ q ∈ cornersOf t, S q) ∧ ∀ k, S k → comp.shares k t.1 t.2.1 = false ∧
        comp.shares k t.1 t.2.2 = false ∧ comp.shares k t.2.1 t.2.2 = false) →
      (feedAll comp ts st).mesh.faces.length = st.mesh.faces.length + ts.length := by
  intro ts
  induction ts with
  | nil => intro st _ _ _; rfl
  | cons t ts ih =>
    intro st hs hp h
    obtain ⟨ht, hsep⟩ := h t (List.mem_cons_self _ _)
    obtain ⟨a1, a2, a3⟩ := feed_separated comp hirr S t st hs hp ht hsep
    have := ih (feed comp t st) a1 a2 (fun u hu => h u (List.mem_cons_of_mem _ hu))
    simp only [feedAll, List.foldl_cons, List.length_cons] at this ⊢
    rw [this, a3]
    omega

/-! ## The face count of the binary branch -/

/-- The comparator of `read_stl` is irreflexive. -/
theorem call_self_FLT_MIN (p : vec3) : (CmpVec.mk FLT_MIN).call p p = false :=
  CmpVec.call_self ⟨FLT_MIN⟩ (e := 8388608) (by decide) (by norm_num) p

/-- The corners of a triangle of a sequence are corners of the sequence. -/
theorem mem_allCorners : ∀ (ts : List (vec3 × vec3 × vec3)) (t : vec3 × vec3 × vec3),
    t ∈ ts → ∀ q ∈ cornersOf t, q ∈ allCorners ts
  | [], _, h, _, _ => by simp at h
  | u :: ts, t, h, q, hq => by
    simp only [cornersOf, List.mem_cons, List.mem_singleton, List.not_mem_nil, or_false] at hq
    simp only [allCorners, List.mem_cons]
    rcases List.mem_cons.mp h with rfl | h
    · tauto
    · have ih := mem_allCorners ts t h q (by
        simp only [cornersOf, List.mem_cons, List.mem_singleton, List.not_mem_nil, or_false]
        exact hq)
      tauto

/-- Where the comparator is a strict weak ordering on the corners of a
sequence of triangles and no two corners of one triangle are equivalent, no
corner is equivalent to two corners of one triangle. -/
theorem separated_of_strictWeakOn (comp : CmpVec) (ts : List (vec3 × vec3 × vec3))
    (hswo : StrictWeakOn comp (allCorners ts)) (hnd : NonDegenerate comp ts) :
    Separated comp ts := by
  have hsym : ∀ a b, comp.equiv a b = comp.equiv b a := fun a b => by
    simp [CmpVec.equiv, Bool.and_comm]
  have key : ∀ k a b, k ∈ allCorners ts → a ∈ allCorners ts → b ∈ allCorners ts →
      comp.equiv a b = false → comp.shares k a b = false := by
    intro k a b hk ha hb hab
    cases h : comp.shares k a b
    · rfl
    · simp only [CmpVec.shares, Bool.and_eq_true] at h
      have h1 : comp.equiv a k = true := by rw [hsym]; exact h.1
      have := hswo.2 a ha k hk b hb h1 h.2
      rw [hab] at this
      exact absurd this (by simp)
  intro t ht u hu k hk
  have hkc := mem_allCorners ts u hu k hk
  have h1 := mem_allCorners ts t ht t.1 (by simp [cornersOf])
  have h2 := mem_allCorners ts t ht t.2.1 (by simp [cornersOf])
  have h3 := mem_allCorners ts t ht t.2.2 (by simp [cornersOf])
  obtain ⟨d1, d2, d3⟩ := hnd t ht
  exact ⟨key k _ _ hkc h1 h2 d1, key k _ _ hkc h1 h3 d2, key k _ _ hkc h2 h3 d3⟩

/-- C1 (as amended). For every binary STL file made of an 80-byte header
that does not start with `solid` or `SOLID`, the count N and N complete
records, on whose corners `CmpVec(FLT_MIN)` is a strict weak ordering and in
which no two corners of one triangle are equivalent under `CmpVec` (neither
less than the other), `read_stl` returns a mesh with exactly N faces (and
the value `N > 0`). -/
theorem read_stl_binary_face_count (L : Libc) (loc : Locals) (mesh : SurfaceMesh)
    (header : List Byte) (rs : List Record)
    (hh : header.length = 80) (hn : rs.length < 4294967296)
    (hb : header.take 5 ≠ cstr "solid" ∧ header.take 5 ≠ cstr "SOLID")
    (hswo : StrictWeakOn ⟨FLT_MIN⟩ (allCorners (rs.map Record.corners)))
    (hnd : NonDegenerate ⟨FLT_MIN⟩ (rs.map Record.corners)) :
    ∃ m, read_stl L loc mesh (some (stlBinary header rs)) = some (decide (0 < rs.length), m) ∧
      m.n_faces = rs.length := by
  have hs : Separated ⟨FLT_MIN⟩ (rs.map Record.corners) :=
    separated_of_strictWeakOn ⟨FLT_MIN⟩ _ hswo hnd
  have hne : stlBinary header rs ≠ [] := by
    intro h
    have := congrArg List.length h
    simp [stlBinary, hh] at this
  obtain ⟨line, rest, hfg, hdet⟩ := detect_spec loc.line (stlBinary header rs) hne
  have htake : (stlBinary header rs).take 5 = header.take 5 := by
    unfold stlBinary
    rw [List.take_append_of_le_length (by omega)]
  have hbin : isBinary line = true := by
    cases hb2 : isBinary line
    · rw [htake] at hdet
      rcases hdet.mp hb2 with h | h
      · exact absurd h hb.1
      · exact absurd h hb.2
    · rfl
  obtain ⟨ln, hrd⟩ := readBinary_full ⟨FLT_MIN⟩ loc.nT
    ⟨stlBinary header rs, line, loc.p, loc.vertices, [], mesh.clear⟩ header rs hh hn rfl
  have hcount := feedAll_separated ⟨FLT_MIN⟩ call_self_FLT_MIN
    (fun q => ∃ u ∈ rs.map Record.corners, q ∈ cornersOf u) (rs.map Record.corners)
    ⟨stlBinary header rs, line, loc.p, loc.vertices, [], mesh.clear⟩
    (by intro e he; simp at he) (by intro q hq; simp [SurfaceMesh.clear] at hq)
    (fun t ht => ⟨fun q hq => ⟨t, ht, hq⟩, fun k ⟨u, hu, hk⟩ => hs t ht u hu k hk⟩)
  have hcount2 : (feedAll ⟨FLT_MIN⟩ (rs.map Record.corners)
      ⟨stlBinary header rs, line, loc.p, loc.vertices, [], mesh.clear⟩).mesh.faces.length =
      rs.length := by
    rw [hcount]
    simp [SurfaceMesh.clear]
  refine ⟨(feedAll ⟨FLT_MIN⟩ (rs.map Record.corners)
    ⟨stlBinary header rs, line, loc.p, loc.vertices, [], mesh.clear⟩).mesh, ?_, ?_⟩
  · unfold read_stl
    simp only [hfg, hbin, if_true, hrd, Option.map_some']
    congr 2
    simp only [SurfaceMesh.n_faces, RState.reframe, hcount2, gt_iff_lt]
  · simp only [SurfaceMesh.n_faces, hcount2]

/-- Witness of C1 (as amended): the comparator is a strict weak ordering on
the corners `(0,0,0)`, `(1,0,0)`, `(0,1,0)`, no two of which are equivalent,
and the file of this one triangle gives one face and three vertices. -/
theorem read_stl_binary_face_count_witness :
    (∃ m, read_stl noLibc zeroLocals emptyMesh (some (stlBinary zeroHeader [unitRecord])) =
        some (true, m) ∧ m.n_faces = 1) ∧
    (read_stl noLibc zeroLocals emptyMesh (some (stlBinary zeroHeader [unitRecord]))).map
      (fun r => (r.2.n_vertices, r.2.n_faces)) = some (3, 1) :=
  ⟨read_stl_binary_face_count noLibc zeroLocals emptyMesh zeroHeader [unitRecord]
    (by rfl) (by decide) (by decide!) (by unfold StrictWeakOn; decide!)
    (by unfold NonDegenerate; decide!), by decide!⟩

/-- C1, counterexample. The complete binary file of the one triangle
`(0,0,0)`, `(2^(-149),0,0)`, `(1,0,0)`, whose three corners are different
positions, and on which the comparator is a strict weak ordering, gives a
mesh with no face (and the value `false`), not one face. -/
theorem read_stl_binary_face_count_counterexample :
    closeRecord.a ≠ closeRecord.b ∧ closeRecord.a ≠ closeRecord.c ∧
      closeRecord.b ≠ closeRecord.c ∧
      StrictWeakOn ⟨FLT_MIN⟩ (allCorners [closeRecord.corners]) ∧
      (stlBinary zeroHeader [closeRecord]).length = 80 + 4 + 50 * 1 ∧
      (read_stl noLibc zeroLocals emptyMesh (some (stlBinary zeroHeader [closeRecord]))).map
        (fun r => (r.1, r.2.n_faces)) = some (false, 0) := by
  unfold StrictWeakOn
  decide!

/-! ## The look-up under a strict weak ordering -/

/-- The equivalence of a comparator is symmetric. -/
theorem CmpVec.equiv_symm (comp : CmpVec) (a b : vec3) : comp.equiv a b = comp.equiv b a := by
  simp [CmpVec.equiv, Bool.and_comm]

/-- Two entries of a sorted map are one entry, or the key of one is less
than the key of the other. -/
theorem VMap.Sorted.trichotomy {comp : CmpVec} :
    ∀ {m : VMap}, VMap.Sorted comp m → ∀ e1 ∈ m, ∀ e2 ∈ m,
      e1 = e2 ∨ comp.call e1.1 e2.1 = true ∨ comp.call e2.1 e1.1 = true
  | [], _, e1, h1, _, _ => by simp at h1
  | e :: m, hs, e1, h1, e2, h2 => by
    have hs' := List.pairwise_cons.mp hs
    rcases List.mem_cons.mp h1 with g1 | g1
    · rcases List.mem_cons.mp h2 with g2 | g2
      · exact Or.inl (g1.trans g2.symm)
      · exact Or.inr (Or.inl (g1 ▸ hs'.1 e2 g2))
    · rcases List.mem_cons.mp h2 with g2 | g2
      · exact Or.inr (Or.inr (g2 ▸ hs'.1 e1 g1))
      · exact VMap.Sorted.trichotomy hs'.2 e1 g1 e2 g2

/-- The slot just assigned holds the handle assigned. -/
theorem Tri.get_set (t : Tri) (i : Nat) (v : Vertex) : (t.set i v).get i = v := by
  match i with
  | 0 => rfl
  | 1 => rfl
  | _ + 2 => rfl

/-- One look-up in a sorted map, the comparator being transitive on the
keys and the point: the map stays sorted, keeps its entries, gains at most
the point as a key, and holds an entry whose value is the handle stored in
`vertices` and whose key is equivalent to the point. -/
theorem resolve_sorted (comp : CmpVec) (T : vec3 → Prop) (i : Nat) (p : vec3) (st : RState)
    (hirr : comp.call p p = false)
    (htr : ∀ a b c, T a → T b → T c →
      comp.call a b = true → comp.call b c = true → comp.call a c = true)
    (hk : ∀ e ∈ st.vMap, T e.1) (hp : T p) (hs : VMap.Sorted comp st.vMap) :
    VMap.Sorted comp (resolve comp i p st).vMap ∧
    (∀ e ∈ (resolve comp i p st).vMap, T e.1) ∧
    (∀ e ∈ st.vMap, e ∈ (resolve comp i p st).vMap) ∧
    ∃ e ∈ (resolve comp i p st).vMap,
      e.2 = (resolve comp i p st).vertices.get i ∧ comp.equiv e.1 p = true := by
  unfold resolve binResolve
  simp only
  cases hf : st.vMap.find comp p with
  | some v =>
    simp only [Tri.get_set]
    obtain ⟨e, he, hv, heq⟩ := VMap.find_some hf
    exact ⟨hs, hk, fun _ h => h, e, he, hv, heq⟩
  | none =>
    simp only [Tri.get_set]
    obtain ⟨pre, suf, hm, ha, hpre, hsuf⟩ :=
      VMap.assign_of_find_none (st.mesh.add_vertex p).2 hf
    rw [ha]
    have hs2 : VMap.Sorted comp (pre ++ suf) := hm ▸ hs
    unfold VMap.Sorted at hs2 ⊢
    rw [List.pairwise_append] at hs2
    refine ⟨?_, ?_, ?_, ?_⟩
    · rw [List.pairwise_append]
      refine ⟨hs2.1, ?_, ?_⟩
      · rw [List.pairwise_cons]
        refine ⟨?_, hs2.2.1⟩
        intro e he
        rcases suf with _ | ⟨s0, suf⟩
        · simp at he
        · have h0 : comp.call p s0.1 = true := hsuf s0 rfl
          rcases List.mem_cons.mp he with rfl | he
          · exact h0
          · have h1 := (List.pairwise_cons.mp hs2.2.1).1 e he
            exact htr p s0.1 e.1 hp (hk s0 (by rw [hm]; simp)) (hk e (by rw [hm]; simp [he])) h0 h1
      · intro a ha' b hb
        rcases List.mem_cons.mp hb with rfl | hb
        · exact hpre a ha'
        · exact hs2.2.2 a ha' b hb
    · intro e he
      simp only [List.mem_append, List.mem_cons] at he
      rcases he with he | rfl | he
      · exact hk e (by rw [hm]; simp [he])
      · exact hp
      · exact hk e (by rw [hm]; simp [he])
    · intro e he
      rw [hm] at he
      simp only [List.mem_append, List.mem_cons] at he ⊢
      rcases he with he | he
      · exact Or.inl he
      · exact Or.inr (Or.inr he)
    · refine ⟨(p, (st.mesh.add_vertex p).2), by simp, rfl, ?_⟩
      simp [CmpVec.equiv, hirr]

/-- The face test changes neither the map nor `vertices`. -/
theorem binAddFace_vMap (st : RState) : (binAddFace st).vMap = st.vMap := by
  unfold binAddFace
  split <;> rfl

/-- The triangles of a sequence fed from a sorted map, the comparator being
transitive on the keys and the corners: the final map is sorted and every
corner was resolved to the value of an entry of the final map whose key is
equivalent to it. -/
theorem feedPairs_sorted (comp : CmpVec) (T : vec3 → Prop)
    (hirr : ∀ p, comp.call p p = false)
    (htr : ∀ a b c, T a → T b → T c →
      comp.call a b = true → comp.call b c = true → comp.call a c = true) :
    ∀ (ts : List (vec3 × vec3 × vec3)) (st : RState), (∀ e ∈ st.vMap, T e.1) →
      (∀ p ∈ allCorners ts, T p) → VMap.Sorted comp st.vMap →
      VMap.Sorted comp (feedAll comp ts st).vMap ∧
      (∀ e ∈ (feedAll comp ts st).vMap, T e.1) ∧
      (∀ e ∈ st.vMap, e ∈ (feedAll comp ts st).vMap) ∧
      ∀ ph ∈ feedPairs comp ts st,
        ∃ e ∈ (feedAll comp ts st).vMap, e.2 = ph.2 ∧ comp.equiv e.1 ph.1 = true := by
  intro ts
  induction ts with
  | nil =>
    intro st hk _ hs
    exact ⟨hs, hk, fun _ h => h, by simp [feedPairs]⟩
  | cons t ts ih =>
    intro st hk hps hs
    have hc : T t.1 ∧ T t.2.1 ∧ T t.2.2 :=
      ⟨hps _ (by simp [allCorners]), hps _ (by simp [allCorners]), hps _ (by simp [allCorners])⟩
    obtain ⟨a1, a2, a3, e0, he0, hv0, hq0⟩ :=
      resolve_sorted comp T 0 t.1 st (hirr _) htr hk hc.1 hs
    obtain ⟨b1, b2, b3, e1, he1, hv1, hq1⟩ :=
      resolve_sorted comp T 1 t.2.1 (resolve comp 0 t.1 st) (hirr _) htr a2 hc.2.1 a1
    obtain ⟨c1, c2, c3, e2, he2, hv2, hq2⟩ :=
      resolve_sorted comp T 2 t.2.2 (resolve comp 1 t.2.1 (resolve comp 0 t.1 st)) (hirr _) htr
        b2 hc.2.2 b1
    have hfm : (feed comp t st).vMap =
        (resolve comp 2 t.2.2 (resolve comp 1 t.2.1 (resolve comp 0 t.1 st))).vMap :=
      binAddFace_vMap _
    obtain ⟨d1, d2, d3, d4⟩ := ih (feed comp t st) (by rw [hfm]; exact c2)
      (fun q hq => hps q (by simp [allCorners, hq])) (by rw [hfm]; exact c1)
    have hfa : feedAll comp (t :: ts) st = feedAll comp ts (feed comp t st) := rfl
    rw [hfa]
    refine ⟨d1, d2, fun e he => d3 e (by rw [hfm]; exact c3 e (b3 e (a3 e he))), ?_⟩
    intro ph hph
    simp only [feedPairs, List.mem_cons] at hph
    rcases hph with rfl | rfl | rfl | hph
    · exact ⟨e0, d3 e0 (by rw [hfm]; exact c3 e0 (b3 e0 he0)), hv0, hq0⟩
    · exact ⟨e1, d3 e1 (by rw [hfm]; exact c3 e1 he1), hv1, hq1⟩
    · exact ⟨e2, d3 e2 (by rw [hfm]; exact he2), hv2, hq2⟩
    · exact d4 ph hph

/-- The pairs of `feedPairs` hold the corners in the order of the look-ups. -/
theorem feedPairs_fst (comp : CmpVec) :
    ∀ (ts : List (vec3 × vec3 × vec3)) (st : RState),
      (feedPairs comp ts st).map Prod.fst = allCorners ts
  | [], _ => rfl
  | t :: ts, st => by simp [feedPairs, allCorners, feedPairs_fst comp ts]

/-- C2 (as amended). For every sequence of triangles on whose corners
`CmpVec(FLT_MIN)` is a strict weak ordering, fed from the empty map as
`read_stl` feeds the triangles of a file, every corner gets a handle and
every two corners whose differences in x, in y and in z are all at most
`FLT_MIN` are resolved to the same handle. -/
theorem feedPairs_within (loc : Locals) (input line : List Byte)
    (ts : List (vec3 × vec3 × vec3)) (hswo : StrictWeakOn ⟨FLT_MIN⟩ (allCorners ts)) :
    (feedPairs ⟨FLT_MIN⟩ ts (startState loc input line)).map Prod.fst = allCorners ts ∧
    ∀ ph ∈ feedPairs ⟨FLT_MIN⟩ ts (startState loc input line),
      ∀ qg ∈ feedPairs ⟨FLT_MIN⟩ ts (startState loc input line),
        vec3.within FLT_MIN ph.1 qg.1 = true → ph.2 = qg.2 := by
  refine ⟨feedPairs_fst _ _ _, ?_⟩
  intro ph hph qg hqg hw
  obtain ⟨hsorted, hkeys, -, hall⟩ := feedPairs_sorted ⟨FLT_MIN⟩ (fun q => q ∈ allCorners ts)
    call_self_FLT_MIN (fun a b c ha hb hc => hswo.1 a ha b hb c hc) ts
    (startState loc input line) (by intro e he; simp [startState] at he) (fun p hp => hp)
    (by simp [startState, VMap.Sorted])
  obtain ⟨e1, he1, hv1, hq1⟩ := hall ph hph
  obtain ⟨e2, he2, hv2, hq2⟩ := hall qg hqg
  have hmem : ∀ x ∈ feedPairs ⟨FLT_MIN⟩ ts (startState loc input line),
      x.1 ∈ allCorners ts := by
    intro x hx
    rw [← feedPairs_fst ⟨FLT_MIN⟩ ts (startState loc input line)]
    exact List.mem_map_of_mem Prod.fst hx
  have hpq : (CmpVec.mk FLT_MIN).equiv ph.1 qg.1 = true :=
    CmpVec.equiv_of_within (c := ⟨FLT_MIN⟩) hw
  have h1 := hswo.2 e1.1 (hkeys e1 he1) ph.1 (hmem ph hph) qg.1 (hmem qg hqg) hq1 hpq
  have h2 := hswo.2 e1.1 (hkeys e1 he1) qg.1 (hmem qg hqg) e2.1 (hkeys e2 he2) h1
    (by rw [CmpVec.equiv_symm]; exact hq2)
  rcases hsorted.trichotomy e1 he1 e2 he2 with h | h | h
  · rw [← hv1, ← hv2, h]
  · simp [CmpVec.equiv, h] at h2
  · simp [CmpVec.equiv, h] at h2

/-- Witness of C2 (as amended): on the corners of the triangle `(0,0,0)`,
`(2^(-149),0,0)`, `(1,0,0)` the comparator is a strict weak ordering, and
the first two corners, which are within `FLT_MIN` of each other, get the
handle 0. -/
theorem feedPairs_within_witness :
    (feedPairs ⟨FLT_MIN⟩ [closeRecord.corners] (startState zeroLocals [] [])).map Prod.snd =
      [0, 0, 1] ∧
    ∀ ph ∈ feedPairs ⟨FLT_MIN⟩ [closeRecord.corners] (startState zeroLocals [] []),
      ∀ qg ∈ feedPairs ⟨FLT_MIN⟩ [closeRecord.corners] (startState zeroLocals [] []),
        vec3.within FLT_MIN ph.1 qg.1 = true → ph.2 = qg.2 :=
  ⟨by decide!, (feedPairs_within zeroLocals [] [] [closeRecord.corners]
    (by unfold StrictWeakOn; decide!)).2⟩

/-- C2, counterexample. The corners `(0,0,0)`, `(2 FLT_MIN,0,0)`,
`(FLT_MIN,0,0)` of one triangle, looked up in this order, get the handles
0, 1, 0: the last two are within `FLT_MIN` of each other in every coordinate
and get different handles. As the one record of a binary file they give two
vertices and no face. -/
theorem feedPairs_within_counterexample :
    (feedPairs ⟨FLT_MIN⟩ [chainTriangle] (startState zeroLocals [] [])).map Prod.snd =
      [0, 1, 0] ∧
    vec3.within FLT_MIN chainTriangle.2.1 chainTriangle.2.2 = true ∧
    (read_stl noLibc zeroLocals emptyMesh (some (stlBinary zeroHeader
        [recordOf chainTriangle.1 chainTriangle.2.1 chainTriangle.2.2]))).map
      (fun r => (r.1, r.2.n_vertices, r.2.n_faces)) = some (false, 2, 0) := by
  decide!

/-! ## The face test -/

/-- The look-up of the binary branch adds no face. -/
theorem binResolve_faces (comp : CmpVec) (i : Nat) (st : RState) :
    (binResolve comp i st).mesh.faces = st.mesh.faces := by
  unfold binResolve
  cases st.vMap.find comp st.p <;> rfl

/-- The look-up of the ASCII branch adds no face. -/
theorem asciiResolve_faces (comp : CmpVec) (i : Nat) (st : RState) :
    (asciiResolve comp i st).mesh.faces = st.mesh.faces := by
  unfold asciiResolve
  cases st.vMap.find comp st.p <;> rfl

/-- Reading a vertex in the binary branch adds no face. -/
theorem binVertex_faces {comp : CmpVec} {i : Nat} {st s : RState}
    (h : binVertex comp i st = some s) : s.mesh.faces = st.mesh.faces := by
  unfold binVertex at h
  cases hr : read st.p.toBytes st.input with
  | none => simp [hr] at h
  | some br =>
    simp only [hr, Option.some.injEq] at h
    rw [← h, binResolve_faces]

/-- Reading a vertex in the ASCII branch adds no face. -/
theorem asciiVertex_faces {L : Libc} {comp : CmpVec} {i : Nat} {st s : RState}
    (h : asciiVertex L comp i st = some s) : s.mesh.faces = st.mesh.faces := by
  unfold asciiVertex at h
  cases hr : fgets 100 st.line st.input with
  | none => simp [hr] at h
  | some lr =>
    simp only [hr, Option.some.injEq] at h
    rw [← h, asciiResolve_faces]

/-- The face test of the binary branch: the face of the three handles is
appended when they are pairwise distinct, and nothing changes otherwise. -/
theorem binAddFace_spec (st : RState) :
    (binAddFace st).vertices = st.vertices ∧
    (binAddFace st).mesh.faces =
      if st.vertices.Proper then st.mesh.faces ++ [st.vertices.toList] else st.mesh.faces := by
  unfold binAddFace Tri.Proper
  split <;> simp [SurfaceMesh.add_face]

/-- The face test of the ASCII branch: the face of the three handles is
appended when they are pairwise distinct, and nothing changes otherwise. -/
theorem asciiAddFace_spec (st : RState) :
    (asciiAddFace st).vertices = st.vertices ∧
    (asciiAddFace st).mesh.faces =
      if st.vertices.Proper then st.mesh.faces ++ [st.vertices.toList] else st.mesh.faces := by
  unfold asciiAddFace Tri.Proper
  split <;> simp [SurfaceMesh.add_face]

/-- C3. For every triangle record read by `read_stl`, in the binary branch
and in the ASCII branch, the face of the three resolved handles is added to
the mesh if and only if the handles are pairwise distinct: the faces after
the record are the faces before it followed by that face when the handles
are pairwise distinct, and the faces before it otherwise. -/
theorem triangle_face_iff (L : Libc) (comp : CmpVec) (st st' : RState) :
    (binTriangle comp st = some st' →
      st'.mesh.faces =
        if st'.vertices.Proper then st.mesh.faces ++ [st'.vertices.toList]
        else st.mesh.faces) ∧
    (asciiTriangle L comp st = some st' →
      st'.mesh.faces =
        if st'.vertices.Proper then st.mesh.faces ++ [st'.vertices.toList]
        else st.mesh.faces) := by
  constructor
  · intro h
    rw [binTriangle_eq] at h
    by_cases h0 : (fread 12 st.input).1.length = 0
    · simp [h0] at h
    · simp only [h0, if_false, Option.bind_eq_some] at h
      obtain ⟨s0, e0, s1, e1, s2, e2, h⟩ := h
      by_cases h2 : (fread 2 (binAddFace s2).input).1.length = 0
      · simp [h2] at h
      · simp only [h2, if_false, Option.some.injEq] at h
        have hf : s2.mesh.faces = st.mesh.faces := by
          rw [binVertex_faces e2, binVertex_faces e1, binVertex_faces e0]
          rfl
        rw [← h]
        simp only [RState.reframe, (binAddFace_spec s2).1, (binAddFace_spec s2).2, hf]
  · intro h
    unfold asciiTriangle at h
    simp only [Option.bind_eq_some, Option.some.injEq] at h
    obtain ⟨s0, e0, s1, e1, s2, e2, h⟩ := h
    have hf : s2.mesh.faces = st.mesh.faces := by
      rw [asciiVertex_faces e2, asciiVertex_faces e1, asciiVertex_faces e0]
    rw [← h]
    simp only [(asciiAddFace_spec s2).1, (asciiAddFace_spec s2).2, hf]

/-- Witness of C3: the record of the triangle `(0,0,0)`, `(1,0,0)`, `(0,1,0)`
is read by the binary branch, its three handles are pairwise distinct and
its face is added. -/
theorem triangle_face_iff_witness :
    (binTriangle ⟨FLT_MIN⟩ (startState zeroLocals unitRecord.toBytes [])).map
        (fun s => (s.vertices, s.mesh.faces)) = some (⟨0, 1, 2⟩, [[0, 1, 2]]) ∧
    (binTriangle ⟨FLT_MIN⟩ (startState zeroLocals unitRecord.toBytes [])).map
        (fun s => s.mesh.faces) =
      (binTriangle ⟨FLT_MIN⟩ (startState zeroLocals unitRecord.toBytes [])).map
        (fun s => if s.vertices.Proper then
            (startState zeroLocals unitRecord.toBytes []).mesh.faces ++ [s.vertices.toList]
          else (startState zeroLocals unitRecord.toBytes []).mesh.faces) := by
  refine ⟨by decide!, ?_⟩
  cases h : binTriangle ⟨FLT_MIN⟩ (startState zeroLocals unitRecord.toBytes []) with
  | none => rfl
  | some s =>
    exact congrArg some ((triangle_face_iff noLibc ⟨FLT_MIN⟩
      (startState zeroLocals unitRecord.toBytes []) s).1 h)

/-! ## The classification of a file -/

/-- C4 (as amended). For every file content that is not empty, the format
test of `read_stl` takes it for ASCII if and only if its first five bytes
are exactly `solid` or exactly `SOLID`, and takes every other content for
binary. -/
theorem detector_iff (l0 content : List Byte) (h : content ≠ []) :
    ∃ line rest, fgets 6 l0 content = some (line, rest) ∧
      (isBinary line = false ↔
        (content.take 5 = cstr "solid" ∨ content.take 5 = cstr "SOLID")) ∧
      (isBinary line = true ↔
        ¬ (content.take 5 = cstr "solid" ∨ content.take 5 = cstr "SOLID")) := by
  obtain ⟨line, rest, h1, h2⟩ := detect_spec l0 content h
  refine ⟨line, rest, h1, h2, ?_⟩
  rw [← h2]
  cases isBinary line <;> simp

/-- Witness of C4 (as amended): the content `solid stl` is taken for ASCII. -/
theorem detector_iff_witness :
    ∃ line rest, fgets 6 zeroLocals.line (cstr "solid stl") = some (line, rest) ∧
      (isBinary line = false ↔
        ((cstr "solid stl").take 5 = cstr "solid" ∨ (cstr "solid stl").take 5 = cstr "SOLID")) ∧
      (isBinary line = true ↔
        ¬ ((cstr "solid stl").take 5 = cstr "solid" ∨ (cstr "solid stl").take 5 = cstr "SOLID")) :=
  detector_iff zeroLocals.line (cstr "solid stl") (by decide!)

/-- C4, counterexample. The content `Solid stl`, whose first five bytes
spell `solid` with a capital letter, is taken for binary. -/
theorem detector_iff_counterexample :
    (fgets 6 zeroLocals.line (cstr "Solid stl")).map (fun r => isBinary r.1) = some true := by
  decide!

/-! ## The binary branch on short input -/

/-- A read of at least one byte obtains nothing exactly at the end of the
stream. -/
theorem fread_length_eq_zero (n : Nat) (s : List Byte) (hn : 0 < n) :
    (fread n s).1.length = 0 ↔ s = [] := by
  cases s with
  | nil => simp [fread]
  | cons b s =>
    simp only [fread, List.length_take, List.length_cons]
    constructor
    · intro h; omega
    · intro h; simp at h

/-- The helper `read` fails exactly at the end of the stream, and leaves the
stream after the bytes it asked for. -/
theorem read_cases (t s : List Byte) (ht : 0 < t.length) :
    (s = [] ∧ read t s = none) ∨
      (s ≠ [] ∧ ∃ bytes, read t s = some (bytes, s.drop t.length)) := by
  unfold read
  by_cases h : s = []
  · left
    exact ⟨h, by rw [if_pos ((fread_length_eq_zero _ _ ht).mpr h)]⟩
  · right
    refine ⟨h, overwrite t (fread t.length s).1, ?_⟩
    rw [if_neg (fun h0 => h ((fread_length_eq_zero _ _ ht).mp h0))]
    rfl

/-- The look-up of the binary branch keeps the stream. -/
theorem binResolve_keeps_input (comp : CmpVec) (i : Nat) (st : RState) :
    (binResolve comp i st).input = st.input := by
  unfold binResolve
  cases st.vMap.find comp st.p <;> rfl

/-- The face test of the binary branch keeps the stream. -/
theorem binAddFace_keeps_input (st : RState) : (binAddFace st).input = st.input := by
  unfold binAddFace
  split <;> rfl

/-- Reading a vertex in the binary branch fails exactly at the end of the
stream and takes twelve bytes (or what is left) otherwise. -/
theorem binVertex_cases (comp : CmpVec) (i : Nat) (st : RState) :
    (st.input = [] ∧ binVertex comp i st = none) ∨
      (st.input ≠ [] ∧ ∃ s, binVertex comp i st = some s ∧ s.input = st.input.drop 12) := by
  unfold binVertex
  rcases read_cases st.p.toBytes st.input (by simp [vec3.toBytes_length]) with ⟨h, hr⟩ | ⟨h, b, hr⟩
  · left
    exact ⟨h, by rw [hr]⟩
  · right
    refine ⟨h, _, by rw [hr], ?_⟩
    rw [binResolve_keeps_input]
    simp [vec3.toBytes_length]

/-- One pass of the loop of the binary branch fails when fewer than 49 bytes
are left, and takes fifty bytes (or the 49 that are left) otherwise. -/
theorem binTriangle_cases (comp : CmpVec) (st : RState) :
    (st.input.length < 49 ∧ binTriangle comp st = none) ∨
      (49 ≤ st.input.length ∧
        ∃ s, binTriangle comp st = some s ∧ s.input = st.input.drop 50) := by
  rw [binTriangle_eq]
  have hnil : ∀ l : List Byte, l = [] ↔ l.length = 0 := fun l => List.length_eq_zero.symm
  by_cases h0 : (fread 12 st.input).1.length = 0
  · left
    have := (fread_length_eq_zero 12 st.input (by norm_num)).mp h0
    exact ⟨by simp [this], by rw [if_pos h0]⟩
  rw [if_neg h0]
  have hin : (st.reframe (fread 12 st.input).2 (overwrite st.line (fread 12 st.input).1)).input =
      st.input.drop 12 := rfl
  rcases binVertex_cases comp 0
      (st.reframe (fread 12 st.input).2 (overwrite st.line (fread 12 st.input).1)) with
    ⟨h1, e1⟩ | ⟨h1, s0, e1, i1⟩
  · left
    rw [hin, hnil, List.length_drop] at h1
    exact ⟨by omega, by rw [e1]; rfl⟩
  rw [e1, Option.some_bind]
  rw [hin] at i1 h1
  rcases binVertex_cases comp 1 s0 with ⟨h2, e2⟩ | ⟨h2, s1, e2, i2⟩
  · left
    rw [i1, hnil, List.length_drop, List.length_drop] at h2
    exact ⟨by omega, by rw [e2]; rfl⟩
  rw [e2, Option.some_bind]
  rcases binVertex_cases comp 2 s1 with ⟨h3, e3⟩ | ⟨h3, s2, e3, i3⟩
  · left
    rw [i2, i1, hnil, List.length_drop, List.length_drop, List.length_drop] at h3
    exact ⟨by omega, by rw [e3]; rfl⟩
  rw [e3, Option.some_bind]
  have hi : (binAddFace s2).input = st.input.drop 48 := by
    rw [binAddFace_keeps_input, i3, i2, i1]
    simp [List.drop_drop]
  by_cases h4 : (fread 2 (binAddFace s2).input).1.length = 0
  · left
    have := (fread_length_eq_zero 2 _ (by norm_num)).mp h4
    rw [hi, hnil, List.length_drop] at this
    exact ⟨by omega, by rw [if_pos h4]⟩
  · right
    have hne : ¬ ((binAddFace s2).input = []) :=
      fun h => h4 ((fread_length_eq_zero 2 _ (by norm_num)).mpr h)
    rw [hi, hnil, List.length_drop] at hne
    refine ⟨by omega, _, by rw [if_neg h4], ?_⟩
    show (fread 2 (binAddFace s2).input).2 = _
    rw [hi]
    simp [fread, List.drop_drop]

/-- The loop of the binary branch fails when the stream lacks more than the
last byte of the records it is to read. -/
theorem binLoop_short (comp : CmpVec) :
    ∀ (n : Nat) (st : RState), st.input.length + 1 < 50 * n → binLoop comp n st = none
  | 0, _, h => by omega
  | n + 1, st, h => by
    rcases binTriangle_cases comp st with ⟨_, e⟩ | ⟨h1, s, e, hi⟩
    · simp [binLoop, e]
    · have ih := binLoop_short comp n s (by rw [hi, List.length_drop]; omega)
      simp [binLoop, e, ih]

/-- The loop of the binary branch runs to its end when the stream lacks at
most the last byte of the records it is to read. -/
theorem binLoop_long (comp : CmpVec) :
    ∀ (n : Nat) (st : RState), 50 * n ≤ st.input.length + 1 → ∃ s, binLoop comp n st = some s
  | 0, st, _ => ⟨st, rfl⟩
  | n + 1, st, h => by
    rcases binTriangle_cases comp st with ⟨h1, _⟩ | ⟨_, s, e, hi⟩
    · omega
    · obtain ⟨s', hs'⟩ := binLoop_long comp n s (by rw [hi, List.length_drop]; omega)
      exact ⟨s', by simp [binLoop, e, hs']⟩

/-- The binary branch of `read_stl` on an input that is not empty: the call
fails an assertion exactly when the branch does. -/
theorem read_stl_binary_none_iff (L : Libc) (loc : Locals) (mesh : SurfaceMesh)
    (content : List Byte) (hne : content ≠ [])
    (hb : ¬ (content.take 5 = cstr "solid" ∨ content.take 5 = cstr "SOLID")) :
    ∃ line, read_stl L loc mesh (some content) = none ↔
      readBinary ⟨FLT_MIN⟩ loc.nT ⟨content, line, loc.p, loc.vertices, [], mesh.clear⟩ = none := by
  obtain ⟨line, rest, hfg, hdet⟩ := detect_spec loc.line content hne
  have hbin : isBinary line = true := by
    cases h : isBinary line
    · exact absurd (hdet.mp h) hb
    · rfl
  refine ⟨line, ?_⟩
  unfold read_stl
  simp only [hfg, hbin, if_true, Option.map_eq_none']

/-- A binary input of at most 80 bytes fails an assertion of `read_stl`. -/
theorem read_stl_short_header (L : Libc) (loc : Locals) (mesh : SurfaceMesh)
    (content : List Byte)
    (hb : ¬ (content.take 5 = cstr "solid" ∨ content.take 5 = cstr "SOLID"))
    (hlen : content.length ≤ 80) : read_stl L loc mesh (some content) = none := by
  by_cases hne : content = []
  · subst hne
    rfl
  obtain ⟨line, hrd⟩ := read_stl_binary_none_iff L loc mesh content hne hb
  have h80 : ¬ (fread 80 content).1.length = 0 :=
    fun h => hne ((fread_length_eq_zero 80 content (by norm_num)).mp h)
  rw [hrd, readBinary_eq]
  simp only [h80, if_false]
  have hd : (fread 80 content).2 = [] := by
    simp only [fread]
    exact List.drop_eq_nil_of_le hlen
  rw [hd]
  rfl

/-- A binary input that holds the 80-byte header and the whole count N fails
an assertion of `read_stl` exactly when it then lacks more than the last
byte of the N records. -/
theorem read_stl_short_records (L : Libc) (loc : Locals) (mesh : SurfaceMesh)
    (header : List Byte) (N : Nat) (body : List Byte)
    (hb : ¬ ((header ++ (leBytes 4 N ++ body)).take 5 = cstr "solid" ∨
      (header ++ (leBytes 4 N ++ body)).take 5 = cstr "SOLID"))
    (hh : header.length = 80) (hN : N < 4294967296) :
    read_stl L loc mesh (some (header ++ (leBytes 4 N ++ body))) = none ↔
      body.length + 1 < 50 * N := by
  have hne : header ++ (leBytes 4 N ++ body) ≠ [] := by
    intro h
    have := congrArg List.length h
    simp only [List.length_nil, List.length_append, hh] at this
    omega
  obtain ⟨line, hrd⟩ := read_stl_binary_none_iff L loc mesh _ hne hb
  have h80 : ¬ (fread 80 (header ++ (leBytes 4 N ++ body))).1.length = 0 :=
    fun h => hne ((fread_length_eq_zero 80 _ (by norm_num)).mp h)
  rw [hrd, readBinary_eq]
  simp only [h80, if_false]
  have hd : fread 80 (header ++ (leBytes 4 N ++ body)) = (header, leBytes 4 N ++ body) := by
    rw [← hh, fread_append]
  rw [hd]
  simp only
  rw [read_full _ _ _ (by rfl) (by simp [leBytes])]
  simp only [leNat_leBytes _ hN]
  constructor
  · intro hnone
    by_contra hlong
    obtain ⟨s, hs⟩ := binLoop_long ⟨FLT_MIN⟩ N
      ((RState.mk (header ++ (leBytes 4 N ++ body)) line loc.p loc.vertices [] mesh.clear).reframe
        body (overwrite line header)) (by
          show 50 * N ≤ body.length + 1
          omega)
    rw [hs] at hnone
    exact Option.noConfusion hnone
  · intro hshort
    exact binLoop_short _ N _ hshort

/-- C9 (as amended). For every binary STL input (one whose first five bytes
are not `solid` or `SOLID`), `read_stl` fails fatally on an assertion when a
read finds no byte left: it does when the input has at most 80 bytes; and
when the input holds the 80-byte header and the whole count N, it does if
and only if the input then lacks more than the last byte of the N records. -/
theorem read_stl_truncated (L : Libc) (loc : Locals) (mesh : SurfaceMesh) (content : List Byte)
    (hb : ¬ (content.take 5 = cstr "solid" ∨ content.take 5 = cstr "SOLID")) :
    (content.length ≤ 80 → read_stl L loc mesh (some content) = none) ∧
    ∀ header N body, content = header ++ (leBytes 4 N ++ body) → header.length = 80 →
      N < 4294967296 →
      (read_stl L loc mesh (some content) = none ↔ body.length + 1 < 50 * N) := by
  refine ⟨read_stl_short_header L loc mesh content hb, ?_⟩
  intro header N body hc hh hN
  subst hc
  exact read_stl_short_records L loc mesh header N body hb hh hN

/-- Witness of C9 (as amended): a file of the header, the count 1 and the
twelve bytes of a normal fails an assertion. -/
theorem read_stl_truncated_witness :
    read_stl noLibc zeroLocals emptyMesh
      (some (zeroHeader ++ (leBytes 4 1 ++ vec3.zero.toBytes))) = none :=
  ((read_stl_truncated noLibc zeroLocals emptyMesh _ (by decide!)).2
    zeroHeader 1 vec3.zero.toBytes rfl (by rfl) (by norm_num)).mpr (by decide)

/-- C9, counterexample. The binary file of one triangle that ends one byte
early, inside the attribute field of its only record, fails no assertion:
the parse completes with one face and `read_stl` returns true. -/
theorem read_stl_truncated_counterexample :
    cutFile.length = 80 + 4 + 50 * 1 - 1 ∧
    (read_stl noLibc zeroLocals emptyMesh (some cutFile)).map (fun r => (r.1, r.2.n_faces)) =
      some (true, 1) := by
  decide!

/-! ## The result of `read_stl` -/

/-- C6 (as amended). On every file that can be opened and on which no read
assertion fails, `read_stl` returns true if the mesh it built has at least
one face and false otherwise; and no assertion fails on a binary file that
holds its 80-byte header, its count N and all but at most the last byte of
its N records. -/
theorem read_stl_result (L : Libc) (loc : Locals) (mesh : SurfaceMesh) (content : List Byte) :
    (∀ r, read_stl L loc mesh (some content) = some r → r.1 = decide (0 < r.2.n_faces)) ∧
    (∀ header N body, content = header ++ (leBytes 4 N ++ body) → header.length = 80 →
      N < 4294967296 →
      ¬ (content.take 5 = cstr "solid" ∨ content.take 5 = cstr "SOLID") →
      50 * N ≤ body.length + 1 →
      ∃ m, read_stl L loc mesh (some content) = some (decide (0 < m.n_faces), m)) := by
  have hval : ∀ r, read_stl L loc mesh (some content) = some r →
      r.1 = decide (0 < r.2.n_faces) := by
    intro r h
    unfold read_stl at h
    simp only at h
    cases hf : fgets 6 loc.line content with
    | none => simp [hf] at h
    | some lr =>
      obtain ⟨line, rest⟩ := lr
      simp only [hf] at h
      cases hb : isBinary line with
      | true =>
        simp only [hb, if_true, Option.map_eq_some'] at h
        obtain ⟨st, -, rfl⟩ := h
        simp
      | false =>
        simp only [hb, Bool.false_eq_true, if_false, Option.map_eq_some'] at h
        obtain ⟨st, -, rfl⟩ := h
        simp
  refine ⟨hval, ?_⟩
  intro header N body hc hh hN hb hlong
  subst hc
  cases hr : read_stl L loc mesh (some (header ++ (leBytes 4 N ++ body))) with
  | none =>
    have := (read_stl_short_records L loc mesh header N body hb hh hN).mp hr
    omega
  | some r =>
    refine ⟨r.2, ?_⟩
    rw [← hval r hr]

/-- Witness of C6 (as amended): the binary file of one triangle whose three
corners are the same point gives a mesh of one vertex and no face, and the
result false. -/
theorem read_stl_result_witness :
    read_stl noLibc zeroLocals emptyMesh (some sameCornersFile) =
        some (false, ⟨[vec3.zero], [], none⟩) ∧
      false = decide (0 < (SurfaceMesh.mk [vec3.zero] [] none).n_faces) :=
  ⟨by decide!, (read_stl_result noLibc zeroLocals emptyMesh sameCornersFile).1
    (false, ⟨[vec3.zero], [], none⟩) (by decide!)⟩

/-- C6, counterexample. An empty file can be opened, and `read_stl` does not
return false on it: the assertion on the first `fgets` fails. -/
theorem read_stl_result_counterexample :
    read_stl noLibc zeroLocals emptyMesh (some []) = none := by
  decide!

/-! ## Writing -/

/-- C7. For every mesh, `write_stl` returns false, writes no file (it only
sends a message to `std::cerr`) and leaves the mesh as it was when the mesh
is not a triangle mesh or has no face-normal property; for every mesh that
meets both conditions it returns true, leaves the mesh as it was, and the
file, once opened, holds the whole text. -/
theorem write_stl_preconditions (L : Libc) (mesh : SurfaceMesh) (canOpen : Bool) :
    (mesh.is_triangle_mesh = false →
      write_stl L mesh canOpen =
        ⟨false, mesh, none, cstr "write_stl: not a triangle mesh!" ++ [10]⟩) ∧
    (mesh.is_triangle_mesh = true → mesh.fnormal = none →
      write_stl L mesh canOpen =
        ⟨false, mesh, none, cstr "write_stl: no a face normals present!" ++ [10]⟩) ∧
    (∀ fnormals, mesh.is_triangle_mesh = true → mesh.fnormal = some fnormals →
      (write_stl L mesh canOpen).ret = true ∧ (write_stl L mesh canOpen).mesh = mesh ∧
      (canOpen = true →
        (write_stl L mesh canOpen).file = some (stlText (stlLines L mesh fnormals)))) := by
  refine ⟨?_, ?_, ?_⟩
  · intro h
    unfold write_stl
    simp [h]
  · intro ht h
    unfold write_stl
    simp [ht, h]
  · intro fn ht hn
    unfold write_stl
    simp only [ht, hn, Bool.not_true, Bool.false_eq_true, if_false]
    refine ⟨trivial, trivial, ?_⟩
    intro hc
    simp [hc]

/-- Witness of C7: a mesh of one face with four corners is refused, and a
mesh of one triangle with a normal is written. -/
theorem write_stl_preconditions_witness :
    write_stl noLibc quadMesh true =
      ⟨false, quadMesh, none, cstr "write_stl: not a triangle mesh!" ++ [10]⟩ ∧
    (write_stl noLibc oneTriangleMesh true).ret = true :=
  ⟨(write_stl_preconditions noLibc quadMesh true).1 (by decide),
   ((write_stl_preconditions noLibc oneTriangleMesh true).2.2 _ (by decide) rfl).1⟩

/-- The lines written for a face of three corners are the facet text of the
specification. -/
theorem facetLines_triangle (L : Libc) (mesh : SurfaceMesh) (fn : List vec3) (k : Nat)
    (a b c : Vertex) :
    facetLines L mesh fn k [a, b, c] =
      specFacet L (fn.getD k ⟨⟨0, 0, 0, 0⟩, ⟨0, 0, 0, 0⟩, ⟨0, 0, 0, 0⟩⟩)
        (mesh.point a) (mesh.point b) (mesh.point c) := rfl

/-- The lines written for the faces of a triangle mesh: seven for every
face, the facet text of the face of index `i` from the line `7 i` on. -/
theorem facesLines_spec (L : Libc) (mesh : SurfaceMesh) (fn : List vec3) :
    ∀ (faces : List (List Vertex)) (k : Nat), (∀ f ∈ faces, f.length = 3) →
      (facesLines L mesh fn k faces).length = 7 * faces.length ∧
      ∀ i f, faces.get? i = some f → ∃ a b c, f = [a, b, c] ∧
        ((facesLines L mesh fn k faces).drop (7 * i)).take 7 =
          specFacet L (fn.getD (k + i) ⟨⟨0, 0, 0, 0⟩, ⟨0, 0, 0, 0⟩, ⟨0, 0, 0, 0⟩⟩)
            (mesh.point a) (mesh.point b) (mesh.point c) := by
  intro faces
  induction faces with
  | nil =>
    intro k _
    exact ⟨rfl, fun i f h => by simp at h⟩
  | cons f fs ih =>
    intro k h3
    obtain ⟨a, b, c, rfl⟩ : ∃ a b c, f = [a, b, c] := by
      have := h3 f (List.mem_cons_self _ _)
      match f, this with
      | [a, b, c], _ => exact ⟨a, b, c, rfl⟩
    obtain ⟨ih1, ih2⟩ := ih (k + 1) (fun g hg => h3 g (List.mem_cons_of_mem _ hg))
    have hlen : (facetLines L mesh fn k [a, b, c]).length = 7 := rfl
    constructor
    · simp only [facesLines, List.length_append, hlen, ih1, List.length_cons]
      omega
    · intro i g hg
      cases i with
      | zero =>
        simp only [List.get?_cons_zero, Option.some.injEq] at hg
        subst hg
        refine ⟨a, b, c, rfl, ?_⟩
        simp only [facesLines, Nat.mul_zero, List.drop_zero, Nat.add_zero]
        rw [List.take_left' hlen, facetLines_triangle]
      | succ j =>
        simp only [List.get?_cons_succ] at hg
        obtain ⟨a', b', c', hf, hd⟩ := ih2 j g hg
        refine ⟨a', b', c', hf, ?_⟩
        have e : 7 * (j + 1) = (facetLines L mesh fn k [a, b, c]).length + 7 * j := by
          rw [hlen]; omega
        simp only [facesLines]
        rw [e, List.drop_append, hd]
        congr 2
        omega

/-- C8. For every triangle mesh with a face-normal property and F faces, the
lines `write_stl` sends to the file are: the line `solid stl`; then, for the
face of index `i` in enumeration order, the seven lines of its facet (the
`facet normal` line with the stored normal of the face, the `outer loop`
line, the three `vertex` lines with the positions of its corners in winding
order, the `endloop` line and the `endfacet` line); then the line
`endsolid`: `7 F + 2` lines in all, each ended by a newline. -/
theorem write_stl_lines (L : Libc) (mesh : SurfaceMesh) (fn : List vec3)
    (ht : mesh.is_triangle_mesh = true) (hn : mesh.fnormal = some fn) :
    (write_stl L mesh true).file = some (stlText (stlLines L mesh fn)) ∧
    (stlLines L mesh fn).length = 7 * mesh.n_faces + 2 ∧
    (stlLines L mesh fn).head? = some (cstr "solid stl") ∧
    (stlLines L mesh fn).getLast? = some (cstr "endsolid") ∧
    ∀ i f, mesh.faces.get? i = some f → ∃ a b c, f = [a, b, c] ∧
      ((stlLines L mesh fn).drop (1 + 7 * i)).take 7 =
        specFacet L (fn.getD i ⟨⟨0, 0, 0, 0⟩, ⟨0, 0, 0, 0⟩, ⟨0, 0, 0, 0⟩⟩)
          (mesh.point a) (mesh.point b) (mesh.point c) := by
  have h3 : ∀ f ∈ mesh.faces, f.length = 3 := by
    intro f hf
    have := List.all_eq_true.mp ht f hf
    simpa using this
  obtain ⟨hl, hb⟩ := facesLines_spec L mesh fn mesh.faces 0 h3
  refine ⟨?_, ?_, rfl, ?_, ?_⟩
  · unfold write_stl
    simp [ht, hn]
  · simp only [stlLines, List.length_append, List.length_cons, List.length_nil, hl,
      SurfaceMesh.n_faces]
    omega
  · simp only [stlLines, List.singleton_append]
    rw [List.getLast?_append]
    rfl
  · intro i f hf
    obtain ⟨a, b, c, hfe, hd⟩ := hb i f hf
    refine ⟨a, b, c, hfe, ?_⟩
    rw [Nat.zero_add] at hd
    have hlen : 7 ≤ ((facesLines L mesh fn 0 mesh.faces).drop (7 * i)).length := by
      have := congrArg List.length hd
      simp only [List.length_take, specFacet, List.length_cons, List.length_nil] at this
      omega
    have hle : 7 * i ≤ (facesLines L mesh fn 0 mesh.faces).length := by
      rw [List.length_drop] at hlen
      omega
    simp only [stlLines, List.singleton_append, List.cons_append, List.nil_append]
    rw [Nat.add_comm 1, List.drop_succ_cons, List.drop_append_of_le_length hle,
      List.take_append_of_le_length hlen, hd]

/-- Witness of C8: the mesh of one triangle is written as nine lines. -/
theorem write_stl_lines_witness :
    (stlLines noLibc oneTriangleMesh [⟨F32.zero, F32.zero, F32.one⟩]).length = 7 * 1 + 2 :=
  (write_stl_lines noLibc oneTriangleMesh [⟨F32.zero, F32.zero, F32.one⟩]
    (by decide) rfl).2.1

/-- C10, the code at a failing input. For the triangle mesh of one face with
a normal, `write_stl` returns true and writes nothing when the output file
cannot be opened. -/
theorem write_stl_unopened :
    write_stl noLibc oneTriangleMesh false = ⟨true, oneTriangleMesh, none, []⟩ := by
  decide!

/-! ## The ASCII branch on written text -/

/-- The characters `fgets` stores from a stream that starts with a line
shorter than the room there is. -/
theorem fgetsChars_line : ∀ (l rest : List Byte) (n : Nat), 10 ∉ l → l.length < n →
    fgetsChars n (l ++ 10 :: rest) = (l ++ [10], rest)
  | [], rest, n + 1, _, _ => by simp [fgetsChars]
  | b :: l, rest, n + 1, h10, hl => by
    have hb : b ≠ 10 := fun h => h10 (by simp [h])
    have ih := fgetsChars_line l rest n (fun h => h10 (List.mem_cons_of_mem _ h))
      (by simpa using hl)
    simp [fgetsChars, hb, ih]

/-- The call `fgets(line, 100, in)` on a stream that starts with a line of
fewer than 99 characters. -/
theorem fgets_line (ln l rest : List Byte) (h10 : 10 ∉ l) (hl : l.length < 99) :
    fgets 100 ln (l ++ 10 :: rest) =
      some ((l ++ 10 :: 0 :: ln.drop (l.length + 2)), rest) := by
  unfold fgets
  split
  · rename_i h
    simp at h
  · rw [fgetsChars_line l rest (100 - 1) h10 (by omega)]
    simp [overwrite]

/-- The white space skipped in front of a character that is no white space. -/
theorem skipSpace_blanks (k : Nat) (c : Byte) (t : List Byte) (hc : isspace c = false) :
    skipSpace (List.replicate k 32 ++ c :: t) = c :: t := by
  induction k with
  | zero => simp [skipSpace, List.dropWhile, hc]
  | succ k ih =>
    have h32 : (isspace 32 && decide ((32 : Byte) ≠ 0)) = true := by decide
    simp only [skipSpace] at ih ⊢
    rw [List.replicate_succ, List.cons_append, List.dropWhile_cons, if_pos h32]
    exact ih

/-- A line whose first character after the blanks is neither white space nor
the letter `o` in either case does not begin a face. -/
theorem isOuter_other (k : Nat) (c : Byte) (t : List Byte) (hc : isspace c = false)
    (h1 : c ≠ 111) (h2 : c ≠ 79) : isOuter (List.replicate k 32 ++ c :: t) = false := by
  have e1 : cstr "outer" = [111, 117, 116, 101, 114] := by decide
  have e2 : cstr "OUTER" = [79, 85, 84, 69, 82] := by decide
  unfold isOuter
  rw [skipSpace_blanks k c t hc, e1, e2]
  simp [strncmp0, h1, h2]

/-- A line that reads `outer` after the blanks begins a face. -/
theorem isOuter_outer (k : Nat) (t : List Byte) :
    isOuter (List.replicate k 32 ++ (111 :: 117 :: 116 :: 101 :: 114 :: t)) = true := by
  have e1 : cstr "outer" = [111, 117, 116, 101, 114] := by decide
  unfold isOuter
  rw [skipSpace_blanks k 111 _ (by decide), e1]
  simp [strncmp0]

/-- The C string in front of a zero byte is the C string of the bytes in
front of it. -/
theorem cstring_append_zero (a junk : List Byte) : cstring (a ++ 0 :: junk) = cstring a := by
  induction a with
  | nil => simp [cstring]
  | cons b a ih =>
    simp only [cstring] at ih ⊢
    by_cases hb : b = 0
    · subst hb; simp
    · rw [List.cons_append, List.takeWhile_cons, List.takeWhile_cons, ih]

/-- The look-ups of the two branches are the same function. -/
theorem asciiResolve_eq_binResolve (comp : CmpVec) (i : Nat) (st : RState) :
    asciiResolve comp i st = binResolve comp i st := rfl

/-- The face tests of the two branches are the same function. -/
theorem asciiAddFace_eq_binAddFace (st : RState) : asciiAddFace st = binAddFace st := rfl

/-- One pass of the loop of the ASCII branch, on reframed states. -/
theorem asciiLoop_succ (L : Libc) (comp : CmpVec) (fuel : Nat) (st : RState) :
    asciiLoop L comp (fuel + 1) st =
      match fgets 100 st.line st.input with
      | none => some st
      | some (line, rest) =>
        if isOuter line then
          (asciiTriangle L comp (st.reframe rest line)).bind (asciiLoop L comp fuel)
        else asciiLoop L comp fuel (st.reframe rest line) := rfl

/-- One vertex of the ASCII branch, on reframed states. -/
theorem asciiVertex_eq (L : Libc) (comp : CmpVec) (i : Nat) (st : RState) :
    asciiVertex L comp i st =
      match fgets 100 st.line st.input with
      | none => none
      | some (line, rest) =>
        some ((resolve comp i (sscanf3 L (cstring ((skipSpace line).drop 6)) st.p) st).reframe
          rest line) := by
  unfold asciiVertex
  cases fgets 100 st.line st.input with
  | none => rfl
  | some lr =>
    obtain ⟨line, rest⟩ := lr
    simp only [asciiResolve_eq_binResolve, resolve]
    exact congrArg some (binResolve_frame comp i
      { st with p := sscanf3 L (cstring ((skipSpace line).drop 6)) st.p } rest line)

/-- The bytes of the words before the numbers of a `vertex` line. -/
theorem cstr_vertex :
    cstr "      vertex " = List.replicate 6 32 ++ (118 :: [101, 114, 116, 101, 120, 32]) := by
  decide

/-- One vertex of the ASCII branch on a stream that starts with a `vertex`
line as `write_stl` writes it: the point scanned is looked up and the stream
is left after the line. -/
theorem asciiVertex_line (L : Libc) (comp : CmpVec) (i : Nat) (st : RState) (pt : vec3)
    (inp ln rest : List Byte) (h : inp = (cstr "      vertex " ++ fmt3 L pt) ++ 10 :: rest)
    (h10 : 10 ∉ cstr "      vertex " ++ fmt3 L pt)
    (hl : (cstr "      vertex " ++ fmt3 L pt).length < 99) :
    ∃ ln2, asciiVertex L comp i (st.reframe inp ln) =
      some ((resolve comp i (scanVertexLine L pt st.p) st).reframe rest ln2) := by
  subst h
  rw [asciiVertex_eq]
  have e1 : (st.reframe ((cstr "      vertex " ++ fmt3 L pt) ++ 10 :: rest) ln).input =
      (cstr "      vertex " ++ fmt3 L pt) ++ 10 :: rest := rfl
  have e2 : (st.reframe ((cstr "      vertex " ++ fmt3 L pt) ++ 10 :: rest) ln).line = ln := rfl
  have e3 : (st.reframe ((cstr "      vertex " ++ fmt3 L pt) ++ 10 :: rest) ln).p = st.p := rfl
  rw [e1, e2, e3, fgets_line ln _ rest h10 hl]
  simp only
  refine ⟨cstr "      vertex " ++ fmt3 L pt ++
      10 :: 0 :: List.drop ((cstr "      vertex " ++ fmt3 L pt).length + 2) ln, ?_⟩
  have hs : (skipSpace (cstr "      vertex " ++ fmt3 L pt ++
      10 :: 0 :: List.drop ((cstr "      vertex " ++ fmt3 L pt).length + 2) ln)).drop 6 =
      (cstr " " ++ (fmt3 L pt ++ [10])) ++
        0 :: List.drop ((cstr "      vertex " ++ fmt3 L pt).length + 2) ln := by
    have e4 : cstr " " = [32] := by decide
    rw [cstr_vertex, e4]
    simp only [List.append_assoc, List.cons_append, List.nil_append]
    rw [skipSpace_blanks 6 118 _ (by decide)]
    simp
  rw [hs, cstring_append_zero]
  have hr : ∀ (a : vec3) (s : RState) (x y : List Byte),
      resolve comp i a (s.reframe x y) = (resolve comp i a s).reframe x y :=
    fun a s x y => resolve_frame comp i a s x y
  simp only [scanVertexLine, hr, RState.reframe_reframe]

/-- The body of `face begins` on a stream that starts with the three `vertex`
lines written for a face: the triangle read back is fed and the stream is
left after the three lines. -/
theorem asciiTriangle_lines (L : Libc) (comp : CmpVec) (st : RState) (mesh : SurfaceMesh)
    (a b c : Vertex) (inp ln rest : List Byte)
    (h : inp = vertexLine L mesh a ++ 10 :: (vertexLine L mesh b ++ 10 ::
      (vertexLine L mesh c ++ 10 :: rest)))
    (hv : ∀ v ∈ [a, b, c], 10 ∉ vertexLine L mesh v ∧ (vertexLine L mesh v).length < 99) :
    ∃ ln2, asciiTriangle L comp (st.reframe inp ln) =
      some ((feed comp (readBackFace L mesh [a, b, c] st.p) st).reframe rest ln2) := by
  subst h
  have hp : ∀ (i : Nat) (q : vec3) (s : RState), (resolve comp i q s).p = q := by
    intro i q s
    unfold resolve binResolve
    simp only
    cases s.vMap.find comp q <;> rfl
  have hvl : ∀ v, vertexLine L mesh v = cstr "      vertex " ++ fmt3 L (mesh.point v) :=
    fun _ => rfl
  simp only [hvl] at hv ⊢
  unfold asciiTriangle
  obtain ⟨l0, h0⟩ := asciiVertex_line L comp 0 st (mesh.point a) _ ln _ rfl
    (hv a (by simp)).1 (hv a (by simp)).2
  rw [h0, Option.some_bind]
  obtain ⟨l1, h1⟩ := asciiVertex_line L comp 1 (resolve comp 0 (scanVertexLine L
      (mesh.point a) st.p) st) (mesh.point b) _ l0 _ rfl
    (hv b (by simp)).1 (hv b (by simp)).2
  rw [h1, Option.some_bind]
  obtain ⟨l2, h2⟩ := asciiVertex_line L comp 2 (resolve comp 1 (scanVertexLine L
      (mesh.point b) (resolve comp 0 (scanVertexLine L (mesh.point a) st.p) st).p)
      (resolve comp 0 (scanVertexLine L (mesh.point a) st.p) st)) (mesh.point c) _ l1 _ rfl
    (hv c (by simp)).1 (hv c (by simp)).2
  rw [h2, Option.some_bind]
  refine ⟨l2, ?_⟩
  rw [asciiAddFace_eq_binAddFace, binAddFace_frame]
  simp only [hp, feed, readBackFace]

/-- A pass of the loop of the ASCII branch over a line that does not begin a
face: the line is skipped. -/
theorem asciiLoop_skip (L : Libc) (comp : CmpVec) (fuel : Nat) (st : RState) (k : Nat)
    (c : Byte) (t inp ln rest : List Byte)
    (h : inp = (List.replicate k 32 ++ c :: t) ++ 10 :: rest)
    (h10 : 10 ∉ List.replicate k 32 ++ c :: t)
    (hl : (List.replicate k 32 ++ c :: t).length < 99)
    (hc : isspace c = false) (h1 : c ≠ 111) (h2 : c ≠ 79) :
    ∃ ln2, asciiLoop L comp (fuel + 1) (st.reframe inp ln) =
      asciiLoop L comp fuel (st.reframe rest ln2) := by
  subst h
  rw [asciiLoop_succ]
  have e1 : (st.reframe ((List.replicate k 32 ++ c :: t) ++ 10 :: rest) ln).input =
      (List.replicate k 32 ++ c :: t) ++ 10 :: rest := rfl
  have e2 : (st.reframe ((List.replicate k 32 ++ c :: t) ++ 10 :: rest) ln).line = ln := rfl
  rw [e1, e2, fgets_line ln _ rest h10 hl]
  simp only
  have ho : isOuter (List.replicate k 32 ++ c :: t ++
      10 :: 0 :: List.drop ((List.replicate k 32 ++ c :: t).length + 2) ln) = false := by
    rw [List.append_assoc, List.cons_append]
    exact isOuter_other k c _ hc h1 h2
  rw [ho]
  simp only [Bool.false_eq_true, if_false, RState.reframe_reframe]
  exact ⟨_, rfl⟩

/-- A pass of the loop of the ASCII branch over an `outer loop` line followed
by the three `vertex` lines written for a face: the triangle read back is
fed. -/
theorem asciiLoop_outer (L : Libc) (comp : CmpVec) (fuel : Nat) (st : RState)
    (mesh : SurfaceMesh) (a b c : Vertex) (inp ln rest : List Byte)
    (h : inp = cstr "    outer loop" ++ 10 :: (vertexLine L mesh a ++ 10 ::
      (vertexLine L mesh b ++ 10 :: (vertexLine L mesh c ++ 10 :: rest))))
    (hv : ∀ v ∈ [a, b, c], 10 ∉ vertexLine L mesh v ∧ (vertexLine L mesh v).length < 99) :
    ∃ ln2, asciiLoop L comp (fuel + 1) (st.reframe inp ln) =
      asciiLoop L comp fuel
        ((feed comp (readBackFace L mesh [a, b, c] st.p) st).reframe rest ln2) := by
  subst h
  rw [asciiLoop_succ]
  have e1 : ∀ x, (st.reframe x ln).input = x := fun _ => rfl
  have e2 : ∀ x, (st.reframe x ln).line = ln := fun _ => rfl
  have eo : cstr "    outer loop" =
      List.replicate 4 32 ++ (111 :: 117 :: 116 :: 101 :: 114 :: [32, 108, 111, 111, 112]) := by
    decide
  rw [e1, e2, fgets_line ln _ _ (by rw [eo]; decide) (by rw [eo]; decide)]
  simp only
  have ho : isOuter (cstr "    outer loop" ++
      10 :: 0 :: List.drop ((cstr "    outer loop").length + 2) ln) = true := by
    rw [eo, List.append_assoc]
    exact isOuter_outer 4 _
  rw [ho]
  simp only [if_true, RState.reframe_reframe]
  obtain ⟨l2, h2⟩ := asciiTriangle_lines L comp st mesh a b c _
    (cstr "    outer loop" ++ 10 :: 0 :: List.drop ((cstr "    outer loop").length + 2) ln)
    rest rfl hv
  rw [h2, Option.some_bind]
  exact ⟨l2, rfl⟩

/-- The text of a sequence of lines followed by more lines. -/
theorem stlText_append (a b : List (List Byte)) : stlText (a ++ b) = stlText a ++ stlText b := by
  simp [stlText]

/-- The text of a line followed by more lines. -/
theorem stlText_cons (l : List Byte) (b : List (List Byte)) :
    stlText (l :: b) = l ++ 10 :: stlText b := by
  simp [stlText]

/-- The text holds at least one byte for every line. -/
theorem stlText_length (ls : List (List Byte)) : ls.length ≤ (stlText ls).length := by
  induction ls with
  | nil => simp [stlText]
  | cons l ls ih =>
    rw [stlText_cons]
    simp only [List.length_append, List.length_cons]
    omega

/-- After a triangle was fed, the point `p` is its last corner. -/
theorem feed_p (comp : CmpVec) (t : vec3 × vec3 × vec3) (st : RState) :
    (feed comp t st).p = t.2.2 := by
  unfold feed binAddFace resolve
  have hp : ∀ (i : Nat) (s : RState), (binResolve comp i s).p = s.p := by
    intro i s
    unfold binResolve
    cases s.vMap.find comp s.p <;> rfl
  split <;> simp [hp]

/-- A pass of the loop of the ASCII branch over a line that starts with
given words, the first of which is not `outer`: the line is skipped. -/
theorem asciiLoop_skip_words (L : Libc) (comp : CmpVec) (fuel : Nat) (st : RState)
    (words x ln rest : List Byte) (k : Nat) (c : Byte) (t : List Byte)
    (hw : words = List.replicate k 32 ++ c :: t)
    (h10 : 10 ∉ words ++ x) (hl : (words ++ x).length < 99)
    (hc : isspace c = false) (h1 : c ≠ 111) (h2 : c ≠ 79) :
    ∃ ln2, asciiLoop L comp (fuel + 1) (st.reframe (words ++ (x ++ 10 :: rest)) ln) =
      asciiLoop L comp fuel (st.reframe rest ln2) := by
  subst hw
  exact asciiLoop_skip L comp fuel st k c (t ++ x) _ ln rest
    (by simp only [List.append_assoc, List.cons_append])
    (by simpa only [List.append_assoc, List.cons_append] using h10)
    (by simpa only [List.append_assoc, List.cons_append] using hl) hc h1 h2

/-- The passes of the loop of the ASCII branch over the seven lines written
for a face of three corners: the triangle read back is fed. -/
theorem asciiLoop_face (L : Libc) (comp : CmpVec) (fuel : Nat) (st : RState)
    (mesh : SurfaceMesh) (fn : List vec3) (k : Nat) (a b c : Vertex) (inp ln rest : List Byte)
    (h : inp = stlText (facetLines L mesh fn k [a, b, c]) ++ rest)
    (hok : ∀ l ∈ facetLines L mesh fn k [a, b, c], 10 ∉ l ∧ l.length < 99) :
    ∃ ln2, asciiLoop L comp (fuel + 4) (st.reframe inp ln) =
      asciiLoop L comp fuel
        ((feed comp (readBackFace L mesh [a, b, c] st.p) st).reframe rest ln2) := by
  subst h
  have ef : cstr "  facet normal " = List.replicate 2 32 ++ (102 :: cstr "acet normal ") := by
    decide
  have el : cstr "    endloop" = List.replicate 4 32 ++ (101 :: cstr "ndloop") := by decide
  have ee : cstr "  endfacet" = List.replicate 2 32 ++ (101 :: cstr "ndfacet") := by decide
  have hfl : facetLines L mesh fn k [a, b, c] =
      [cstr "  facet normal " ++
          fmt3 L (fn.getD k ⟨⟨0, 0, 0, 0⟩, ⟨0, 0, 0, 0⟩, ⟨0, 0, 0, 0⟩⟩),
        cstr "    outer loop", vertexLine L mesh a, vertexLine L mesh b, vertexLine L mesh c,
        cstr "    endloop", cstr "  endfacet"] := rfl
  rw [hfl] at hok ⊢
  simp only [stlText_cons, List.append_assoc, List.cons_append]
  have h1 := hok _ (List.mem_cons_self _ _)
  obtain ⟨l1, s1⟩ := asciiLoop_skip_words L comp (fuel + 3) st (cstr "  facet normal ")
    (fmt3 L (fn.getD k ⟨⟨0, 0, 0, 0⟩, ⟨0, 0, 0, 0⟩, ⟨0, 0, 0, 0⟩⟩)) ln
    (cstr "    outer loop" ++ 10 :: (vertexLine L mesh a ++ 10 :: (vertexLine L mesh b ++ 10 ::
      (vertexLine L mesh c ++ 10 :: (cstr "    endloop" ++ 10 :: (cstr "  endfacet" ++
        10 :: (stlText [] ++ rest)))))))
    2 102 _ ef h1.1 h1.2 (by decide) (by decide) (by decide)
  rw [s1]
  obtain ⟨l2, s2⟩ := asciiLoop_outer L comp (fuel + 2) st mesh a b c _ l1
    (cstr "    endloop" ++ 10 :: (cstr "  endfacet" ++ 10 :: (stlText [] ++ rest))) rfl
    (by
      intro v hv
      simp only [List.mem_cons, List.mem_singleton, List.not_mem_nil, or_false] at hv
      rcases hv with rfl | rfl | rfl
      · exact hok _ (by simp)
      · exact hok _ (by simp)
      · exact hok _ (by simp))
  rw [s2]
  obtain ⟨l3, s3⟩ := asciiLoop_skip_words L comp (fuel + 1)
    (feed comp (readBackFace L mesh [a, b, c] st.p) st) (cstr "    endloop") [] l2
    (cstr "  endfacet" ++ 10 :: (stlText [] ++ rest)) 4 101 _ el
    (by decide) (by decide) (by decide) (by decide) (by decide)
  rw [List.nil_append] at s3
  rw [s3]
  obtain ⟨l4, s4⟩ := asciiLoop_skip_words L comp fuel
    (feed comp (readBackFace L mesh [a, b, c] st.p) st) (cstr "  endfacet") [] l3
    (stlText [] ++ rest) 2 101 _ ee
    (by decide) (by decide) (by decide) (by decide) (by decide)
  rw [List.nil_append] at s4
  rw [s4]
  exact ⟨l4, rfl⟩

/-- The passes of the loop of the ASCII branch over the lines written for
the faces of a triangle mesh: the triangles read back are fed in order. -/
theorem asciiLoop_faces (L : Libc) (comp : CmpVec) (mesh : SurfaceMesh) (fn : List vec3) :
    ∀ (faces : List (List Vertex)) (k fuel : Nat) (st : RState) (ln rest : List Byte),
      (∀ f ∈ faces, f.length = 3) →
      (∀ l ∈ facesLines L mesh fn k faces, 10 ∉ l ∧ l.length < 99) →
      ∃ ln2, asciiLoop L comp (fuel + 4 * faces.length)
          (st.reframe (stlText (facesLines L mesh fn k faces) ++ rest) ln) =
        asciiLoop L comp fuel
          ((feedAll comp (readBack L mesh faces st.p) st).reframe rest ln2) := by
  intro faces
  induction faces with
  | nil =>
    intro k fuel st ln rest _ _
    exact ⟨ln, rfl⟩
  | cons f fs ih =>
    intro k fuel st ln rest h3 hok
    obtain ⟨a, b, c, rfl⟩ : ∃ a b c, f = [a, b, c] := by
      have := h3 f (List.mem_cons_self _ _)
      match f, this with
      | [a, b, c], _ => exact ⟨a, b, c, rfl⟩
    have e : fuel + 4 * ([a, b, c] :: fs).length = (fuel + 4 * fs.length) + 4 := by
      simp only [List.length_cons]; omega
    obtain ⟨l1, s1⟩ := asciiLoop_face L comp (fuel + 4 * fs.length) st mesh fn k a b c
      (stlText (facesLines L mesh fn k ([a, b, c] :: fs)) ++ rest) ln
      (stlText (facesLines L mesh fn (k + 1) fs) ++ rest)
      (by simp only [facesLines, stlText_append, List.append_assoc])
      (fun l hl => hok l (by simp only [facesLines, List.mem_append]; exact Or.inl hl))
    obtain ⟨l2, s2⟩ := ih (k + 1) fuel (feed comp (readBackFace L mesh [a, b, c] st.p) st)
      l1 rest (fun g hg => h3 g (List.mem_cons_of_mem _ hg))
      (fun l hl => hok l (by simp only [facesLines, List.mem_append]; exact Or.inr hl))
    refine ⟨l2, ?_⟩
    rw [e, s1, s2, feed_p]
    rfl

/-- At the end of the stream the loop of the ASCII branch stops. -/
theorem asciiLoop_eof (L : Libc) (comp : CmpVec) (fuel : Nat) (st : RState)
    (h : st.input = []) : asciiLoop L comp fuel st = some st := by
  cases fuel with
  | zero => rfl
  | succ n => rw [asciiLoop_succ, h]; rfl

/-- The ASCII branch on the text `write_stl` writes for a triangle mesh,
after the first five characters: the triangles read back from the `vertex`
lines are fed in order to the state the branch starts from. -/
theorem asciiLoop_written (L : Libc) (comp : CmpVec) (mesh : SurfaceMesh) (fn : List vec3)
    (st : RState) (ln : List Byte) (h3 : ∀ f ∈ mesh.faces, f.length = 3)
    (hok : ∀ l ∈ stlLines L mesh fn, 10 ∉ l ∧ l.length < 99) :
    ∃ ln2, asciiLoop L comp
        ((cstr " stl" ++ 10 :: (stlText (facesLines L mesh fn 0 mesh.faces) ++
          (cstr "endsolid" ++ [10]))).length + 1)
        (st.reframe (cstr " stl" ++ 10 :: (stlText (facesLines L mesh fn 0 mesh.faces) ++
          (cstr "endsolid" ++ [10]))) ln) =
      some ((feedAll comp (readBack L mesh mesh.faces st.p) st).reframe [] ln2) := by
  have e4 : cstr " stl" = List.replicate 1 32 ++ (115 :: cstr "tl") := by decide
  have e8 : cstr "endsolid" = List.replicate 0 32 ++ (101 :: cstr "ndsolid") := by decide
  have hlen : 4 * mesh.faces.length + 1 ≤
      (cstr " stl" ++ 10 :: (stlText (facesLines L mesh fn 0 mesh.faces) ++
          (cstr "endsolid" ++ [10]))).length := by
    have h1 := stlText_length (facesLines L mesh fn 0 mesh.faces)
    rw [(facesLines_spec L mesh fn mesh.faces 0 h3).1] at h1
    simp only [List.length_append, List.length_cons]
    omega
  obtain ⟨fuel0, hfuel⟩ : ∃ fuel0,
      (cstr " stl" ++ 10 :: (stlText (facesLines L mesh fn 0 mesh.faces) ++
          (cstr "endsolid" ++ [10]))).length + 1 =
        ((fuel0 + 1) + 4 * mesh.faces.length) + 1 :=
    ⟨(cstr " stl" ++ 10 :: (stlText (facesLines L mesh fn 0 mesh.faces) ++
          (cstr "endsolid" ++ [10]))).length - (4 * mesh.faces.length + 1), by omega⟩
  rw [hfuel]
  obtain ⟨l1, s1⟩ := asciiLoop_skip_words L comp ((fuel0 + 1) + 4 * mesh.faces.length) st
    (cstr " stl") [] ln
    (stlText (facesLines L mesh fn 0 mesh.faces) ++ (cstr "endsolid" ++ [10])) 1 115 _ e4
    (by decide) (by decide) (by decide) (by decide) (by decide)
  rw [List.nil_append] at s1
  rw [s1]
  obtain ⟨l2, s2⟩ := asciiLoop_faces L comp mesh fn mesh.faces 0 (fuel0 + 1) st l1
    (cstr "endsolid" ++ [10]) h3
    (fun l hl => hok l (by simp only [stlLines, List.mem_append]; exact Or.inl (Or.inr hl)))
  rw [s2]
  obtain ⟨l3, s3⟩ := asciiLoop_skip_words L comp fuel0
    (feedAll comp (readBack L mesh mesh.faces st.p) st) (cstr "endsolid") [] l2 [] 0 101 _ e8
    (by decide) (by decide) (by decide) (by decide) (by decide)
  rw [List.nil_append] at s3
  rw [s3]
  exact ⟨l3, asciiLoop_eof L comp fuel0 _ rfl⟩

/-- Reading the text `write_stl` writes for a triangle mesh whose lines are
shorter than 99 characters and hold no newline: `read_stl` returns, and the
mesh it builds is the one got by feeding the triangles read back from the
`vertex` lines, in order, to the empty map and the empty mesh. -/
theorem read_stl_written (L : Libc) (loc : Locals) (mesh0 mesh : SurfaceMesh) (fn : List vec3)
    (ht : mesh.is_triangle_mesh = true)
    (hok : ∀ l ∈ stlLines L mesh fn, 10 ∉ l ∧ l.length < 99) :
    read_stl L loc mesh0 (some (stlText (stlLines L mesh fn))) =
      some (decide (0 < (feedAll ⟨FLT_MIN⟩ (readBack L mesh mesh.faces loc.p)
          (startState loc [] [])).mesh.n_faces),
        (feedAll ⟨FLT_MIN⟩ (readBack L mesh mesh.faces loc.p) (startState loc [] [])).mesh) := by
  have h3 : ∀ f ∈ mesh.faces, f.length = 3 := by
    intro f hf
    have := List.all_eq_true.mp ht f hf
    simpa using this
  have es : cstr "solid stl" = 115 :: 111 :: 108 :: 105 :: 100 :: cstr " stl" := by decide
  have hcontent : stlText (stlLines L mesh fn) =
      115 :: 111 :: 108 :: 105 :: 100 :: (cstr " stl" ++ 10 ::
        (stlText (facesLines L mesh fn 0 mesh.faces) ++ (cstr "endsolid" ++ [10]))) := by
    simp only [stlLines, stlText_append, stlText_cons, es, List.singleton_append,
      List.cons_append, List.append_assoc, List.nil_append]
    simp [stlText]
  have hfg : ∀ t : List Byte, fgets 6 loc.line (115 :: 111 :: 108 :: 105 :: 100 :: t) =
      some (115 :: 111 :: 108 :: 105 :: 100 :: 0 :: loc.line.drop 6, t) := by
    intro t
    simp [fgets, fgetsChars, overwrite]
  have hbin : isBinary (115 :: 111 :: 108 :: 105 :: 100 :: 0 :: loc.line.drop 6) = false := by
    simp [isBinary, strncmp0, cstr_solid, cstr_SOLID]
  obtain ⟨ln2, key⟩ := asciiLoop_written L ⟨FLT_MIN⟩ mesh fn (startState loc [] [])
    (115 :: 111 :: 108 :: 105 :: 100 :: 0 :: loc.line.drop 6) h3 hok
  rw [hcontent]
  unfold read_stl
  simp only [hfg, hbin, Bool.false_eq_true, if_false]
  have hst : (⟨cstr " stl" ++ 10 :: (stlText (facesLines L mesh fn 0 mesh.faces) ++
        (cstr "endsolid" ++ [10])), 115 :: 111 :: 108 :: 105 :: 100 :: 0 :: loc.line.drop 6,
        loc.p, loc.vertices, [], mesh0.clear⟩ : RState) =
      (startState loc [] []).reframe (cstr " stl" ++ 10 ::
        (stlText (facesLines L mesh fn 0 mesh.faces) ++ (cstr "endsolid" ++ [10])))
        (115 :: 111 :: 108 :: 105 :: 100 :: 0 :: loc.line.drop 6) := rfl
  rw [hst, key]
  rfl

/-- One triangle is read back for every face. -/
theorem readBack_length (L : Libc) (mesh : SurfaceMesh) :
    ∀ (faces : List (List Vertex)) (p : vec3), (readBack L mesh faces p).length = faces.length
  | [], _ => rfl
  | _ :: fs, p => by simp [readBack, readBack_length L mesh fs]

/-! ## A point looked up twice -/

/-- Scanning the same text twice leaves what scanning it once leaves. -/
theorem sscanf3_idem (L : Libc) (s : List Byte) (p : vec3) :
    sscanf3 L s (sscanf3 L s p) = sscanf3 L s p := by
  unfold sscanf3
  cases h0 : L.strtof s with
  | none => simp [h0]
  | some r0 =>
    obtain ⟨x, s1⟩ := r0
    simp only
    cases h1 : L.strtof s1 with
    | none => simp [h0, h1]
    | some r1 =>
      obtain ⟨y, s2⟩ := r1
      simp only
      cases h2 : L.strtof s2 with
      | none => simp [h0, h1, h2]
      | some r2 => simp [h0, h1, h2]

/-- The search of a map skips the entries that are less than the key and
stops at an entry of that key. -/
theorem VMap.dropWhile_at_key (comp : CmpVec) (p : vec3) (v : Vertex)
    (hirr : comp.call p p = false) :
    ∀ (pre suf : VMap), (∀ e ∈ pre, comp.call e.1 p = true) →
      (pre ++ (p, v) :: suf).dropWhile (fun e => comp.call e.1 p) = (p, v) :: suf
  | [], suf, _ => by
    rw [List.nil_append, List.dropWhile_cons]
    simp only [hirr, Bool.false_eq_true, if_false]
  | e :: pre, suf, h => by
    rw [List.cons_append, List.dropWhile_cons]
    simp only [h e (List.mem_cons_self _ _), if_true]
    exact VMap.dropWhile_at_key comp p v hirr pre suf
      (fun a ha => h a (List.mem_cons_of_mem _ ha))

/-- A point that was just looked up is found in the map, with the handle it
was resolved to. -/
theorem find_after_resolve (comp : CmpVec) (p : vec3) (st : RState)
    (hirr : comp.call p p = false) :
    (resolve comp 0 p st).vMap.find comp p = some (resolve comp 0 p st).vertices.v0 := by
  unfold resolve binResolve
  simp only
  cases hf : st.vMap.find comp p with
  | some v => exact hf
  | none =>
    simp only
    obtain ⟨pre, suf, -, ha, hpre, -⟩ := VMap.assign_of_find_none (st.mesh.add_vertex p).2 hf
    rw [ha]
    unfold VMap.find
    rw [VMap.dropWhile_at_key comp p _ hirr pre suf hpre]
    simp only [hirr, Bool.false_eq_true, if_false]
    rfl

/-- The look-up of a point the map holds puts the handle found in
`vertices` and changes neither the map nor the mesh. -/
theorem resolve_of_find (comp : CmpVec) (i : Nat) (p : vec3) (st : RState) (v : Vertex)
    (h : st.vMap.find comp p = some v) :
    resolve comp i p st = { st with p := p, vertices := st.vertices.set i v } := by
  unfold resolve binResolve
  simp only [h]

/-- A triangle whose first two corners are the same point adds no face. -/
theorem feed_same_corners (comp : CmpVec) (hirr : ∀ p, comp.call p p = false) (q r : vec3)
    (st : RState) : (feed comp (q, q, r) st).mesh.faces = st.mesh.faces := by
  show (binAddFace (resolve comp 2 r (resolve comp 1 q (resolve comp 0 q st)))).mesh.faces =
    st.mesh.faces
  have h1 := find_after_resolve comp q st (hirr q)
  have hf0 : (resolve comp 0 q st).mesh.faces = st.mesh.faces := binResolve_faces comp 0 _
  generalize resolve comp 0 q st = s1 at h1 hf0 ⊢
  have hsame : (resolve comp 1 q s1).vertices.v0 = (resolve comp 1 q s1).vertices.v1 := by
    rw [resolve_of_find comp 1 q s1 _ h1]
    rfl
  have hf1 : (resolve comp 1 q s1).mesh.faces = s1.mesh.faces := binResolve_faces comp 1 _
  generalize resolve comp 1 q s1 = s2 at hsame hf1 ⊢
  have hv2 : (resolve comp 2 r s2).vertices.v0 = s2.vertices.v0 ∧
      (resolve comp 2 r s2).vertices.v1 = s2.vertices.v1 := by
    unfold resolve binResolve
    simp only
    cases s2.vMap.find comp r <;> exact ⟨rfl, rfl⟩
  have hf2 : (resolve comp 2 r s2).mesh.faces = s2.mesh.faces := binResolve_faces comp 2 _
  generalize resolve comp 2 r s2 = s3 at hv2 hf2 ⊢
  have hnp : ¬ s3.vertices.Proper := fun h => h.1 (by rw [hv2.1, hv2.2, hsame])
  rw [(binAddFace_spec s3).2, if_neg hnp, hf2, hf1, hf0]

/-- The file written for a triangle mesh with a face-normal property. -/
theorem write_stl_file (L : Libc) (mesh : SurfaceMesh) (fn : List vec3)
    (ht : mesh.is_triangle_mesh = true) (hn : mesh.fnormal = some fn) :
    (write_stl L mesh true).file = some (stlText (stlLines L mesh fn)) := by
  unfold write_stl
  simp [ht, hn]

/-- The mesh of one face two corners of which are different vertices at the
same position is never read back with its face: whatever the library
conversions are, as long as the written lines are shorter than 99 characters
and hold no newline, `read_stl` returns false on the text written for it,
with a mesh that has no face. -/
theorem doubledMesh_not_read_back (L : Libc) (loc : Locals) (mesh0 : SurfaceMesh)
    (hok : ∀ l ∈ stlLines L doubledMesh [⟨F32.zero, F32.zero, F32.one⟩],
      10 ∉ l ∧ l.length < 99) :
    ∃ m, read_stl L loc mesh0 (write_stl L doubledMesh true).file = some (false, m) ∧
      m.n_faces = 0 := by
  have hw : (write_stl L doubledMesh true).file =
      some (stlText (stlLines L doubledMesh [⟨F32.zero, F32.zero, F32.one⟩])) :=
    write_stl_file L doubledMesh _ (by decide) rfl
  have hrb : readBack L doubledMesh doubledMesh.faces loc.p =
      [(scanVertexLine L vec3.zero loc.p, scanVertexLine L vec3.zero loc.p,
        scanVertexLine L ⟨F32.one, F32.zero, F32.zero⟩ (scanVertexLine L vec3.zero loc.p))] := by
    have e0 : doubledMesh.point 0 = vec3.zero := by decide
    have e1 : doubledMesh.point 1 = vec3.zero := by decide
    have e2 : doubledMesh.point 2 = ⟨F32.one, F32.zero, F32.zero⟩ := by decide
    have ef : doubledMesh.faces = [[0, 1, 2]] := rfl
    rw [ef]
    simp only [readBack, readBackFace, e0, e1, e2]
    have hi : scanVertexLine L vec3.zero (scanVertexLine L vec3.zero loc.p) =
        scanVertexLine L vec3.zero loc.p := sscanf3_idem L _ _
    rw [hi]
  have hfaces : (feedAll ⟨FLT_MIN⟩ (readBack L doubledMesh doubledMesh.faces loc.p)
      (startState loc [] [])).mesh.n_faces = 0 := by
    rw [hrb]
    unfold SurfaceMesh.n_faces
    simp only [feedAll, List.foldl_cons, List.foldl_nil]
    rw [feed_same_corners ⟨FLT_MIN⟩ call_self_FLT_MIN]
    rfl
  refine ⟨_, ?_, hfaces⟩
  rw [hw, read_stl_written L loc mesh0 doubledMesh _ (by decide) hok, hfaces]
  rfl

/-! ## Writing and reading back -/

/-- C5 (as amended). For every triangle mesh M with a per-face normal
property whose written lines are shorter than 99 characters and hold no
newline, and such that `CmpVec(FLT_MIN)` is a strict weak ordering on the
corners read back from the text and no two corners read back for one face
are equivalent under `CmpVec` (neither less than the other), running
`read_stl` on the text `write_stl` writes for M yields a mesh with the same
number of faces as M. -/
theorem read_stl_write_stl_faces (L : Libc) (loc : Locals) (mesh0 mesh : SurfaceMesh)
    (fn : List vec3) (ht : mesh.is_triangle_mesh = true) (hn : mesh.fnormal = some fn)
    (hok : ∀ l ∈ stlLines L mesh fn, 10 ∉ l ∧ l.length < 99)
    (hswo : StrictWeakOn ⟨FLT_MIN⟩ (allCorners (readBack L mesh mesh.faces loc.p)))
    (hnd : NonDegenerate ⟨FLT_MIN⟩ (readBack L mesh mesh.faces loc.p)) :
    ∃ m, read_stl L loc mesh0 (write_stl L mesh true).file =
        some (decide (0 < mesh.n_faces), m) ∧ m.n_faces = mesh.n_faces := by
  have hsep : Separated ⟨FLT_MIN⟩ (readBack L mesh mesh.faces loc.p) :=
    separated_of_strictWeakOn ⟨FLT_MIN⟩ _ hswo hnd
  have hw : (write_stl L mesh true).file = some (stlText (stlLines L mesh fn)) := by
    unfold write_stl
    simp [ht, hn]
  have hcount := feedAll_separated ⟨FLT_MIN⟩ call_self_FLT_MIN
    (fun q => ∃ u ∈ readBack L mesh mesh.faces loc.p, q ∈ cornersOf u)
    (readBack L mesh mesh.faces loc.p) (startState loc [] [])
    (by intro e he; simp [startState] at he)
    (by intro q hq; simp [startState, emptyMesh] at hq)
    (fun t ht => ⟨fun q hq => ⟨t, ht, hq⟩, fun k ⟨u, hu, hk⟩ => hsep t ht u hu k hk⟩)
  have hcount2 : (feedAll ⟨FLT_MIN⟩ (readBack L mesh mesh.faces loc.p)
      (startState loc [] [])).mesh.n_faces = mesh.n_faces := by
    unfold SurfaceMesh.n_faces
    rw [hcount, readBack_length]
    simp [startState, emptyMesh]
  refine ⟨_, ?_, hcount2⟩
  rw [hw, read_stl_written L loc mesh0 mesh fn ht hok, hcount2]

/-- Witness of C5 (as amended): the mesh of the one triangle `(0,0,0)`,
`(1,0,0)`, `(0,1,0)`, written and read back with conversions that lose
nothing, gives one face; the comparator is a strict weak ordering on the
three corners read back, no two of which are equivalent. -/
theorem read_stl_write_stl_faces_witness :
    ∃ m, read_stl hexLibc zeroLocals emptyMesh (write_stl hexLibc oneTriangleMesh true).file =
        some (decide (0 < oneTriangleMesh.n_faces), m) ∧ m.n_faces = oneTriangleMesh.n_faces :=
  read_stl_write_stl_faces hexLibc zeroLocals emptyMesh oneTriangleMesh
    [⟨F32.zero, F32.zero, F32.one⟩] (by decide) rfl (by decide!)
    (by unfold StrictWeakOn; decide!) (by unfold NonDegenerate; decide!)

/-- C5, counterexample. The triangle mesh of one face two corners of which
are different vertices at the same position, with a face normal: written
and read back with conversions that lose nothing, it gives a mesh with no
face (and the value false), not one face; and so it does whatever the
library conversions are, when the written lines are shorter than 99
characters and hold no newline. -/
theorem read_stl_write_stl_faces_counterexample :
    doubledMesh.is_triangle_mesh = true ∧ doubledMesh.fnormal.isSome = true ∧
    doubledMesh.n_faces = 1 ∧
    (read_stl hexLibc zeroLocals emptyMesh (write_stl hexLibc doubledMesh true).file).map
      (fun r => (r.1, r.2.n_faces)) = some (false, 0) ∧
    ∀ (L : Libc) (loc : Locals) (mesh0 : SurfaceMesh),
      (∀ l ∈ stlLines L doubledMesh [⟨F32.zero, F32.zero, F32.one⟩], 10 ∉ l ∧ l.length < 99) →
      ∃ m, read_stl L loc mesh0 (write_stl L doubledMesh true).file = some (false, m) ∧
        m.n_faces = 0 :=
  ⟨by decide, by decide, by decide, by decide!, doubledMesh_not_read_back⟩

/-! ## The initial content of the mesh -/

/-- C11. For every initial content of the target mesh, `read_stl` discards it
before parsing: two calls on the same file (with the same conversions and
the same indeterminate values in the local variables) that start from
different meshes end alike, with the same mesh and the same result or with
the same failed assertion, which are those of the call that starts from the
empty mesh; and when the file cannot be opened the call returns false and
leaves the mesh with no vertex and no face. -/
theorem read_stl_discards_mesh (L : Libc) (loc : Locals) (mesh1 mesh2 : SurfaceMesh)
    (file : Option (List Byte)) :
    read_stl L loc mesh1 file = read_stl L loc mesh2 file ∧
    read_stl L loc mesh1 file = read_stl L loc emptyMesh file ∧
    read_stl L loc mesh1 none = some (false, emptyMesh) ∧
    emptyMesh.n_vertices = 0 ∧ emptyMesh.n_faces = 0 :=
  ⟨rfl, rfl, rfl, rfl, rfl⟩

/-- Witness of C11: read into the mesh of one triangle, the binary file of a
triangle whose corners are one point leaves one vertex and no face, as it
does read into the empty mesh, and a file that cannot be opened leaves
nothing of the triangle. -/
theorem read_stl_discards_mesh_witness :
    read_stl noLibc zeroLocals oneTriangleMesh (some sameCornersFile) =
        read_stl noLibc zeroLocals emptyMesh (some sameCornersFile) ∧
      read_stl noLibc zeroLocals oneTriangleMesh (some sameCornersFile) =
        some (false, ⟨[vec3.zero], [], none⟩) ∧
      read_stl noLibc zeroLocals oneTriangleMesh none = some (false, emptyMesh) :=
  ⟨(read_stl_discards_mesh noLibc zeroLocals oneTriangleMesh emptyMesh
      (some sameCornersFile)).1, by decide!,
    (read_stl_discards_mesh noLibc zeroLocals oneTriangleMesh emptyMesh none).2.2.1⟩

/-! ## What the binary branch reads of a file -/

/-- The binary branch on a file that holds the header, the count and the
records, and then any bytes: the triangles of the records are fed in order
and the bytes after the last record are left unread. -/
theorem readBinary_records (comp : CmpVec) (nT0 : Nat) (st : RState) (header : List Byte)
    (rs : List Record) (extra : List Byte) (hh : header.length = 80)
    (hn : rs.length < 4294967296) (h : st.input = stlBinary header rs ++ extra) :
    ∃ ln, readBinary comp nT0 st =
      some ((feedAll comp (rs.map Record.corners) st).reframe extra ln) := by
  have e : stlBinary header rs ++ extra =
      header ++ (leBytes 4 rs.length ++ (recordsBytes rs ++ extra)) := by
    simp [stlBinary]
  rw [readBinary_eq, h, e, ← hh, fread_append, hh]
  simp only
  rw [if_neg (by omega), read_full _ _ _ (by rfl) (by simp [leBytes])]
  simp only [leNat_leBytes _ hn]
  exact binLoop_full comp rs st _ _ extra rfl

/-- What `read_stl` makes of a binary file that holds the header, the count
and the records, and then any bytes: the mesh got by feeding the triangles
of the records, in order, to the empty map and the empty mesh. -/
theorem read_stl_binary_records (L : Libc) (loc : Locals) (mesh : SurfaceMesh)
    (header : List Byte) (rs : List Record) (extra : List Byte)
    (hh : header.length = 80) (hn : rs.length < 4294967296)
    (hb : header.take 5 ≠ cstr "solid" ∧ header.take 5 ≠ cstr "SOLID") :
    read_stl L loc mesh (some (stlBinary header rs ++ extra)) =
      some (decide (0 < (feedAll ⟨FLT_MIN⟩ (rs.map Record.corners)
          (startState loc [] [])).mesh.n_faces),
        (feedAll ⟨FLT_MIN⟩ (rs.map Record.corners) (startState loc [] [])).mesh) := by
  have hne : stlBinary header rs ++ extra ≠ [] := by
    intro h
    have := congrArg List.length h
    simp [stlBinary, hh] at this
  obtain ⟨line, rest, hfg, hdet⟩ := detect_spec loc.line (stlBinary header rs ++ extra) hne
  have htake : (stlBinary header rs ++ extra).take 5 = header.take 5 := by
    unfold stlBinary
    rw [List.append_assoc, List.take_append_of_le_length (by omega)]
  have hbin : isBinary line = true := by
    cases hb2 : isBinary line
    · rw [htake] at hdet
      rcases hdet.mp hb2 with h | h
      · exact absurd h hb.1
      · exact absurd h hb.2
    · rfl
  obtain ⟨ln, hrd⟩ := readBinary_records ⟨FLT_MIN⟩ loc.nT
    ((startState loc [] []).reframe (stlBinary header rs ++ extra) line) header rs extra hh hn rfl
  have hst : (⟨stlBinary header rs ++ extra, line, loc.p, loc.vertices, [], mesh.clear⟩ :
      RState) = (startState loc [] []).reframe (stlBinary header rs ++ extra) line := rfl
  unfold read_stl
  simp only [hfg, hbin, if_true]
  rw [hst, hrd, feedAll_frame]
  rfl

/-- C12 (as amended). For every binary STL input that holds the 80-byte
header and the count N, `read_stl` returns (no assertion fails) if and only
if at least 50 N - 1 bytes follow the count; and when the N records are all
there, the bytes that follow the N-th record are never read: the mesh and
the value returned are those of the input that ends after the N-th record. -/
theorem read_stl_trailing_bytes (L : Libc) (loc : Locals) (mesh : SurfaceMesh)
    (header : List Byte) (N : Nat) (body : List Byte)
    (hh : header.length = 80) (hN : N < 4294967296)
    (hb : header.take 5 ≠ cstr "solid" ∧ header.take 5 ≠ cstr "SOLID") :
    ((∃ r, read_stl L loc mesh (some (header ++ (leBytes 4 N ++ body))) = some r) ↔
      50 * N ≤ body.length + 1) ∧
    ∀ rs extra, rs.length = N → body = recordsBytes rs ++ extra →
      read_stl L loc mesh (some (header ++ (leBytes 4 N ++ body))) =
        read_stl L loc mesh (some (stlBinary header rs)) := by
  have htake : (header ++ (leBytes 4 N ++ body)).take 5 = header.take 5 := by
    rw [List.take_append_of_le_length (by omega)]
  have hb2 : ¬ ((header ++ (leBytes 4 N ++ body)).take 5 = cstr "solid" ∨
      (header ++ (leBytes 4 N ++ body)).take 5 = cstr "SOLID") := by
    rw [htake]
    exact fun h => h.elim hb.1 hb.2
  have hiff := read_stl_short_records L loc mesh header N body hb2 hh hN
  refine ⟨?_, ?_⟩
  · constructor
    · rintro ⟨r, hr⟩
      by_contra hlt
      rw [hiff.mpr (by omega)] at hr
      exact Option.noConfusion hr
    · intro hle
      cases hr : read_stl L loc mesh (some (header ++ (leBytes 4 N ++ body))) with
      | none =>
        have := hiff.mp hr
        omega
      | some r => exact ⟨r, rfl⟩
  · intro rs extra hlen hbody
    subst hlen hbody
    have h1 := read_stl_binary_records L loc mesh header rs extra hh hN hb
    have h2 := read_stl_binary_records L loc mesh header rs [] hh hN hb
    rw [List.append_nil] at h2
    have e : header ++ (leBytes 4 rs.length ++ (recordsBytes rs ++ extra)) =
        stlBinary header rs ++ extra := by
      simp [stlBinary]
    rw [e]
    exact h1.trans h2.symm

/-- Witness of C12 (as amended): the file of the triangle `(0,0,0)`,
`(1,0,0)`, `(0,1,0)` followed by three more bytes is read, and read as the
file itself. -/
theorem read_stl_trailing_bytes_witness :
    ((∃ r, read_stl noLibc zeroLocals emptyMesh
        (some (zeroHeader ++ (leBytes 4 1 ++ (recordsBytes [unitRecord] ++ [1, 2, 3])))) =
          some r) ↔
      50 * 1 ≤ (recordsBytes [unitRecord] ++ [1, 2, 3]).length + 1) ∧
    read_stl noLibc zeroLocals emptyMesh
        (some (zeroHeader ++ (leBytes 4 1 ++ (recordsBytes [unitRecord] ++ [1, 2, 3])))) =
      read_stl noLibc zeroLocals emptyMesh (some (stlBinary zeroHeader [unitRecord])) :=
  ⟨(read_stl_trailing_bytes noLibc zeroLocals emptyMesh zeroHeader 1
      (recordsBytes [unitRecord] ++ [1, 2, 3]) (by decide) (by decide) (by decide)).1,
    (read_stl_trailing_bytes noLibc zeroLocals emptyMesh zeroHeader 1
      (recordsBytes [unitRecord] ++ [1, 2, 3]) (by decide) (by decide) (by decide)).2
      [unitRecord] [1, 2, 3] rfl rfl⟩

/-- C12, counterexample. A binary file with the count 1 and three bytes left
after its one record is accepted: `read_stl` returns true with the mesh of
one face. -/
theorem read_stl_trailing_bytes_counterexample :
    (stlBinary zeroHeader [unitRecord] ++ [1, 2, 3]).length = 80 + 4 + 50 * 1 + 3 ∧
    (read_stl noLibc zeroLocals emptyMesh
        (some (stlBinary zeroHeader [unitRecord] ++ [1, 2, 3]))).map
      (fun r => (r.1, r.2.n_faces)) = some (true, 1) := by
  decide!

/-- C14. For every two complete binary STL files (an 80-byte header that does
not start with `solid` or `SOLID`, the count of the records, the records)
whose records have the same corners in the same order, and which so differ
only in their headers, in the normals and in the attribute bytes of their
records, `read_stl` builds the same mesh and returns the same value. -/
theorem read_stl_ignored_bytes (L : Libc) (loc : Locals) (mesh : SurfaceMesh)
    (header1 header2 : List Byte) (rs1 rs2 : List Record)
    (hh1 : header1.length = 80) (hh2 : header2.length = 80) (hn : rs1.length < 4294967296)
    (hb1 : header1.take 5 ≠ cstr "solid" ∧ header1.take 5 ≠ cstr "SOLID")
    (hb2 : header2.take 5 ≠ cstr "solid" ∧ header2.take 5 ≠ cstr "SOLID")
    (hc : rs1.map Record.corners = rs2.map Record.corners) :
    read_stl L loc mesh (some (stlBinary header1 rs1)) =
        read_stl L loc mesh (some (stlBinary header2 rs2)) ∧
      ∃ r, read_stl L loc mesh (some (stlBinary header1 rs1)) = some r := by
  have hlen : rs2.length = rs1.length := by
    have := congrArg List.length hc
    simpa using this.symm
  have h1 := read_stl_binary_records L loc mesh header1 rs1 [] hh1 hn hb1
  have h2 := read_stl_binary_records L loc mesh header2 rs2 [] hh2 (by omega) hb2
  rw [List.append_nil] at h1 h2
  rw [← hc] at h2
  exact ⟨h1.trans h2.symm, _, h1⟩

/-- Witness of C14: the file of the triangle `(0,0,0)`, `(1,0,0)`, `(0,1,0)`
with a zero header, a zero normal and zero attribute bytes, and the file of
the same triangle with a header of eighty bytes `7`, the normal `(1,1,1)`
and the attribute bytes `255` and `1`, are read alike. -/
theorem read_stl_ignored_bytes_witness :
    read_stl noLibc zeroLocals emptyMesh (some (stlBinary zeroHeader [unitRecord])) =
        read_stl noLibc zeroLocals emptyMesh (some (stlBinary (List.replicate 80 7)
          [⟨⟨F32.one, F32.one, F32.one⟩, unitRecord.a, unitRecord.b, unitRecord.c, 255, 1⟩])) ∧
      ∃ r, read_stl noLibc zeroLocals emptyMesh (some (stlBinary zeroHeader [unitRecord])) =
        some r :=
  read_stl_ignored_bytes noLibc zeroLocals emptyMesh zeroHeader (List.replicate 80 7)
    [unitRecord] [⟨⟨F32.one, F32.one, F32.one⟩, unitRecord.a, unitRecord.b, unitRecord.c, 255, 1⟩]
    (by decide) (by decide) (by decide) (by decide) (by decide) rfl

/-! ## Points that share a vertex -/

/-- The test before `add_face` leaves the positions of the mesh alone. -/
theorem binAddFace_points (st : RState) : (binAddFace st).mesh.points = st.mesh.points := by
  unfold binAddFace
  split <;> rfl

/-- What feeding one triangle does to the positions: the map stays sound,
the vertices keep their positions, every new position is a corner of the
triangle, and every corner got the handle of a vertex placed at a point
equivalent to it. -/
theorem feed_positions (comp : CmpVec) (hirr : ∀ p, comp.call p p = false)
    (t : vec3 × vec3 × vec3) (st : RState) (hs : MapSound st) :
    MapSound (feed comp t st) ∧
    (∀ v k, st.mesh.position v = some k → (feed comp t st).mesh.position v = some k) ∧
    (∀ q ∈ (feed comp t st).mesh.points, q ∈ st.mesh.points ∨ q ∈ cornersOf t) ∧
    ∀ ph ∈ [(t.1, (resolve comp 0 t.1 st).vertices.v0),
        (t.2.1, (resolve comp 1 t.2.1 (resolve comp 0 t.1 st)).vertices.v1),
        (t.2.2, (resolve comp 2 t.2.2
          (resolve comp 1 t.2.1 (resolve comp 0 t.1 st))).vertices.v2)],
      ∃ k, (feed comp t st).mesh.position ph.2 = some k ∧ comp.equiv k ph.1 = true := by
  obtain ⟨hs1, hpos1, -, ⟨h0, k0, hv1, hp0, he0⟩, hpts1⟩ :=
    resolve_spec comp 0 t.1 st hs (hirr _)
  obtain ⟨hs2, hpos2, -, ⟨h1, k1, hv2, hp1, he1⟩, hpts2⟩ :=
    resolve_spec comp 1 t.2.1 (resolve comp 0 t.1 st) hs1 (hirr _)
  obtain ⟨hs3, hpos3, -, ⟨h2, k2, hv3, hp2, he2⟩, hpts3⟩ :=
    resolve_spec comp 2 t.2.2 (resolve comp 1 t.2.1 (resolve comp 0 t.1 st)) hs2 (hirr _)
  have hpos : ∀ v, (feed comp t st).mesh.position v =
      (resolve comp 2 t.2.2 (resolve comp 1 t.2.1 (resolve comp 0 t.1 st))).mesh.position v := by
    intro v
    simp only [feed, SurfaceMesh.position, binAddFace_points]
  refine ⟨?_, ?_, ?_, ?_⟩
  · intro e he
    rw [feed, binAddFace_vMap] at he
    rw [hpos]
    exact hs3 e he
  · intro v k hv
    rw [hpos]
    exact hpos3 _ _ (hpos2 _ _ (hpos1 _ _ hv))
  · intro q hq
    rw [feed, binAddFace_points] at hq
    rcases hpts3 q hq with h | h
    · rcases hpts2 q h with h | h
      · rcases hpts1 q h with h | h
        · exact Or.inl h
        · exact Or.inr (by simp [cornersOf, h])
      · exact Or.inr (by simp [cornersOf, h])
    · exact Or.inr (by simp [cornersOf, h])
  · intro ph hph
    simp only [List.mem_cons, List.mem_singleton, List.not_mem_nil, or_false] at hph
    rcases hph with rfl | rfl | rfl
    · refine ⟨k0, ?_, he0⟩
      rw [hpos, hv1]
      exact hpos3 _ _ (hpos2 _ _ hp0)
    · refine ⟨k1, ?_, he1⟩
      rw [hpos, hv2]
      exact hpos3 _ _ hp1
    · refine ⟨k2, ?_, he2⟩
      rw [hpos, hv3]
      exact hp2

/-- Feeding a sequence of triangles from a sound map: every corner got the
handle of a vertex of the final mesh placed at a point equivalent to it, and
every position of the final mesh is an old one or a corner. -/
theorem feedPairs_positions (comp : CmpVec) (hirr : ∀ p, comp.call p p = false) :
    ∀ (ts : List (vec3 × vec3 × vec3)) (st : RState), MapSound st →
      MapSound (feedAll comp ts st) ∧
      (∀ v k, st.mesh.position v = some k → (feedAll comp ts st).mesh.position v = some k) ∧
      (∀ q ∈ (feedAll comp ts st).mesh.points, q ∈ st.mesh.points ∨ q ∈ allCorners ts) ∧
      ∀ ph ∈ feedPairs comp ts st,
        ∃ k, (feedAll comp ts st).mesh.position ph.2 = some k ∧ comp.equiv k ph.1 = true := by
  intro ts
  induction ts with
  | nil =>
    intro st hs
    exact ⟨hs, fun _ _ h => h, fun q hq => Or.inl hq, fun ph hph => by simp [feedPairs] at hph⟩
  | cons t ts ih =>
    intro st hs
    obtain ⟨a1, a2, a3, a4⟩ := feed_positions comp hirr t st hs
    obtain ⟨b1, b2, b3, b4⟩ := ih (feed comp t st) a1
    have e : feedAll comp (t :: ts) st = feedAll comp ts (feed comp t st) := rfl
    rw [e]
    refine ⟨b1, fun v k h => b2 _ _ (a2 _ _ h), ?_, ?_⟩
    · intro q hq
      rcases b3 q hq with h | h
      · rcases a3 q h with h | h
        · exact Or.inl h
        · right
          simp only [cornersOf, List.mem_cons, List.mem_singleton, List.not_mem_nil,
            or_false] at h
          simp only [allCorners, List.mem_cons]
          tauto
      · right
        simp only [allCorners, List.mem_cons]
        tauto
    · intro ph hph
      simp only [feedPairs, List.mem_cons] at hph
      rcases hph with h | h | h | h
      · obtain ⟨k, hk, hq⟩ := a4 ph (by simp [h])
        exact ⟨k, b2 _ _ hk, hq⟩
      · obtain ⟨k, hk, hq⟩ := a4 ph (by simp [h])
        exact ⟨k, b2 _ _ hk, hq⟩
      · obtain ⟨k, hk, hq⟩ := a4 ph (by simp [h])
        exact ⟨k, b2 _ _ hk, hq⟩
      · exact b4 ph h

/-- C17 (as amended). For every sequence of triangles on whose corners
`CmpVec(FLT_MIN)` is a strict weak ordering, fed from the empty map as
`read_stl` feeds the triangles of a file, two corners are resolved to the
same handle only if they are equivalent under `CmpVec` (neither is less
than the other): corners that the comparator distinguishes are never merged
into one vertex. Both are then equivalent to the position of that vertex in
the mesh, which is one of the corners read. -/
theorem feedPairs_same_handle (loc : Locals) (input line : List Byte)
    (ts : List (vec3 × vec3 × vec3)) (hswo : StrictWeakOn ⟨FLT_MIN⟩ (allCorners ts)) :
    ∀ ph ∈ feedPairs ⟨FLT_MIN⟩ ts (startState loc input line),
      ∀ qg ∈ feedPairs ⟨FLT_MIN⟩ ts (startState loc input line), ph.2 = qg.2 →
        (CmpVec.mk FLT_MIN).equiv ph.1 qg.1 = true ∧
        (CmpVec.mk FLT_MIN).call ph.1 qg.1 = false ∧
        (CmpVec.mk FLT_MIN).call qg.1 ph.1 = false ∧
        ∃ k, (feedAll ⟨FLT_MIN⟩ ts (startState loc input line)).mesh.position ph.2 = some k ∧
          k ∈ allCorners ts ∧ (CmpVec.mk FLT_MIN).equiv k ph.1 = true ∧
          (CmpVec.mk FLT_MIN).equiv k qg.1 = true := by
  obtain ⟨-, -, hpts, hall⟩ := feedPairs_positions ⟨FLT_MIN⟩ call_self_FLT_MIN ts
    (startState loc input line) (by intro e he; simp [startState] at he)
  have hmem : ∀ x ∈ feedPairs ⟨FLT_MIN⟩ ts (startState loc input line),
      x.1 ∈ allCorners ts := by
    intro x hx
    rw [← feedPairs_fst ⟨FLT_MIN⟩ ts (startState loc input line)]
    exact List.mem_map_of_mem Prod.fst hx
  intro ph hph qg hqg heq
  obtain ⟨k1, hk1, he1⟩ := hall ph hph
  obtain ⟨k2, hk2, he2⟩ := hall qg hqg
  rw [← heq, hk1] at hk2
  have hk : k1 = k2 := Option.some.inj hk2
  subst hk
  have hkc : k1 ∈ allCorners ts := by
    rcases hpts k1 (SurfaceMesh.position_mem hk1) with h | h
    · simp [startState, emptyMesh] at h
    · exact h
  have he : (CmpVec.mk FLT_MIN).equiv ph.1 qg.1 = true := by
    refine hswo.2 ph.1 (hmem ph hph) k1 hkc qg.1 (hmem qg hqg) ?_ he2
    rw [CmpVec.equiv_symm]
    exact he1
  have he' := he
  simp only [CmpVec.equiv, Bool.and_eq_true, Bool.not_eq_true'] at he'
  exact ⟨he, he'.1, he'.2, k1, hk1, hkc, he1, he2⟩

/-- Witness of C17 (as amended): the comparator is a strict weak ordering on
the corners `(0,0,0)`, `(2^(-149),0,0)`, `(1,0,0)`, which get the handles
0, 0, 1, and the corners that share a handle are equivalent. -/
theorem feedPairs_same_handle_witness :
    (feedPairs ⟨FLT_MIN⟩ [closeRecord.corners] (startState zeroLocals [] [])).map Prod.snd =
      [0, 0, 1] ∧
    ∀ ph ∈ feedPairs ⟨FLT_MIN⟩ [closeRecord.corners] (startState zeroLocals [] []),
      ∀ qg ∈ feedPairs ⟨FLT_MIN⟩ [closeRecord.corners] (startState zeroLocals [] []),
        ph.2 = qg.2 → (CmpVec.mk FLT_MIN).equiv ph.1 qg.1 = true :=
  ⟨by decide!, fun ph hph qg hqg h =>
    (feedPairs_same_handle zeroLocals [] [] [closeRecord.corners]
      (by unfold StrictWeakOn; decide!) ph hph qg hqg h).1⟩

/-- C17, counterexample. The corners `(FLT_MIN,0,0)`, `(0,0,0)`,
`(2 FLT_MIN,0,0)` of one triangle, looked up in this order, all get the
handle 0, and the comparator distinguishes the last two: `(0,0,0)` is less
than `(2 FLT_MIN,0,0)`, from which it differs by more than `FLT_MIN` in x.
The map holds one entry, that of `(FLT_MIN,0,0)`, from the first look-up
on. As the one record of a binary file the corners give one vertex and no
face. -/
theorem feedPairs_same_handle_counterexample :
    (feedPairs ⟨FLT_MIN⟩ [mergeTriangle] (startState zeroLocals [] [])).map Prod.snd =
      [0, 0, 0] ∧
    (feedAll ⟨FLT_MIN⟩ [mergeTriangle] (startState zeroLocals [] [])).vMap =
      [(mergeTriangle.1, 0)] ∧
    (CmpVec.mk FLT_MIN).call mergeTriangle.2.1 mergeTriangle.2.2 = true ∧
    (CmpVec.mk FLT_MIN).equiv mergeTriangle.2.1 mergeTriangle.2.2 = false ∧
    vec3.within FLT_MIN mergeTriangle.2.1 mergeTriangle.2.2 = false ∧
    (read_stl noLibc zeroLocals emptyMesh (some (stlBinary zeroHeader
        [recordOf mergeTriangle.1 mergeTriangle.2.1 mergeTriangle.2.2]))).map
      (fun r => (r.1, r.2.n_vertices, r.2.n_faces)) = some (false, 1, 0) := by
  decide!

/-! ## The comparator is no strict weak ordering -/

/-- C18. For the tolerance `FLT_MIN > 0` and the points `a = (0,0,0)`,
`b = (FLT_MIN,0,0)` and `c = (2 FLT_MIN,0,0)`, `a` and `b` are equivalent
under `CmpVec` (neither is less than the other) and so are `b` and `c`, yet
`a` and `c` are not (`a` is less than `c`): the equivalence of the
comparator is not transitive, and `CmpVec` is no strict weak ordering on
these points. -/
theorem CmpVec.equiv_not_transitive :
    ∃ (eps : F32) (a b c : vec3),
      FVal.lt F32.zero.val eps.val = true ∧
      (CmpVec.mk eps).equiv a b = true ∧ (CmpVec.mk eps).equiv b c = true ∧
      (CmpVec.mk eps).equiv a c = false ∧ (CmpVec.mk eps).call a c = true ∧
      ¬ StrictWeakOn ⟨eps⟩ [a, b, c] := by
  refine ⟨FLT_MIN, vec3.zero, ⟨FLT_MIN, F32.zero, F32.zero⟩, ⟨F32.twoMin, F32.zero, F32.zero⟩,
    by decide!, by decide!, by decide!, by decide!, by decide!, ?_⟩
  intro h
  have := h.2 vec3.zero (by simp) ⟨FLT_MIN, F32.zero, F32.zero⟩ (by simp)
    ⟨F32.twoMin, F32.zero, F32.zero⟩ (by simp) (by decide!) (by decide!)
  revert this
  decide!

/-! ## The comparator with the tolerance zero -/

/-- A finite float has a finite value, one that a float holds exactly. -/
theorem F32.val_of_finite (f : F32) (h : f.finite = true) :
    ∃ n : Int, f.val = FVal.fin n ∧ Rep24 n.natAbs ∧ n.natAbs < overflowMag := by
  have hne : f.expo ≠ 255 := by simpa [F32.finite] using h
  rcases F32.val_cases f with h1 | ⟨s, h1⟩ | h1
  · simp [F32.val, hne] at h1
    split at h1 <;> exact absurd h1 (by simp)
  · simp [F32.val, hne] at h1
    split at h1 <;> exact absurd h1 (by simp)
  · exact h1

/-- Rounding leaves no magnitude but zero at zero. -/
theorem roundMag_eq_zero (a : Nat) : roundMag a = 0 ↔ a = 0 := by
  constructor
  · intro h
    by_contra ha
    have := le_roundMag (a := a) (r := 1) (Rep24.of_lt (by norm_num)) (by omega)
    omega
  · rintro rfl
    simp [roundMag, shiftOf]

/-- The difference of two finite values is at most zero in magnitude exactly
when they are equal. -/
theorem FVal.abs_sub_le_zero (m n : Int) :
    FVal.le (FVal.abs (FVal.sub (FVal.fin m) (FVal.fin n))) (FVal.fin 0) = decide (m = n) := by
  have h0 : roundMag (m - n).natAbs = 0 ↔ m = n := by
    rw [roundMag_eq_zero]
    omega
  simp only [FVal.sub, FVal.round]
  by_cases ho : overflowMag ≤ roundMag (m - n).natAbs
  · have hpos : 0 < overflowMag := by unfold overflowMag; positivity
    have hmn : ¬ m = n := fun h => by
      have := h0.mpr h
      omega
    simp [ho, FVal.abs, FVal.le, hmn]
  · simp only [ho, if_false]
    by_cases hmn : m = n
    · have hz := h0.mpr hmn
      rw [hz]
      simp [FVal.abs, FVal.le, hmn]
    · have hz : roundMag (m - n).natAbs ≠ 0 := fun h => hmn (h0.mp h)
      split <;> simp [FVal.abs, FVal.le, hmn] <;> omega

/-- Subtracting zero from a value a float holds exactly leaves it. -/
theorem FVal.sub_zero {n : Int} (hr : Rep24 n.natAbs) (hb : n.natAbs < overflowMag) :
    FVal.sub (FVal.fin n) (FVal.fin 0) = FVal.fin n := by
  have e : n - 0 = n := by omega
  simp only [FVal.sub, FVal.round, e, roundMag_rep hr]
  rw [if_neg (by omega)]
  split
  · congr 1
    omega
  · congr 1
    omega
/-- The comparator with the tolerance zero on points of finite values: the
first coordinate in which the values differ decides. -/
theorem CmpVec.call_zero (a b : vec3) {x1 y1 z1 x2 y2 z2 : Int}
    (hx1 : a.x.val = FVal.fin x1) (hy1 : a.y.val = FVal.fin y1) (hz1 : a.z.val = FVal.fin z1)
    (hx2 : b.x.val = FVal.fin x2) (hy2 : b.y.val = FVal.fin y2) (hz2 : b.z.val = FVal.fin z2)
    (rx : Rep24 x2.natAbs ∧ x2.natAbs < overflowMag)
    (ry : Rep24 y2.natAbs ∧ y2.natAbs < overflowMag)
    (rz : Rep24 z2.natAbs ∧ z2.natAbs < overflowMag) :
    (CmpVec.mk F32.zero).call a b =
        decide (x1 < x2 ∨ (x1 = x2 ∧ (y1 < y2 ∨ (y1 = y2 ∧ z1 < z2)))) ∧
      a.lexLt b = decide (x1 < x2 ∨ (x1 = x2 ∧ (y1 < y2 ∨ (y1 = y2 ∧ z1 < z2)))) := by
  have h0 : F32.zero.val = FVal.fin 0 := by decide!
  constructor
  · simp only [CmpVec.call, hx1, hy1, hz1, hx2, hy2, hz2, h0, FVal.abs_sub_le_zero,
      FVal.sub_zero rx.1 rx.2, FVal.sub_zero ry.1 ry.2, FVal.sub_zero rz.1 rz.2, FVal.lt]
    by_cases hx : x1 = x2
    · by_cases hy : y1 = y2
      · simp [hx, hy]
      · simp [hx, hy]
    · simp only [hx, decide_False, Bool.false_eq_true, if_false, false_and, or_false]
  · simp only [vec3.lexLt, hx1, hy1, hz1, hx2, hy2, hz2, FVal.lt, FVal.eq]
    by_cases hx : x1 = x2
    · by_cases hy : y1 = y2
      · simp [hx, hy]
      · simp [hx, hy]
    · simp [hx]

/-- C19 (as amended). With the tolerance zero, `CmpVec` is the strict
lexicographic order on `(x, y, z)` for all points whose coordinates are
finite numbers: `CmpVec(0)(a, b)` holds if and only if `a` precedes `b`
lexicographically, so that on these points it is irreflexive, transitive and
total on points of different values. -/
theorem CmpVec.call_zero_lex (a b c : vec3) (ha : a.finite = true) (hb : b.finite = true)
    (hc : c.finite = true) :
    (CmpVec.mk F32.zero).call a b = a.lexLt b ∧
    (CmpVec.mk F32.zero).call a a = false ∧
    ((CmpVec.mk F32.zero).call a b = true → (CmpVec.mk F32.zero).call b c = true →
      (CmpVec.mk F32.zero).call a c = true) ∧
    (a.vals ≠ b.vals →
      (CmpVec.mk F32.zero).call a b = true ∨ (CmpVec.mk F32.zero).call b a = true) := by
  simp only [vec3.finite, Bool.and_eq_true] at ha hb hc
  obtain ⟨x1, hx1, rx1⟩ := F32.val_of_finite a.x ha.1.1
  obtain ⟨y1, hy1, ry1⟩ := F32.val_of_finite a.y ha.1.2
  obtain ⟨z1, hz1, rz1⟩ := F32.val_of_finite a.z ha.2
  obtain ⟨x2, hx2, rx2⟩ := F32.val_of_finite b.x hb.1.1
  obtain ⟨y2, hy2, ry2⟩ := F32.val_of_finite b.y hb.1.2
  obtain ⟨z2, hz2, rz2⟩ := F32.val_of_finite b.z hb.2
  obtain ⟨x3, hx3, rx3⟩ := F32.val_of_finite c.x hc.1.1
  obtain ⟨y3, hy3, ry3⟩ := F32.val_of_finite c.y hc.1.2
  obtain ⟨z3, hz3, rz3⟩ := F32.val_of_finite c.z hc.2
  have hab := CmpVec.call_zero a b hx1 hy1 hz1 hx2 hy2 hz2 rx2 ry2 rz2
  have hba := CmpVec.call_zero b a hx2 hy2 hz2 hx1 hy1 hz1 rx1 ry1 rz1
  have haa := CmpVec.call_zero a a hx1 hy1 hz1 hx1 hy1 hz1 rx1 ry1 rz1
  have hbc := CmpVec.call_zero b c hx2 hy2 hz2 hx3 hy3 hz3 rx3 ry3 rz3
  have hac := CmpVec.call_zero a c hx1 hy1 hz1 hx3 hy3 hz3 rx3 ry3 rz3
  refine ⟨hab.1.trans hab.2.symm, ?_, ?_, ?_⟩
  · rw [haa.1]
    simp
  · rw [hab.1, hbc.1, hac.1]
    simp only [decide_eq_true_eq]
    omega
  · intro hne
    rw [hab.1, hba.1]
    simp only [decide_eq_true_eq]
    have : ¬ (x1 = x2 ∧ y1 = y2 ∧ z1 = z2) := by
      rintro ⟨rfl, rfl, rfl⟩
      apply hne
      simp [vec3.vals, hx1, hy1, hz1, hx2, hy2, hz2]
    omega

/-- Witness of C19 (as amended): on the points `(0,0,0)`, `(1,0,0)` and
`(1,1,0)`, in which the first precedes the second and the second the
third. -/
theorem CmpVec.call_zero_lex_witness :
    (CmpVec.mk F32.zero).call vec3.zero ⟨F32.one, F32.zero, F32.zero⟩ = true ∧
    (CmpVec.mk F32.zero).call vec3.zero ⟨F32.one, F32.zero, F32.zero⟩ =
      vec3.zero.lexLt ⟨F32.one, F32.zero, F32.zero⟩ ∧
    (CmpVec.mk F32.zero).call vec3.zero ⟨F32.one, F32.one, F32.zero⟩ = true :=
  ⟨by decide!,
    (CmpVec.call_zero_lex vec3.zero ⟨F32.one, F32.zero, F32.zero⟩ ⟨F32.one, F32.one, F32.zero⟩
      (by decide!) (by decide!) (by decide!)).1,
    (CmpVec.call_zero_lex vec3.zero ⟨F32.one, F32.zero, F32.zero⟩ ⟨F32.one, F32.one, F32.zero⟩
      (by decide!) (by decide!) (by decide!)).2.2.1 (by decide!) (by decide!)⟩

/-- C19, counterexample. The point `(+infinity, 0, 0)` precedes the point
`(+infinity, 1, 0)` lexicographically (the x are equal and `0 < 1`), and
`CmpVec(0)` holds in neither direction between them: the difference of the
two infinities is not a number, so the x are taken to differ and then
compared. The comparator is not total on these two points. -/
theorem CmpVec.call_zero_lex_counterexample :
    vec3.lexLt ⟨F32.infinity, F32.zero, F32.zero⟩ ⟨F32.infinity, F32.one, F32.zero⟩ = true ∧
    (CmpVec.mk F32.zero).call ⟨F32.infinity, F32.zero, F32.zero⟩
      ⟨F32.infinity, F32.one, F32.zero⟩ = false ∧
    (CmpVec.mk F32.zero).call ⟨F32.infinity, F32.one, F32.zero⟩
      ⟨F32.infinity, F32.zero, F32.zero⟩ = false ∧
    vec3.vals ⟨F32.infinity, F32.zero, F32.zero⟩ ≠
      vec3.vals ⟨F32.infinity, F32.one, F32.zero⟩ := by
  decide!

/-! ## The lines of the ASCII branch -/

/-- The scan at the end of the text. -/
theorem scanFrom_nil (L : Libc) (comp : CmpVec) (k : Nat) (st : RState) :
    scanFrom L comp [] k st = if 0 < k then none else some st := by
  simp [scanFrom, blockOpen, lineRoles, runRoles]

/-- The scan at a line outside a vertex block. -/
theorem scanFrom_cons_zero (L : Libc) (comp : CmpVec) (c : List Byte) (cs : List (List Byte))
    (st : RState) :
    scanFrom L comp (c :: cs) 0 st =
      if startsOuter c then scanFrom L comp cs 3 (st.reframe cs.flatten (stored st.line c))
      else scanFrom L comp cs 0 (st.reframe cs.flatten (stored st.line c)) := by
  by_cases h : startsOuter c = true
  · simp [scanFrom, blockOpen, lineRoles, runRoles, applyRole, h]
  · simp [scanFrom, blockOpen, lineRoles, runRoles, applyRole, h]

/-- The scan at a line that is a vertex record. -/
theorem scanFrom_cons_succ (L : Libc) (comp : CmpVec) (c : List Byte) (cs : List (List Byte))
    (k : Nat) (st : RState) :
    scanFrom L comp (c :: cs) (k + 1) st =
      scanFrom L comp cs k (applyRole L comp (Role.vertex (2 - k)) c cs st) := by
  simp [scanFrom, blockOpen, lineRoles, runRoles]

/-- The characters `fgets` stores from a stream that ends before a newline
and before the buffer is full. -/
theorem fgetsChars_all : ∀ (c : List Byte) (n : Nat), 10 ∉ c → c.length ≤ n →
    fgetsChars n c = (c, [])
  | [], 0, _, _ => rfl
  | [], _ + 1, _, _ => rfl
  | b :: c, n + 1, h10, hl => by
    have hb : b ≠ 10 := fun h => h10 (by simp [h])
    have ih := fgetsChars_all c n (fun h => h10 (List.mem_cons_of_mem _ h)) (by simpa using hl)
    simp [fgetsChars, hb, ih]

/-- The buffer after a store: the characters, the terminator, and the old
bytes beyond it. -/
theorem stored_eq (ln c : List Byte) : stored ln c = c ++ 0 :: ln.drop (c.length + 1) := by
  simp [stored, overwrite]

/-- The lines after the first are lines. -/
theorem Chunks.tail {c : List Byte} {cs : List (List Byte)} (h : Chunks (c :: cs)) :
    Chunks cs := h.2

/-- A line holds at least one character. -/
theorem Chunks.ne_nil {c : List Byte} {cs : List (List Byte)} (h : Chunks (c :: cs)) :
    c ≠ [] := by
  rcases h.1 with ⟨l, rfl, -, -⟩ | ⟨-, h, -, -⟩
  · simp
  · exact h

/-- A text has at least as many characters as lines. -/
theorem Chunks.length_le : ∀ {cs : List (List Byte)}, Chunks cs → cs.length ≤ cs.flatten.length
  | [], _ => by simp
  | c :: cs, h => by
    have h1 := Chunks.length_le h.tail
    have h2 : 0 < c.length := List.length_pos.mpr h.ne_nil
    simp only [List.length_cons, List.flatten_cons, List.length_append]
    omega

/-- The call `fgets(line, 100, in)` takes the first line of the stream. -/
theorem fgets_chunk (ln c : List Byte) (cs : List (List Byte)) (h : Chunks (c :: cs)) :
    fgets 100 ln (c :: cs).flatten = some (stored ln c, cs.flatten) := by
  rcases h.1 with ⟨l, rfl, h10, hl⟩ | ⟨rfl, hne, h10, hl⟩
  · have e : ((l ++ [10]) :: cs).flatten = l ++ 10 :: cs.flatten := by simp
    rw [e, fgets_line ln l _ h10 hl, stored_eq]
    simp
  · rcases c with _ | ⟨b, c⟩
    · exact absurd rfl hne
    · have e : [b :: c].flatten = b :: c := by simp
      rw [e]
      unfold fgets
      simp only
      rw [fgetsChars_all (b :: c) (100 - 1) h10 (by omega)]
      simp [stored]

/-- The white space skipped in a buffer that holds a string. -/
theorem skipSpace_stored (junk : List Byte) : ∀ (c : List Byte),
    skipSpace (c ++ 0 :: junk) = c.dropWhile isspace ++ 0 :: junk
  | [] => by
    have h0 : (isspace 0 && decide ((0 : Byte) ≠ 0)) = false := by decide
    simp [skipSpace, List.dropWhile, h0]
  | b :: c => by
    have ih := skipSpace_stored junk c
    simp only [skipSpace] at ih ⊢
    by_cases hb : isspace b = true
    · have hb0 : b ≠ 0 := by
        rintro rfl
        revert hb
        decide
      have hp : (isspace b && decide (b ≠ 0)) = true := by simp [hb, hb0]
      rw [List.cons_append, List.dropWhile_cons, if_pos hp, List.dropWhile_cons, if_pos hb]
      exact ih
    · have hp : ¬ (isspace b && decide (b ≠ 0)) = true := by simp [hb]
      rw [List.cons_append, List.dropWhile_cons, if_neg hp, List.dropWhile_cons, if_neg hb]
      rfl

/-- A string in a buffer compared with a literal of `n` characters, none of
them zero: the comparison succeeds exactly when the string starts with the
literal. -/
theorem strncmp0_prefix : ∀ (n : Nat) (x lit junk : List Byte),
    lit.length = n → (∀ c ∈ lit, c ≠ 0) →
    (strncmp0 n (x ++ 0 :: junk) lit = true ↔ x.take n = lit)
  | 0, x, lit, junk, hl, _ => by
    have : lit = [] := List.length_eq_zero.mp hl
    subst this
    simp [strncmp0]
  | n + 1, x, lit, junk, hl, hc => by
    rcases lit with _ | ⟨c, lit⟩
    · simp at hl
    have hc0 : c ≠ 0 := hc c (by simp)
    have hl' : lit.length = n := by simpa using hl
    have hc' : ∀ d ∈ lit, d ≠ 0 := fun d hd => hc d (by simp [hd])
    rcases x with _ | ⟨a, x⟩
    · simp [strncmp0, hc0.symm]
    · by_cases e : a = c
      · subst e
        have ih := strncmp0_prefix n x lit junk hl' hc'
        simp [strncmp0, hc0, ih]
      · simp [strncmp0, e]

/-- The test `face begins` on the buffer that holds a line: the first five
characters of the line after its leading white space are `outer` or
`OUTER`. -/
theorem isOuter_stored (ln c : List Byte) : isOuter (stored ln c) = startsOuter c := by
  have h1 : ∀ d ∈ cstr "outer", d ≠ 0 := by decide!
  have h2 : ∀ d ∈ cstr "OUTER", d ≠ 0 := by decide!
  have k1 := strncmp0_prefix 5 (c.dropWhile isspace) (cstr "outer") (ln.drop (c.length + 1))
    (by decide) h1
  have k2 := strncmp0_prefix 5 (c.dropWhile isspace) (cstr "OUTER") (ln.drop (c.length + 1))
    (by decide) h2
  unfold isOuter startsOuter
  rw [stored_eq, skipSpace_stored]
  rw [Bool.eq_iff_iff]
  simp only [Bool.or_eq_true, decide_eq_true_eq, k1, k2]

/-- One pass of the vertex loop of the ASCII branch at the end of the
stream: the assertion on `fgets` fails. -/
theorem asciiVertex_eof (L : Libc) (comp : CmpVec) (i : Nat) (st : RState)
    (h : st.input = []) : asciiVertex L comp i st = none := by
  rw [asciiVertex_eq, h]
  rfl

/-- One pass of the vertex loop of the ASCII branch on a stream of lines:
the first line is taken as the vertex record. -/
theorem asciiVertex_chunk (L : Libc) (comp : CmpVec) (i : Nat) (st : RState) (c : List Byte)
    (cs : List (List Byte)) (h : Chunks (c :: cs)) (hin : st.input = (c :: cs).flatten) :
    asciiVertex L comp i st =
      some ((asciiResolveAt comp i (scanRecord L (stored st.line c) st.p) st).reframe
        cs.flatten (stored st.line c)) := by
  rw [asciiVertex_eq, hin, fgets_chunk st.line c cs h]
  rfl

/-- The body of `face begins` on a stream that holds fewer than three lines:
an assertion on `fgets` fails. -/
theorem asciiTriangle_short (L : Libc) (comp : CmpVec) (st : RState) (cs : List (List Byte))
    (h : Chunks cs) (hlen : cs.length < 3) (hin : st.input = cs.flatten) :
    asciiTriangle L comp st = none := by
  unfold asciiTriangle
  rcases cs with _ | ⟨a, _ | ⟨b, _ | ⟨d, rest⟩⟩⟩
  · rw [asciiVertex_eof L comp 0 st (by simpa using hin)]
    rfl
  · rw [asciiVertex_chunk L comp 0 st a [] h hin, Option.some_bind,
      asciiVertex_eof L comp 1 _ rfl]
    rfl
  · rw [asciiVertex_chunk L comp 0 st a [b] h hin, Option.some_bind,
      asciiVertex_chunk L comp 1 _ b [] h.tail rfl, Option.some_bind,
      asciiVertex_eof L comp 2 _ rfl]
    rfl
  · simp only [List.length_cons] at hlen
    omega

/-- The body of `face begins` on a stream that holds three lines or more:
the first three lines are taken as the vertex records of the triangle. -/
theorem asciiTriangle_chunks (L : Libc) (comp : CmpVec) (st : RState) (a b d : List Byte)
    (rest : List (List Byte)) (h : Chunks (a :: b :: d :: rest))
    (hin : st.input = (a :: b :: d :: rest).flatten) :
    asciiTriangle L comp st =
      some (applyRole L comp (Role.vertex 2) d rest
        (applyRole L comp (Role.vertex 1) b (d :: rest)
          (applyRole L comp (Role.vertex 0) a (b :: d :: rest) st))) := by
  unfold asciiTriangle
  rw [asciiVertex_chunk L comp 0 st a _ h hin, Option.some_bind,
    asciiVertex_chunk L comp 1 _ b _ h.tail rfl, Option.some_bind,
    asciiVertex_chunk L comp 2 _ d _ h.tail.tail rfl, Option.some_bind]
  rfl

/-- The scan of fewer than three lines while three vertex records are due. -/
theorem scanFrom_short (L : Libc) (comp : CmpVec) (st : RState) (cs : List (List Byte))
    (hlen : cs.length < 3) : scanFrom L comp cs 3 st = none := by
  rcases cs with _ | ⟨a, _ | ⟨b, _ | ⟨d, rest⟩⟩⟩
  · simp [scanFrom_nil]
  · simp [scanFrom_cons_succ, scanFrom_nil]
  · simp [scanFrom_cons_succ, scanFrom_nil]
  · simp only [List.length_cons] at hlen
    omega

/-- The scan of three lines or more while three vertex records are due. -/
theorem scanFrom_three (L : Libc) (comp : CmpVec) (st : RState) (a b d : List Byte)
    (rest : List (List Byte)) :
    scanFrom L comp (a :: b :: d :: rest) 3 st =
      scanFrom L comp rest 0 (applyRole L comp (Role.vertex 2) d rest
        (applyRole L comp (Role.vertex 1) b (d :: rest)
          (applyRole L comp (Role.vertex 0) a (b :: d :: rest) st))) := by
  rw [scanFrom_cons_succ, scanFrom_cons_succ, scanFrom_cons_succ]

/-- The stream after a line was handled holds the lines that follow. -/
theorem applyRole_input (L : Libc) (comp : CmpVec) (r : Role) (c : List Byte)
    (cs : List (List Byte)) (st : RState) : (applyRole L comp r c cs st).input = cs.flatten := by
  cases r with
  | skipped => rfl
  | start => rfl
  | vertex i =>
    unfold applyRole
    simp only
    split
    · unfold asciiAddFace
      split <;> rfl
    · rfl

/-- The loop of the ASCII branch on a stream of lines is the scan of the
lines. -/
theorem asciiLoop_scan (L : Libc) (comp : CmpVec) :
    ∀ (n : Nat) (cs : List (List Byte)), cs.length ≤ n → Chunks cs →
      ∀ (st : RState) (fuel : Nat), st.input = cs.flatten → cs.length < fuel →
        asciiLoop L comp fuel st = scanFrom L comp cs 0 st := by
  intro n
  induction n with
  | zero =>
    intro cs hn _ st fuel hin _
    have : cs = [] := List.length_eq_zero.mp (by omega)
    subst this
    rw [asciiLoop_eof L comp fuel st (by simpa using hin), scanFrom_nil]
    rfl
  | succ n ih =>
    intro cs hn hc st fuel hin hfuel
    rcases cs with _ | ⟨c, cs⟩
    · rw [asciiLoop_eof L comp fuel st (by simpa using hin), scanFrom_nil]
      rfl
    obtain ⟨f, rfl⟩ : ∃ f, fuel = f + 1 := ⟨fuel - 1, by omega⟩
    simp only [List.length_cons] at hn hfuel
    rw [asciiLoop_succ, hin, fgets_chunk st.line c cs hc, scanFrom_cons_zero]
    simp only [isOuter_stored]
    by_cases ho : startsOuter c = true
    · simp only [ho, if_true]
      by_cases hlen : cs.length < 3
      · rw [asciiTriangle_short L comp _ cs hc.tail hlen rfl, scanFrom_short L comp _ cs hlen]
        rfl
      · rcases cs with _ | ⟨a, _ | ⟨b, _ | ⟨d, rest⟩⟩⟩
        · simp at hlen
        · simp at hlen
        · simp at hlen
        · rw [asciiTriangle_chunks L comp _ a b d rest hc.tail rfl, Option.some_bind,
            scanFrom_three]
          simp only [List.length_cons] at hn hfuel
          exact ih rest (by omega) hc.tail.tail.tail.tail _ f (applyRole_input _ _ _ _ _ _)
            (by omega)
    · simp only [ho, Bool.false_eq_true, if_false]
      exact ih cs (by omega) hc.tail _ f rfl (by omega)

/-- The lines of a text given by its lines are lines as `fgets` takes them. -/
theorem chunks_chunksOf (last : List Byte) (hlast : 10 ∉ last ∧ last.length < 99) :
    ∀ (ls : List (List Byte)), (∀ l ∈ ls, 10 ∉ l ∧ l.length < 99) → Chunks (chunksOf ls last)
  | [], _ => by
    by_cases h : last = []
    · simp [chunksOf, h, Chunks]
    · simp only [chunksOf, List.map_nil, List.nil_append, if_neg h, Chunks, and_true]
      exact Or.inr ⟨trivial, h, hlast.1, hlast.2⟩
  | l :: ls, h => by
    have ih := chunks_chunksOf last hlast ls (fun m hm => h m (List.mem_cons_of_mem _ hm))
    have hl := h l (List.mem_cons_self _ _)
    exact ⟨Or.inl ⟨l, rfl, hl.1, hl.2⟩, ih⟩

/-- The lines of a text make up the text. -/
theorem flatten_chunksOf (ls : List (List Byte)) (last : List Byte) :
    (chunksOf ls last).flatten = stlText ls ++ last := by
  by_cases h : last = []
  · simp [chunksOf, stlText, h]
  · simp [chunksOf, stlText, h]

/-- The first `fgets` of `read_stl` on a text that starts with `solid` or
`SOLID`: the five characters are taken and the text is found to be ASCII. -/
theorem fgets_solid (ln lit text : List Byte) (hlit : lit = cstr "solid" ∨ lit = cstr "SOLID") :
    fgets 6 ln (lit ++ text) = some (stored ln lit, text) ∧ isBinary (stored ln lit) = false := by
  rcases hlit with rfl | rfl
  · rw [cstr_solid]
    constructor
    · simp [fgets, fgetsChars, stored]
    · simp [isBinary, strncmp0, cstr_solid, cstr_SOLID, stored, overwrite]
  · rw [cstr_SOLID]
    constructor
    · simp [fgets, fgetsChars, stored]
    · simp [isBinary, strncmp0, cstr_solid, cstr_SOLID, stored, overwrite]

/-- What `read_stl` makes of a text that starts with `solid` or `SOLID` and
goes on with lines of fewer than 99 characters: the scan of the lines, from
the empty map and the empty mesh. -/
theorem read_stl_scan (L : Libc) (loc : Locals) (mesh : SurfaceMesh) (lit : List Byte)
    (cs : List (List Byte)) (hlit : lit = cstr "solid" ∨ lit = cstr "SOLID") (hc : Chunks cs) :
    read_stl L loc mesh (some (lit ++ cs.flatten)) =
      (scanLines L ⟨FLT_MIN⟩ cs
        ((startState loc [] []).reframe cs.flatten (stored loc.line lit))).map
          (fun st => (decide (st.mesh.n_faces > 0), st.mesh)) := by
  obtain ⟨hfg, hbin⟩ := fgets_solid loc.line lit cs.flatten hlit
  unfold read_stl
  simp only [hfg, hbin, Bool.false_eq_true, if_false]
  have hst : (⟨cs.flatten, stored loc.line lit, loc.p, loc.vertices, [], mesh.clear⟩ : RState) =
      (startState loc [] []).reframe cs.flatten (stored loc.line lit) := rfl
  rw [hst, asciiLoop_scan L ⟨FLT_MIN⟩ cs.length cs (le_refl _) hc _ _ rfl
    (Nat.lt_succ_of_le hc.length_le)]
  rfl
/-- C13 (as amended). For every ASCII STL input, the five characters `solid`
or `SOLID` followed by lines of fewer than 99 characters (the last line with
or without a newline), `read_stl` makes the scan of the lines: a line
outside a vertex block starts a triangle if and only if its first five
characters after leading white space are exactly `outer` or exactly `OUTER`,
the next three lines are then taken as the vertex records of the triangle
(an assertion fails when the input ends before the third), and every other
line is passed over. -/
theorem read_stl_ascii_lines (L : Libc) (loc : Locals) (mesh : SurfaceMesh)
    (lit : List Byte) (ls : List (List Byte)) (last : List Byte)
    (hlit : lit = cstr "solid" ∨ lit = cstr "SOLID")
    (hls : ∀ l ∈ ls, 10 ∉ l ∧ l.length < 99) (hlast : 10 ∉ last ∧ last.length < 99) :
    read_stl L loc mesh (some (lit ++ (stlText ls ++ last))) =
      (scanLines L ⟨FLT_MIN⟩ (chunksOf ls last)
        ((startState loc [] []).reframe (stlText ls ++ last) (stored loc.line lit))).map
          (fun st => (decide (st.mesh.n_faces > 0), st.mesh)) := by
  have h := read_stl_scan L loc mesh lit (chunksOf ls last) hlit (chunks_chunksOf last hlast ls hls)
  rw [flatten_chunksOf] at h
  exact h

/-- Witness of C13 (as amended): in the file made of `solid`, a line
`outer loop` and three `vertex` lines, the line `outer loop` starts a
triangle whose vertex records are the three lines, and `read_stl` returns
true with the mesh of this triangle. -/
theorem read_stl_ascii_lines_witness :
    lineRoles (chunksOf (blockLines (cstr "outer loop") vec3.zero
        ⟨F32.one, F32.zero, F32.zero⟩ ⟨F32.zero, F32.one, F32.zero⟩) []) 0 =
      [Role.skipped, Role.start, Role.vertex 0, Role.vertex 1, Role.vertex 2] ∧
    read_stl hexLibc zeroLocals emptyMesh (some (blockFile (cstr "outer loop") vec3.zero
        ⟨F32.one, F32.zero, F32.zero⟩ ⟨F32.zero, F32.one, F32.zero⟩)) =
      (scanLines hexLibc ⟨FLT_MIN⟩ (chunksOf (blockLines (cstr "outer loop") vec3.zero
          ⟨F32.one, F32.zero, F32.zero⟩ ⟨F32.zero, F32.one, F32.zero⟩) [])
        ((startState zeroLocals [] []).reframe
          (stlText (blockLines (cstr "outer loop") vec3.zero
            ⟨F32.one, F32.zero, F32.zero⟩ ⟨F32.zero, F32.one, F32.zero⟩) ++ [])
          (stored zeroLocals.line (cstr "solid")))).map
            (fun st => (decide (st.mesh.n_faces > 0), st.mesh)) ∧
    read_stl hexLibc zeroLocals emptyMesh (some (blockFile (cstr "outer loop") vec3.zero
        ⟨F32.one, F32.zero, F32.zero⟩ ⟨F32.zero, F32.one, F32.zero⟩)) =
      some (true, ⟨[vec3.zero, ⟨F32.one, F32.zero, F32.zero⟩, ⟨F32.zero, F32.one, F32.zero⟩],
        [[0, 1, 2]], none⟩) :=
  ⟨by decide!,
    read_stl_ascii_lines hexLibc zeroLocals emptyMesh (cstr "solid")
      (blockLines (cstr "outer loop") vec3.zero ⟨F32.one, F32.zero, F32.zero⟩
        ⟨F32.zero, F32.one, F32.zero⟩) [] (Or.inl rfl) (by decide!) (by decide!),
    by decide!⟩

/-- C13, counterexample. In the file made of `solid`, a line `Outer loop`
and three `vertex` lines, whose lines have at most 33 characters, no line
starts a triangle: `read_stl` returns false and the mesh has no vertex. And
in the file in which 94 blanks and `outer` make a line of 99 characters, the
vertex records taken are not the next three lines: the first is what is
left of the line `outer` itself, its newline, and the third `vertex` line,
with the position `(0,0,1)`, is passed over. -/
theorem read_stl_ascii_lines_counterexample :
    (∀ l ∈ blockLines (cstr "Outer loop") vec3.zero ⟨F32.one, F32.zero, F32.zero⟩
        ⟨F32.zero, F32.one, F32.zero⟩, l.length < 100) ∧
    read_stl hexLibc zeroLocals emptyMesh (some (blockFile (cstr "Outer loop") vec3.zero
        ⟨F32.one, F32.zero, F32.zero⟩ ⟨F32.zero, F32.one, F32.zero⟩)) =
      some (false, ⟨[], [], none⟩) ∧
    (∀ l ∈ blockLines (List.replicate 94 32 ++ cstr "outer") ⟨F32.one, F32.zero, F32.zero⟩
        ⟨F32.zero, F32.one, F32.zero⟩ ⟨F32.zero, F32.zero, F32.one⟩, l.length < 100) ∧
    read_stl hexLibc zeroLocals emptyMesh (some (blockFile (List.replicate 94 32 ++ cstr "outer")
        ⟨F32.one, F32.zero, F32.zero⟩ ⟨F32.zero, F32.one, F32.zero⟩
        ⟨F32.zero, F32.zero, F32.one⟩)) =
      some (true, ⟨[vec3.zero, ⟨F32.one, F32.zero, F32.zero⟩, ⟨F32.zero, F32.one, F32.zero⟩],
        [[0, 1, 2]], none⟩) := by
  decide!

/-! ## The handles of a face -/

/-- The look-up stores the handle it yields in the slot it is made for. -/
theorem resolve_vertices (comp : CmpVec) (i : Nat) (p : vec3) (st : RState) :
    (resolve comp i p st).vertices = st.vertices.set i (handleOf comp p st) := by
  unfold resolve binResolve handleOf
  simp only
  cases hf : st.vMap.find comp p with
  | none => rfl
  | some v => rfl

/-- The look-up leaves the point looked up in `p`. -/
theorem resolve_p (comp : CmpVec) (i : Nat) (p : vec3) (st : RState) :
    (resolve comp i p st).p = p := by
  unfold resolve binResolve
  simp only
  split <;> rfl

/-- The look-up leaves the buffer alone. -/
theorem resolve_line (comp : CmpVec) (i : Nat) (p : vec3) (st : RState) :
    (resolve comp i p st).line = st.line := by
  unfold resolve binResolve
  simp only
  split <;> rfl

/-- Feeding a triangle leaves in `vertices` the handles of its three corners
in order, and adds the face of these handles when they are pairwise
distinct. -/
theorem feed_handles (comp : CmpVec) (t : vec3 × vec3 × vec3) (st : RState) :
    (feed comp t st).vertices = handlesOf comp t st ∧
    (feed comp t st).mesh.faces =
      if (handlesOf comp t st).Proper then st.mesh.faces ++ [(handlesOf comp t st).toList]
      else st.mesh.faces := by
  have hv : (resolve comp 2 t.2.2 (resolve comp 1 t.2.1 (resolve comp 0 t.1 st))).vertices =
      handlesOf comp t st := by
    rw [resolve_vertices, resolve_vertices, resolve_vertices]
    rfl
  have hf : (resolve comp 2 t.2.2 (resolve comp 1 t.2.1 (resolve comp 0 t.1 st))).mesh.faces =
      st.mesh.faces := by
    simp only [resolve, binResolve_faces]
  obtain ⟨h1, h2⟩ := binAddFace_spec
    (resolve comp 2 t.2.2 (resolve comp 1 t.2.1 (resolve comp 0 t.1 st)))
  rw [hv, hf] at h2
  exact ⟨by rw [feed, h1, hv], h2⟩

/-- The body of `face begins` on a stream that holds three lines or more:
the positions scanned from the first three lines are handled as one
triangle. -/
theorem asciiTriangle_feed (L : Libc) (comp : CmpVec) (st : RState) (a b d : List Byte)
    (rest : List (List Byte)) (h : Chunks (a :: b :: d :: rest))
    (hin : st.input = (a :: b :: d :: rest).flatten) :
    asciiTriangle L comp st =
      some ((asciiFeed comp (scannedCorners L st.line st.p a b d) st).reframe rest.flatten
        (stored (stored (stored st.line a) b) d)) := by
  rw [asciiTriangle_chunks L comp st a b d rest h hin]
  have e0 : applyRole L comp (Role.vertex 0) a (b :: d :: rest) st =
      (resolve comp 0 (scanRecord L (stored st.line a) st.p) st).reframe
        (b :: d :: rest).flatten (stored st.line a) := rfl
  have e1 : ∀ s : RState, applyRole L comp (Role.vertex 1) b (d :: rest) s =
      (resolve comp 1 (scanRecord L (stored s.line b) s.p) s).reframe
        (d :: rest).flatten (stored s.line b) := fun _ => rfl
  have e2 : ∀ s : RState, applyRole L comp (Role.vertex 2) d rest s =
      binAddFace ((resolve comp 2 (scanRecord L (stored s.line d) s.p) s).reframe
        rest.flatten (stored s.line d)) := fun _ => rfl
  have hl : ∀ (s : RState) (x y : List Byte), (s.reframe x y).line = y := fun _ _ _ => rfl
  have hp : ∀ (s : RState) (x y : List Byte), (s.reframe x y).p = s.p := fun _ _ _ => rfl
  rw [e0, e1, e2]
  simp only [hl, hp, resolve_p, resolve_frame, RState.reframe_reframe, binAddFace_frame]
  rfl
/-- C16. For every triangle record `read_stl` reads, in the binary branch
(fifty bytes) and in the ASCII branch (three lines taken as vertex records),
`vertices` holds after the record exactly the handles resolved for its
first, second and third position, in that order, whatever it held before,
and the face passed to `add_face`, when the record is turned into a face, is
the sequence of these three handles. -/
theorem triangle_face_handles (L : Libc) (comp : CmpVec) (st : RState) :
    (∀ (r : Record) (rest ln : List Byte), ∃ s,
      binTriangle comp (st.reframe (r.toBytes ++ rest) ln) = some s ∧
      s.vertices = handlesOf comp r.corners st ∧
      s.mesh.faces =
        if (handlesOf comp r.corners st).Proper then
          st.mesh.faces ++ [[handleOf comp r.a st, handleOf comp r.b (resolve comp 0 r.a st),
            handleOf comp r.c (resolve comp 1 r.b (resolve comp 0 r.a st))]]
        else st.mesh.faces) ∧
    (∀ (a b d : List Byte) (rest : List (List Byte)), Chunks (a :: b :: d :: rest) →
      st.input = (a :: b :: d :: rest).flatten → ∃ s,
      asciiTriangle L comp st = some s ∧
      s.vertices = handlesOf comp (scannedCorners L st.line st.p a b d) st ∧
      s.mesh.faces =
        if (handlesOf comp (scannedCorners L st.line st.p a b d) st).Proper then
          st.mesh.faces ++ [(handlesOf comp (scannedCorners L st.line st.p a b d) st).toList]
        else st.mesh.faces) := by
  constructor
  · intro r rest ln
    obtain ⟨ln2, h⟩ := binTriangle_full comp st r (r.toBytes ++ rest) ln rest rfl
    obtain ⟨h1, h2⟩ := feed_handles comp r.corners st
    exact ⟨_, h, h1, h2⟩
  · intro a b d rest hc hin
    obtain ⟨h1, h2⟩ := feed_handles comp (scannedCorners L st.line st.p a b d) st
    exact ⟨_, asciiTriangle_feed L comp st a b d rest hc hin, h1, h2⟩

/-- Witness of C16: from a state whose `vertices` holds three handles that
stand for no vertex, the record of the triangle `(0,0,0)`, `(1,0,0)`,
`(0,1,0)` leaves the handles 0, 1, 2 in `vertices` and adds the face
`[0, 1, 2]`. -/
theorem triangle_face_handles_witness :
    staleState.vertices = ⟨7, 7, 7⟩ ∧
    handlesOf ⟨FLT_MIN⟩ unitRecord.corners staleState = ⟨0, 1, 2⟩ ∧
    ∃ s, binTriangle ⟨FLT_MIN⟩ (staleState.reframe (unitRecord.toBytes ++ []) []) = some s ∧
      s.vertices = handlesOf ⟨FLT_MIN⟩ unitRecord.corners staleState ∧
      s.mesh.faces =
        if (handlesOf ⟨FLT_MIN⟩ unitRecord.corners staleState).Proper then
          staleState.mesh.faces ++ [[handleOf ⟨FLT_MIN⟩ unitRecord.a staleState,
            handleOf ⟨FLT_MIN⟩ unitRecord.b (resolve ⟨FLT_MIN⟩ 0 unitRecord.a staleState),
            handleOf ⟨FLT_MIN⟩ unitRecord.c
              (resolve ⟨FLT_MIN⟩ 1 unitRecord.b (resolve ⟨FLT_MIN⟩ 0 unitRecord.a staleState))]]
        else staleState.mesh.faces :=
  ⟨by decide!, by decide!,
    (triangle_face_handles noLibc ⟨FLT_MIN⟩ staleState).1 unitRecord [] []⟩

/-! ## The two branches handle a triangle alike -/

/-- The step of the ASCII branch on three positions is the step of the
binary branch. -/
theorem asciiFeed_eq_feed (comp : CmpVec) (t : vec3 × vec3 × vec3) (st : RState) :
    asciiFeed comp t st = feed comp t st := rfl

/-- C15. For every sequence of triangles given as triples of positions, the
ASCII branch and the binary branch of `read_stl` apply the same step: the
look-up of a point and the test before `add_face` are the same functions of
the state in both branches, so that both, fed the same sequence from the
same state, end in the same state (the same handles, the same map, the same
mesh) after every triangle, and fed it from the empty map and the empty
mesh, build the same mesh, with the same vertices in the order of the
`add_vertex` calls and the same faces in the order of the `add_face` calls.
In the code: a record of the binary branch and three lines of the ASCII
branch that hold the same three positions leave, from the same state, the
same handles, the same map and the same mesh. -/
theorem asciiFeedAll_eq_feedAll (L : Libc) (comp : CmpVec) (ts : List (vec3 × vec3 × vec3)) :
    (∀ i st, asciiResolve comp i st = binResolve comp i st) ∧
    (∀ st, asciiAddFace st = binAddFace st) ∧
    (∀ st, asciiFeedAll comp ts st = feedAll comp ts st) ∧
    (∀ loc, (asciiFeedAll comp ts (startState loc [] [])).mesh.points =
        (feedAll comp ts (startState loc [] [])).mesh.points ∧
      (asciiFeedAll comp ts (startState loc [] [])).mesh.faces =
        (feedAll comp ts (startState loc [] [])).mesh.faces) ∧
    (∀ (st : RState) (r : Record) (rest ln a b d : List Byte) (more : List (List Byte)),
      Chunks (a :: b :: d :: more) → st.input = (a :: b :: d :: more).flatten →
      scannedCorners L st.line st.p a b d = r.corners →
      ∃ s1 s2, binTriangle comp (st.reframe (r.toBytes ++ rest) ln) = some s1 ∧
        asciiTriangle L comp st = some s2 ∧
        s1.vertices = s2.vertices ∧ s1.vMap = s2.vMap ∧ s1.mesh = s2.mesh) := by
  have key : ∀ st, asciiFeedAll comp ts st = feedAll comp ts st := by
    induction ts with
    | nil => intro st; rfl
    | cons t ts ih =>
      intro st
      show asciiFeedAll comp ts (asciiFeed comp t st) = feedAll comp ts (feed comp t st)
      rw [asciiFeed_eq_feed]
      exact ih (feed comp t st)
  refine ⟨asciiResolve_eq_binResolve comp, asciiAddFace_eq_binAddFace, key, ?_, ?_⟩
  · intro loc
    rw [key]
    exact ⟨rfl, rfl⟩
  · intro st r rest ln a b d more hc hin hsc
    obtain ⟨ln2, h1⟩ := binTriangle_full comp st r (r.toBytes ++ rest) ln rest rfl
    have h2 := asciiTriangle_feed L comp st a b d more hc hin
    rw [hsc, asciiFeed_eq_feed] at h2
    exact ⟨_, _, h1, h2, rfl, rfl, rfl⟩

/-- Witness of C15: the record of the triangle `(0,0,0)`, `(1,0,0)`,
`(0,1,0)` and three lines that hold these positions in hexadecimal both
leave the handles 0, 1, 2 and the mesh of one face. -/
theorem asciiFeedAll_eq_feedAll_witness :
    (binTriangle ⟨FLT_MIN⟩ ((startState zeroLocals [] []).reframe
        (unitRecord.toBytes ++ []) [])).map (fun s => (s.vertices, s.mesh)) =
      some (⟨0, 1, 2⟩, ⟨[unitRecord.a, unitRecord.b, unitRecord.c], [[0, 1, 2]], none⟩) ∧
    (asciiTriangle hexLibc ⟨FLT_MIN⟩ (startState zeroLocals
        (stlText ((blockLines [] unitRecord.a unitRecord.b unitRecord.c).drop 2)) [])).map
        (fun s => (s.vertices, s.mesh)) =
      some (⟨0, 1, 2⟩, ⟨[unitRecord.a, unitRecord.b, unitRecord.c], [[0, 1, 2]], none⟩) ∧
    asciiFeedAll ⟨FLT_MIN⟩ [unitRecord.corners] (startState zeroLocals [] []) =
      feedAll ⟨FLT_MIN⟩ [unitRecord.corners] (startState zeroLocals [] []) :=
  ⟨by decide!, by decide!,
    (asciiFeedAll_eq_feedAll hexLibc ⟨FLT_MIN⟩ [unitRecord.corners]).2.2.1 _⟩

/-! ## The lines of a written text -/

/-- A line whose first character after the blanks is neither white space nor
the letter `o` in either case starts no triangle. -/
theorem startsOuter_other (k : Nat) (c : Byte) (t : List Byte) (hc : isspace c = false)
    (h1 : c ≠ 111) (h2 : c ≠ 79) : startsOuter (List.replicate k 32 ++ c :: t) = false := by
  rw [← isOuter_stored [], stored_eq, List.append_assoc, List.cons_append]
  exact isOuter_other k c _ hc h1 h2

/-- A line that holds `outer` after blanks starts a triangle. -/
theorem startsOuter_outer (k : Nat) (t : List Byte) :
    startsOuter (List.replicate k 32 ++ (111 :: 117 :: 116 :: 101 :: 114 :: t)) = true := by
  rw [← isOuter_stored [], stored_eq, List.append_assoc]
  exact isOuter_outer k _

/-- The roles of the seven lines written for a triangle. -/
theorem lineRoles_facet (L : Libc) (mesh : SurfaceMesh) (fn : List vec3) (k : Nat)
    (a b c : Vertex) (tail : List (List Byte)) :
    lineRoles ((facetLines L mesh fn k [a, b, c]).map (fun l => l ++ [10]) ++ tail) 0 =
      facetRoles ++ lineRoles tail 0 := by
  have e1 : ∀ x : List Byte, cstr "  facet normal " ++ x ++ [10] =
      List.replicate 2 32 ++ 102 :: (cstr "acet normal " ++ x ++ [10]) := by
    intro x
    have : cstr "  facet normal " = List.replicate 2 32 ++ 102 :: cstr "acet normal " := by
      decide
    rw [this]
    simp
  have e2 : cstr "    outer loop" ++ [10] =
      List.replicate 4 32 ++ (111 :: 117 :: 116 :: 101 :: 114 :: (cstr " loop" ++ [10])) := by
    decide
  have e3 : cstr "    endloop" ++ [10] = List.replicate 4 32 ++ 101 :: (cstr "ndloop" ++ [10]) := by
    decide
  have e4 : cstr "  endfacet" ++ [10] = List.replicate 2 32 ++ 101 :: (cstr "ndfacet" ++ [10]) := by
    decide
  have s1 : ∀ x : List Byte, startsOuter (cstr "  facet normal " ++ x ++ [10]) = false := by
    intro x
    rw [e1]
    exact startsOuter_other 2 102 _ (by decide) (by decide) (by decide)
  have s2 : startsOuter (cstr "    outer loop" ++ [10]) = true := by
    rw [e2]
    exact startsOuter_outer 4 _
  have s3 : startsOuter (cstr "    endloop" ++ [10]) = false := by
    rw [e3]
    exact startsOuter_other 4 101 _ (by decide) (by decide) (by decide)
  have s4 : startsOuter (cstr "  endfacet" ++ [10]) = false := by
    rw [e4]
    exact startsOuter_other 2 101 _ (by decide) (by decide) (by decide)
  simp only [facetLines, List.map_cons, List.map_nil, List.cons_append, List.nil_append,
    List.map_append, List.singleton_append, lineRoles, s1, s2, s3, s4, if_true,
    Bool.false_eq_true, if_false, facetRoles]
  rfl

/-- The roles of the lines written for the faces of a triangle mesh. -/
theorem lineRoles_faces (L : Libc) (mesh : SurfaceMesh) (fn : List vec3) :
    ∀ (faces : List (List Vertex)) (k : Nat) (tail : List (List Byte)),
      (∀ f ∈ faces, f.length = 3) →
      lineRoles ((facesLines L mesh fn k faces).map (fun l => l ++ [10]) ++ tail) 0 =
        (faces.map (fun _ => facetRoles)).flatten ++ lineRoles tail 0 := by
  intro faces
  induction faces with
  | nil => intro k tail _; rfl
  | cons f fs ih =>
    intro k tail h3
    have hf := h3 f (List.mem_cons_self _ _)
    obtain ⟨a, b, c, rfl⟩ : ∃ a b c, f = [a, b, c] := by
      rcases f with _ | ⟨a, _ | ⟨b, _ | ⟨c, _ | ⟨d, t⟩⟩⟩⟩
      · simp at hf
      · simp at hf
      · simp at hf
      · exact ⟨a, b, c, rfl⟩
      · simp at hf
    have e : (facesLines L mesh fn k ([a, b, c] :: fs)).map (fun l => l ++ [10]) ++ tail =
        (facetLines L mesh fn k [a, b, c]).map (fun l => l ++ [10]) ++
          ((facesLines L mesh fn (k + 1) fs).map (fun l => l ++ [10]) ++ tail) := by
      simp [facesLines]
    rw [e, lineRoles_facet, ih (k + 1) tail (fun g hg => h3 g (List.mem_cons_of_mem _ hg))]
    simp

/-- The three numbers of a point, printed by conversions that print a number
in at most 27 characters and no newline. -/
theorem fmt3_ok (L : Libc) (hfmt : ∀ f, 10 ∉ L.fmt f ∧ (L.fmt f).length ≤ 27) (p : vec3) :
    10 ∉ fmt3 L p ∧ (fmt3 L p).length ≤ 83 := by
  have hx := hfmt p.x
  have hy := hfmt p.y
  have hz := hfmt p.z
  have hb : (10 : Byte) ∉ cstr " " := by decide
  have hl : (cstr " ").length = 1 := by decide
  constructor
  · simp only [fmt3, List.mem_append, not_or]
    exact ⟨⟨⟨⟨hx.1, hb⟩, hy.1⟩, hb⟩, hz.1⟩
  · simp only [fmt3, List.length_append, hl]
    omega

/-- The lines `write_stl` writes, with conversions that print a number in at
most 27 characters and no newline: no line holds a newline and every line
has fewer than 99 characters. -/
theorem stlLines_ok (L : Libc) (hfmt : ∀ f, 10 ∉ L.fmt f ∧ (L.fmt f).length ≤ 27)
    (mesh : SurfaceMesh) (fn : List vec3) :
    ∀ l ∈ stlLines L mesh fn, 10 ∉ l ∧ l.length < 99 := by
  have hfacet : ∀ (k : Nat) (f : List Vertex), ∀ l ∈ facetLines L mesh fn k f,
      10 ∉ l ∧ l.length < 99 := by
    intro k f l hl
    simp only [facetLines, List.mem_append, List.mem_cons, List.mem_singleton, List.mem_map,
      List.not_mem_nil, or_false] at hl
    rcases hl with ((rfl | rfl) | ⟨v, -, rfl⟩) | rfl | rfl
    · obtain ⟨h1, h2⟩ := fmt3_ok L hfmt
        (fn.getD k ⟨⟨0, 0, 0, 0⟩, ⟨0, 0, 0, 0⟩, ⟨0, 0, 0, 0⟩⟩)
      have hb : (10 : Byte) ∉ cstr "  facet normal " := by decide
      have hl : (cstr "  facet normal ").length = 15 := by decide
      constructor
      · simp only [List.mem_append, not_or]
        exact ⟨hb, h1⟩
      · simp only [List.length_append, hl]
        omega
    · decide
    · obtain ⟨h1, h2⟩ := fmt3_ok L hfmt
        (mesh.points.getD v.toNat ⟨⟨0, 0, 0, 0⟩, ⟨0, 0, 0, 0⟩, ⟨0, 0, 0, 0⟩⟩)
      have hb : (10 : Byte) ∉ cstr "      vertex " := by decide
      have hl : (cstr "      vertex ").length = 13 := by decide
      constructor
      · simp only [vertexLine, List.mem_append, not_or]
        exact ⟨hb, h1⟩
      · simp only [vertexLine, List.length_append, hl]
        omega
    · decide
    · decide
  have hfaces : ∀ (faces : List (List Vertex)) (k : Nat), ∀ l ∈ facesLines L mesh fn k faces,
      10 ∉ l ∧ l.length < 99 := by
    intro faces
    induction faces with
    | nil => intro k l hl; simp [facesLines] at hl
    | cons f fs ih =>
      intro k l hl
      simp only [facesLines, List.mem_append] at hl
      rcases hl with hl | hl
      · exact hfacet k f l hl
      · exact ih (k + 1) l hl
  intro l hl
  simp only [stlLines, List.mem_append, List.mem_singleton] at hl
  rcases hl with (rfl | hl) | rfl
  · decide
  · exact hfaces _ _ l hl
  · decide

/-- The white space skipped in the buffer that holds a `vertex` line, and
what is left six characters further on: the word `vertex` is skipped and
the scan starts at the blank that follows it. -/
theorem skipSpace_vertexLine (ln x : List Byte) :
    (skipSpace (stored ln (cstr "      vertex " ++ x ++ [10]))).take 6 = cstr "vertex" ∧
    cstring ((skipSpace (stored ln (cstr "      vertex " ++ x ++ [10]))).drop 6) =
      cstring (cstr " " ++ (x ++ [10])) := by
  have e : stored ln (cstr "      vertex " ++ x ++ [10]) =
      List.replicate 6 32 ++ 118 :: ([101, 114, 116, 101, 120, 32] ++ (x ++ [10]) ++
        0 :: ln.drop ((cstr "      vertex " ++ x ++ [10]).length + 1)) := by
    rw [stored_eq, cstr_vertex]
    simp
  rw [e, skipSpace_blanks 6 118 _ (by decide)]
  constructor
  · have e3 : cstr "vertex" = [118, 101, 114, 116, 101, 120] := by decide
    rw [e3]
    rfl
  · have e2 : (118 :: ([101, 114, 116, 101, 120, 32] ++ (x ++ [10]) ++
        0 :: ln.drop ((cstr "      vertex " ++ x ++ [10]).length + 1))).drop 6 =
        (cstr " " ++ (x ++ [10])) ++
          0 :: ln.drop ((cstr "      vertex " ++ x ++ [10]).length + 1) := by
      have : cstr " " = [32] := by decide
      rw [this]
      rfl
    rw [e2, cstring_append_zero]

/-- The text `write_stl` writes is `solid` and then the lines of
`writtenChunks`. -/
theorem stlText_written (L : Libc) (mesh : SurfaceMesh) (fn : List vec3) :
    stlText (stlLines L mesh fn) = cstr "solid" ++ (writtenChunks L mesh fn).flatten := by
  have es : cstr "solid stl" = cstr "solid" ++ cstr " stl" := by decide
  rw [writtenChunks, flatten_chunksOf, List.append_nil]
  simp only [stlLines, stlText_append, stlText_cons, es, List.singleton_append,
    List.append_assoc, List.cons_append]
  simp [stlText]

/-- The lines of `writtenChunks` are lines as `fgets` takes them, with
conversions that print a number in at most 27 characters and no newline. -/
theorem chunks_written (L : Libc) (hfmt : ∀ f, 10 ∉ L.fmt f ∧ (L.fmt f).length ≤ 27)
    (mesh : SurfaceMesh) (fn : List vec3) : Chunks (writtenChunks L mesh fn) := by
  apply chunks_chunksOf [] (by simp)
  intro l hl
  simp only [List.mem_cons, List.mem_append, List.mem_singleton, List.not_mem_nil,
    or_false] at hl
  rcases hl with rfl | hl | rfl
  · decide
  · exact stlLines_ok L hfmt mesh fn l (by
      simp only [stlLines, List.mem_append, List.mem_singleton]
      exact Or.inl (Or.inr hl))
  · decide

/-- The roles of the lines of a written text. -/
theorem lineRoles_written (L : Libc) (mesh : SurfaceMesh) (fn : List vec3)
    (h3 : ∀ f ∈ mesh.faces, f.length = 3) :
    lineRoles (writtenChunks L mesh fn) 0 =
      Role.skipped :: ((mesh.faces.map (fun _ => facetRoles)).flatten ++ [Role.skipped]) := by
  have e4 : cstr " stl" ++ [10] = List.replicate 1 32 ++ 115 :: (cstr "tl" ++ [10]) := by decide
  have e8 : cstr "endsolid" ++ [10] = List.replicate 0 32 ++ 101 :: (cstr "ndsolid" ++ [10]) := by
    decide
  have s4 : startsOuter (cstr " stl" ++ [10]) = false := by
    rw [e4]
    exact startsOuter_other 1 115 _ (by decide) (by decide) (by decide)
  have s8 : startsOuter (cstr "endsolid" ++ [10]) = false := by
    rw [e8]
    exact startsOuter_other 0 101 _ (by decide) (by decide) (by decide)
  have e : writtenChunks L mesh fn =
      (cstr " stl" ++ [10]) :: ((facesLines L mesh fn 0 mesh.faces).map (fun l => l ++ [10]) ++
        [cstr "endsolid" ++ [10]]) := by
    simp [writtenChunks, chunksOf]
  rw [e]
  simp only [lineRoles, s4, Bool.false_eq_true, if_false]
  rw [lineRoles_faces L mesh fn mesh.faces 0 _ h3]
  simp only [lineRoles, s8, Bool.false_eq_true, if_false]

/-- The lines written for `F` faces hold `F` starts of a triangle. -/
theorem count_start_faces : ∀ (faces : List (List Vertex)) (tail : List Role),
    ((faces.map (fun _ => facetRoles)).flatten ++ tail).count Role.start =
      faces.length + tail.count Role.start
  | [], tail => by simp
  | _ :: fs, tail => by
    have ih := count_start_faces fs tail
    have e : facetRoles.count Role.start = 1 := by decide
    simp only [List.map_cons, List.flatten_cons, List.append_assoc, List.count_append, e,
      List.length_cons] at ih ⊢
    omega

/-- The stand-in conversions print a number in eight characters, none of
them a newline. -/
theorem hexLibc_fmt (f : F32) : 10 ∉ hexLibc.fmt f ∧ (hexLibc.fmt f).length ≤ 27 := by
  have hb : ∀ b : Byte, 10 ∉ hexByte b := by decide!
  constructor
  · simp only [hexLibc, List.mem_append, not_or]
    exact ⟨⟨⟨hb _, hb _⟩, hb _⟩, hb _⟩
  · simp [hexLibc, hexByte]

/-- C20. For every triangle mesh with a face-normal property and F faces,
written with conversions that print a number in at most 27 characters and no
newline: every line of the text `write_stl` emits is shorter than 100
characters; the text is `solid` followed by the lines ` stl`, the seven
lines of every face and `endsolid`, and the detector of `read_stl` takes it
for ASCII; `read_stl` makes the scan of these lines, in which the line
` stl` is passed over, of the seven lines of every face the `facet normal`
line is passed over, the `outer loop` line starts a triangle, the three
`vertex` lines are its vertex records and the `endloop` and `endfacet` lines
are passed over, and the line `endsolid` is passed over, so that exactly F
lines start a triangle; the six characters skipped in a `vertex` line are
the word `vertex`, and the scan of the numbers starts right after it; and
the mesh read is got by feeding the F triangles read back from the `vertex`
lines. -/
theorem written_text_roles (L : Libc) (loc : Locals) (mesh0 mesh : SurfaceMesh)
    (fn : List vec3) (ht : mesh.is_triangle_mesh = true) (hn : mesh.fnormal = some fn)
    (hfmt : ∀ f, 10 ∉ L.fmt f ∧ (L.fmt f).length ≤ 27) :
    (∀ l ∈ stlLines L mesh fn, 10 ∉ l ∧ l.length < 100) ∧
    (write_stl L mesh true).file = some (cstr "solid" ++ (writtenChunks L mesh fn).flatten) ∧
    (∃ line, fgets 6 loc.line (cstr "solid" ++ (writtenChunks L mesh fn).flatten) =
        some (line, (writtenChunks L mesh fn).flatten) ∧ isBinary line = false) ∧
    lineRoles (writtenChunks L mesh fn) 0 =
      Role.skipped :: ((mesh.faces.map (fun _ => facetRoles)).flatten ++ [Role.skipped]) ∧
    (lineRoles (writtenChunks L mesh fn) 0).count Role.start = mesh.n_faces ∧
    (∀ v ln, (skipSpace (stored ln (vertexLine L mesh v ++ [10]))).take 6 = cstr "vertex" ∧
      ∀ p, scanRecord L (stored ln (vertexLine L mesh v ++ [10])) p =
        scanVertexLine L (mesh.point v) p) ∧
    read_stl L loc mesh0 (write_stl L mesh true).file =
      (scanLines L ⟨FLT_MIN⟩ (writtenChunks L mesh fn)
        ((startState loc [] []).reframe (writtenChunks L mesh fn).flatten
          (stored loc.line (cstr "solid")))).map
        (fun st => (decide (st.mesh.n_faces > 0), st.mesh)) ∧
    read_stl L loc mesh0 (write_stl L mesh true).file =
      some (decide (0 < (feedAll ⟨FLT_MIN⟩ (readBack L mesh mesh.faces loc.p)
          (startState loc [] [])).mesh.n_faces),
        (feedAll ⟨FLT_MIN⟩ (readBack L mesh mesh.faces loc.p) (startState loc [] [])).mesh) ∧
    (readBack L mesh mesh.faces loc.p).length = mesh.n_faces := by
  have h3 : ∀ f ∈ mesh.faces, f.length = 3 := by
    intro f hf
    have := List.all_eq_true.mp ht f hf
    simpa using this
  have hok := stlLines_ok L hfmt mesh fn
  have hfile : (write_stl L mesh true).file =
      some (cstr "solid" ++ (writtenChunks L mesh fn).flatten) := by
    rw [write_stl_file L mesh fn ht hn, stlText_written]
  have hroles := lineRoles_written L mesh fn h3
  obtain ⟨hfg, hbin⟩ := fgets_solid loc.line (cstr "solid") (writtenChunks L mesh fn).flatten
    (Or.inl rfl)
  refine ⟨fun l hl => ⟨(hok l hl).1, by have := (hok l hl).2; omega⟩, hfile, ⟨_, hfg, hbin⟩,
    hroles, ?_, ?_, ?_, ?_, ?_⟩
  · rw [hroles, List.count_cons, count_start_faces]
    simp [SurfaceMesh.n_faces]
  · intro v ln
    obtain ⟨h1, h2⟩ := skipSpace_vertexLine ln
      (fmt3 L (mesh.points.getD v.toNat ⟨⟨0, 0, 0, 0⟩, ⟨0, 0, 0, 0⟩, ⟨0, 0, 0, 0⟩⟩))
    refine ⟨h1, fun p => ?_⟩
    unfold scanRecord scanVertexLine
    rw [show vertexLine L mesh v = cstr "      vertex " ++
      fmt3 L (mesh.points.getD v.toNat ⟨⟨0, 0, 0, 0⟩, ⟨0, 0, 0, 0⟩, ⟨0, 0, 0, 0⟩⟩) from rfl, h2]
    rfl
  · rw [hfile]
    exact read_stl_scan L loc mesh0 (cstr "solid") (writtenChunks L mesh fn) (Or.inl rfl)
      (chunks_written L hfmt mesh fn)
  · rw [write_stl_file L mesh fn ht hn]
    exact read_stl_written L loc mesh0 mesh fn ht hok
  · exact readBack_length L mesh mesh.faces loc.p

/-- Witness of C20: the text written for the mesh of the one triangle
`(0,0,0)`, `(1,0,0)`, `(0,1,0)` with numbers in hexadecimal has nine lines;
the third starts a triangle, the next three are its vertex records and the
others are passed over; read back, it gives one face. -/
theorem written_text_roles_witness :
    lineRoles (writtenChunks hexLibc oneTriangleMesh [⟨F32.zero, F32.zero, F32.one⟩]) 0 =
      Role.skipped :: ((oneTriangleMesh.faces.map (fun _ => facetRoles)).flatten ++
        [Role.skipped]) ∧
    (lineRoles (writtenChunks hexLibc oneTriangleMesh [⟨F32.zero, F32.zero, F32.one⟩]) 0).count
      Role.start = oneTriangleMesh.n_faces ∧
    lineRoles (writtenChunks hexLibc oneTriangleMesh [⟨F32.zero, F32.zero, F32.one⟩]) 0 =
      [Role.skipped, Role.skipped, Role.start, Role.vertex 0, Role.vertex 1, Role.vertex 2,
        Role.skipped, Role.skipped, Role.skipped] ∧
    (read_stl hexLibc zeroLocals emptyMesh (write_stl hexLibc oneTriangleMesh true).file).map
      (fun r => (r.1, r.2.n_faces)) = some (true, 1) :=
  ⟨(written_text_roles hexLibc zeroLocals emptyMesh oneTriangleMesh
      [⟨F32.zero, F32.zero, F32.one⟩] (by decide!) rfl hexLibc_fmt).2.2.2.1,
    (written_text_roles hexLibc zeroLocals emptyMesh oneTriangleMesh
      [⟨F32.zero, F32.zero, F32.one⟩] (by decide!) rfl hexLibc_fmt).2.2.2.2.1,
    by decide!, by decide!⟩

end easy3d
